import Mathlib

/-!
# Verification of the assignments `01-calculator`, `02-kwic` and `03-indexable-set`

A shallow embedding of `lib/Word.cpp`, `lib/Kwic.cpp`, `lib/IndexableSet.hpp` and of
`lib/Calc.cpp`, `lib/Pocketcalculator.cpp`, `lib/Sevensegment.cpp`; all declarations
live in the namespace `text` of the first two.

* A `std::string` is a `List Char`; `std::isalpha` and `std::tolower` are the
  ones of the default "C" locale (the program never changes the locale).
* A `std::istream` over a string is the record `IStream`: the unread characters
  and the two state bits the code can observe (`eofbit`, `failbit`).
* A `std::set<Key, Compare>` is the list of its elements in iteration order
  (`StdSet`), with `insert` keeping the element already present when an
  equivalent one is inserted.
* An exception is a value of `Except Exception _`.
* An `int` is an integer in the 32-bit range; `+`, `-` and `*` on it wrap around
  (`wrapInt`), and a division whose quotient does not fit an `int` kills the process
  (`Outcome.killed`).
* Loops that consume a stream are recursions over the unread characters; the
  two `while` loops of `kwic` that call a reading function in their condition take
  a fuel argument and return `none` when it runs out; `readWords_total` and
  `index_eq_lines` show that with the fuel `kwic` gives them they never do.
-/

namespace text

/-! ## Characters (`<cctype>`, "C" locale) -/

/-- The function `std::isalpha` of the "C" locale: exactly `A`..`Z` and `a`..`z`. -/
def isalpha (c : Char) : Bool :=
  (decide (65 ≤ c.toNat) && decide (c.toNat ≤ 90)) ||
    (decide (97 ≤ c.toNat) && decide (c.toNat ≤ 122))

/-- The function `std::tolower` of the "C" locale: `A`..`Z` go to `a`..`z`, every other
character is returned unchanged. -/
def tolower (c : Char) : Char :=
  if 65 ≤ c.toNat ∧ c.toNat ≤ 90 then Char.ofNat (c.toNat + 32) else c

/-! ## Exceptions and streams -/

/-- The two exception classes thrown by the repository. -/
inductive Exception where
  | invalid_argument (what : String)
  | out_of_range (what : String)
deriving DecidableEq, Repr

/-- An input stream over a string: the characters not yet extracted and the state
bits (`badbit` is never set on a string stream). -/
structure IStream where
  buf : List Char
  eofbit : Bool
  failbit : Bool
deriving DecidableEq, Repr

/-- A freshly constructed `std::istringstream{text}`. -/
def IStream.ofText (text : List Char) : IStream := ⟨text, false, false⟩

/-- The member `good()`: no state bit is set. -/
def IStream.good (s : IStream) : Bool := !s.eofbit && !s.failbit

/-- The conversion `static_cast<bool>(stream)`, that is `!fail()`. -/
def IStream.ok (s : IStream) : Bool := !s.failbit

/-! ## `Word` (Word.cpp) -/

/-- The class `Word`: its only data member is `std::string value`. -/
structure Word where
  value : List Char
deriving DecidableEq, Repr

namespace Word

/-- The default constructor `Word::Word() : value("default")`. -/
def default : Word := ⟨"default".toList⟩

/-- The loop `for (char c : word) if (!std::isalpha(c)) throw ...` of the constructor. -/
def new.check : List Char → Except Exception Unit
  | [] => .ok ()
  | c :: cs =>
    if !isalpha c then
      .error (.invalid_argument "Word can only contain alphabetic characters")
    else new.check cs

/-- The constructor `Word::Word(std::string const& word)`. -/
def new (word : List Char) : Except Exception Word :=
  if word.isEmpty then
    .error (.invalid_argument "Word cannot be empty")
  else
    match new.check word with
    | .error e => .error e
    | .ok _ => .ok ⟨word⟩

/-- The member `Word::print`: `out << value`; the output stream is the text written so far. -/
def print (w : Word) (out : List Char) : List Char := out ++ w.value

/-- First loop of `Word::read`, `while (in.get(c) && !std::isalpha(c))`, on a
good stream whose unread characters are the argument. `none`: `get` reached the end
of the input (it sets `eofbit` and `failbit`). `some (c, rest)`: the alphabetic
character `c` was extracted and `rest` is still unread. -/
def read.skip : List Char → Option (Char × List Char)
  | [] => none
  | c :: cs => if !isalpha c then read.skip cs else some (c, cs)

/-- Second loop of `Word::read`,
`while (in.peek() != eof && std::isalpha(in.peek())) { in.get(c); newWord += c; }`,
started with `newWord` on a good stream with the given unread characters. The result
is the final `newWord` and the stream: `peek` sets `eofbit` when it meets the end. -/
def read.run : List Char → List Char → List Char × IStream
  | newWord, [] => (newWord, ⟨[], true, false⟩)
  | newWord, c :: cs =>
    if isalpha c then read.run (newWord ++ [c]) cs
    else (newWord, ⟨c :: cs, false, false⟩)

/-- The member `Word::read(std::istream& in)`: the stream and the word after the call.
On a stream that is not good the first `get` extracts nothing and sets `failbit`. -/
def read (s : IStream) (w : Word) : IStream × Word :=
  if !s.good then
    ({ s with failbit := true }, w)
  else
    match read.skip s.buf with
    | none => (⟨[], true, true⟩, w)
    | some (c, rest) =>
      let r := read.run [c] rest
      (r.2, ⟨r.1⟩)

/-- The private static `Word::toLower`. -/
def toLower (c : Char) : Char := tolower c

/-- The private static `Word::compareCaseInsensitive`. -/
def compareCaseInsensitive : List Char → List Char → Int
  | l :: ls, r :: rs =>
    if toLower l < toLower r then -1
    else if toLower l > toLower r then 1
    else compareCaseInsensitive ls rs
  | [], [] => 0
  | [], _ :: _ => -1
  | _ :: _, [] => 1

/-- The member `operator==`. -/
def eq (a other : Word) : Bool := compareCaseInsensitive a.value other.value == 0

/-- The member `operator!=`. -/
def ne (a other : Word) : Bool := !(a.eq other)

/-- The member `operator<`. -/
def lt (a other : Word) : Bool := decide (compareCaseInsensitive a.value other.value < 0)

/-- The member `operator<=`. -/
def le (a other : Word) : Bool := decide (compareCaseInsensitive a.value other.value ≤ 0)

/-- The member `operator>`. -/
def gt (a other : Word) : Bool := decide (compareCaseInsensitive a.value other.value > 0)

/-- The member `operator>=`. -/
def ge (a other : Word) : Bool := decide (compareCaseInsensitive a.value other.value ≥ 0)

end Word

/-! ## `std::set` and the algorithms used by `kwic` -/

/-- The algorithm `std::lexicographical_compare(first1, last1, first2, last2, lt)`. -/
def lexicographical_compare {α : Type} (lt : α → α → Bool) : List α → List α → Bool
  | a :: as, b :: bs =>
    if lt a b then true
    else if lt b a then false
    else lexicographical_compare lt as bs
  | [], _ :: _ => true
  | _, [] => false

/-- The algorithm `std::rotate(v.begin(), v.begin() + i, v.end())`: the elements from
position `i` on come first, followed by the first `i` elements. -/
def rotate {α : Type} (v : List α) (i : Nat) : List α := v.drop i ++ v.take i

/-- A `std::set<Key, Compare>`, given by its elements in iteration order. -/
abbrev StdSet (α : Type) := List α

/-- The member `std::set::insert(x)` for the comparator `comp`: `x` goes before the first
element it is smaller than; when an element equivalent to `x` (neither smaller than
the other) is met, the set is left as it is. -/
def StdSet.insert {α : Type} (comp : α → α → Bool) (x : α) : StdSet α → StdSet α
  | [] => [x]
  | y :: ys =>
    if comp x y then x :: y :: ys
    else if comp y x then y :: StdSet.insert comp x ys
    else y :: ys

/-! ## `kwic` (Kwic.cpp) -/

/-- The alias `using Line = std::vector<Word>`. -/
abbrev Line := List Word

/-- The lambda `comparator` of `kwic`; `Word::operator<` compares the elements. -/
def comparator (lhs rhs : Line) : Bool := lexicographical_compare Word.lt lhs rhs

/-- Extraction loop of `std::getline(in, str)`: characters are moved to `str` until the
delimiter (extracted and dropped) or the end of the input (`eofbit`). -/
def getline.extract : List Char → List Char → List Char × IStream
  | str, [] => (str, ⟨[], true, false⟩)
  | str, c :: cs =>
    if c = '\n' then (str, ⟨cs, false, false⟩)
    else getline.extract (str ++ [c]) cs

/-- The call `std::getline(in, inputLine)`: the stream after the call and the line.
It fails (`failbit`) when the stream is not good or when nothing at all was extracted. -/
def getline (s : IStream) : IStream × List Char :=
  if !s.good then
    ({ s with failbit := true }, [])
  else
    match s.buf with
    | [] => (⟨[], true, true⟩, [])
    | c :: cs =>
      let r := getline.extract [] (c :: cs)
      (r.2, r.1)

/-- The loop `while (lineStream >> w) { words.push_back(w); }`. -/
def kwic.readWords : Nat → IStream → Word → Line → Option Line
  | 0, _, _, _ => none
  | fuel + 1, lineStream, w, words =>
    let r := Word.read lineStream w
    if r.1.ok then kwic.readWords fuel r.1 r.2 (words ++ [r.2])
    else some words

/-- The loop `for (size_t i = 0; i < words.size(); ++i)` inserting every rotation. -/
def kwic.insertRotations (words : Line) (allRotations : StdSet Line) : StdSet Line :=
  (List.range words.length).foldl
    (fun set i => StdSet.insert comparator (rotate words i) set) allRotations

/-- The loop `while (std::getline(in, inputLine))` of `kwic`. -/
def kwic.readLines : Nat → IStream → StdSet Line → Option (StdSet Line)
  | 0, _, _ => none
  | fuel + 1, inp, allRotations =>
    let r := getline inp
    if r.1.ok then
      if r.2.isEmpty then kwic.readLines fuel r.1 allRotations
      else
        match kwic.readWords (r.2.length + 1) (IStream.ofText r.2) Word.default [] with
        | none => none
        | some words =>
          if words.isEmpty then kwic.readLines fuel r.1 allRotations
          else kwic.readLines fuel r.1 (kwic.insertRotations words allRotations)
    else some allRotations

/-- The inner output loop `for (auto const &w : line) out << w << ' ';` followed by
`out << '\n'`. -/
def kwic.writeLine (out : List Char) (line : Line) : List Char :=
  line.foldl (fun o w => w.print o ++ [' ']) out ++ ['\n']

/-- The output loop `for (auto const &line : allRotations)`. -/
def kwic.write (allRotations : StdSet Line) (out : List Char) : List Char :=
  allRotations.foldl kwic.writeLine out

/-- The set `allRotations` when the reading loop of `kwic` ends, for a stream
`std::istringstream{input}`. -/
def kwic.index (input : List Char) : Option (StdSet Line) :=
  kwic.readLines (input.length + 1) (IStream.ofText input) []

/-- The function `kwic(in, out)` for `in = std::istringstream{input}` and an empty
`out`: the text written to `out`. -/
def kwic (input : List Char) : Option (List Char) :=
  match kwic.index input with
  | none => none
  | some allRotations => some (kwic.write allRotations [])

/-! ## Notions used to state the properties -/

/-- The requirements on a comparator (`Compare`): a strict weak ordering, given as
asymmetry and negative transitivity. -/
structure StrictWeak {α : Type} (lt : α → α → Bool) : Prop where
  asymm : ∀ a b, lt a b = true → lt b a = false
  negtrans : ∀ a b c, lt a b = false → lt b c = false → lt a c = false

/-- Equivalence under a comparator: neither element is smaller than the other. -/
def equivUnder {α : Type} (comp : α → α → Bool) (a b : α) : Bool := !comp a b && !comp b a

/-- The comparison of two characters made in the loop of `compareCaseInsensitive`. -/
def Word.charLt (c d : Char) : Bool := decide (Word.toLower c < Word.toLower d)

/-- A string a `Word` may hold: not empty and alphabetic throughout. -/
def alphabetic (s : List Char) : Bool := !s.isEmpty && s.all isalpha

/-- The other letter case of a letter; any other character is left alone. -/
def flipCase (c : Char) : Char :=
  if 65 ≤ c.toNat ∧ c.toNat ≤ 90 then Char.ofNat (c.toNat + 32)
  else if 97 ≤ c.toNat ∧ c.toNat ≤ 122 then Char.ofNat (c.toNat - 32)
  else c

/-- The text `t` is `s` with the letter case of some characters changed. -/
def caseVariant (s t : List Char) : Prop :=
  List.Forall₂ (fun c d => d = c ∨ d = flipCase c) s t

/-- Two lines are case-insensitively equivalent: they have the same number of tokens
and tokens at the same position are equal under `Word::operator==`. -/
def Line.eqv : Line → Line → Bool
  | [], [] => true
  | a :: as, b :: bs => a.eq b && Line.eqv as bs
  | _, _ => false

/-- A sequence is strictly ascending under a comparator: every element is smaller than
every later one. -/
def ascending {α : Type} (comp : α → α → Bool) (s : List α) : Prop :=
  s.Pairwise (fun a b => comp a b = true)

/-- The tokens `kwic` reads from one input line (the loop `kwic.readWords` run on a
stream over the line, with the fuel `kwic` gives it). -/
def tokenize (line : List Char) : Line :=
  (kwic.readWords (line.length + 1) (IStream.ofText line) Word.default []).getD []

/-- Splitting a text at line breaks, `cur` being the part of the current line already
seen; a last line without a line break counts when it is not empty. -/
def inputLines.go : List Char → List Char → List (List Char)
  | cur, [] => if cur.isEmpty then [] else [cur]
  | cur, c :: cs => if c = '\n' then cur :: inputLines.go [] cs else inputLines.go (cur ++ [c]) cs

/-- The lines of an input text, in the order `std::getline` delivers them. -/
def inputLines (input : List Char) : List (List Char) := inputLines.go [] input

/-- The text whose lines are the given ones, separated by line breaks. -/
def joinLines : List (List Char) → List Char
  | [] => []
  | [l] => l
  | l :: l' :: ls => l ++ '\n' :: joinLines (l' :: ls)

/-- All cyclic rotations of a token sequence, by ascending offset `0 .. n-1`. -/
def rotations (words : Line) : List Line := (List.range words.length).map (rotate words)

/-- Every rotation `kwic` generates for an input, in the order of generation: by input
line, then by offset. -/
def generated (input : List Char) : List Line :=
  (inputLines input).flatMap (fun line => rotations (tokenize line))

/-- What one input line does to the set of rotations. -/
def processLine (allRotations : StdSet Line) (line : List Char) : StdSet Line :=
  kwic.insertRotations (tokenize line) allRotations

/-- The text of one output line as the specification words it: the tokens joined by
single spaces, then a line break. -/
def specLine (line : Line) : List Char :=
  (List.intercalate [' '] (line.map Word.value)) ++ ['\n']

/-- What a text, one line or several, does to the set of rotations. -/
def processText (allRotations : StdSet Line) (t : List Char) : StdSet Line :=
  (inputLines t).foldl processLine allRotations

/-- Two token sequences that differ at most in the letter case of their tokens. -/
def tokensVariant (a b : Line) : Prop :=
  List.Forall₂ (fun x y => caseVariant x.value y.value) a b

/-- Two streams in the same state whose unread characters differ at most in letter case. -/
def streamVariant (s t : IStream) : Prop :=
  caseVariant s.buf t.buf ∧ s.eofbit = t.eofbit ∧ s.failbit = t.failbit

/-! ## `IndexableSet` (IndexableSet.hpp) -/

/-- The member `std::set::insert(end(), x)`, insertion with the hint `end()`: when the
largest element is smaller than `x` the new element is put behind it, otherwise the
position is searched as in `insert(x)`. -/
def StdSet.insertAtEnd {α : Type} (comp : α → α → Bool) (x : α) (s : StdSet α) : StdSet α :=
  match s.getLast? with
  | some m => if comp m x then s ++ [x] else StdSet.insert comp x s
  | none => StdSet.insert comp x s

/-- The constructors `std::set(first, last)` and `std::set(std::initializer_list)`, which
`IndexableSet` inherits with `using std::set<T, Compare>::set`: starting from the empty
set, every value of the range is inserted in turn with the hint `end()`. -/
def StdSet.ofRange {α : Type} (comp : α → α → Bool) (values : List α) : StdSet α :=
  values.foldl (fun set x => StdSet.insertAtEnd comp x set) []

/-- The member `IndexableSet::front`. -/
def IndexableSet.front {α : Type} (s : StdSet α) : Except Exception α :=
  if h : s.isEmpty = true then .error (.out_of_range "set is empty")
  else .ok (s.head (fun e => h (by rw [e]; rfl)))

/-- The member `IndexableSet::back`; `*rbegin()` is the last element of the iteration. -/
def IndexableSet.back {α : Type} (s : StdSet α) : Except Exception α :=
  if h : s.isEmpty = true then .error (.out_of_range "set is empty")
  else .ok (s.getLast (fun e => h (by rw [e]; rfl)))

/-- The member `IndexableSet::at(ptrdiff_t index)`. The only arithmetic is `index += sz`
for a negative `index` and a size `sz ≥ 0`, which cannot leave the range of `ptrdiff_t`,
so the integers are unbounded here. `std::advance(it, index); return *it;` is the
element at position `index` of the iteration. -/
def IndexableSet.at {α : Type} (s : StdSet α) (index : Int) : Except Exception α :=
  let sz : Int := s.length
  let index := if index < 0 then index + sz else index
  if h : index < 0 ∨ index ≥ sz then .error (.out_of_range "index out of range")
  else .ok (s.get ⟨index.toNat, by omega⟩)

/-- The member `IndexableSet::operator[]`. -/
def IndexableSet.subscript {α : Type} (s : StdSet α) (index : Int) : Except Exception α :=
  IndexableSet.at s index

/-- The function object `caselessCompare`: both strings are lower-cased with `::tolower`
and compared with `operator<` of `std::string`. -/
def caselessCompare (a b : List Char) : Bool :=
  let lower_a := a.map tolower
  let lower_b := b.map tolower
  lexicographical_compare (fun c d => decide (c < d)) lower_a lower_b

/-- The default comparator `std::less<int>` of `IndexableSet<int>`. -/
def lessInt (a b : Int) : Bool := decide (a < b)

/-! ## Further notions used to state the properties -/

/-- A stream as a scan can find it when only `Word` scans read from it: no state bit is
set, or nothing is left unread. -/
def IStream.consistent (s : IStream) : Bool := s.good || s.buf.isEmpty

/-- The maximal runs of consecutive alphabetic characters of a text, from left to right:
the text is cut at every non-alphabetic character and the empty pieces are dropped. -/
def alphaRuns (line : List Char) : List (List Char) :=
  (line.splitOnP (fun c => !isalpha c)).filter (fun r => !r.isEmpty)

/-- The `Word` values that can exist: the default-constructed one, those the validating
constructor returns, and those a scan leaves in a `Word` that existed before, whatever
the stream and whether the scan succeeds or fails. -/
inductive Word.Reachable : Word → Prop where
  | default : Word.Reachable Word.default
  | new (text : List Char) (w : Word) (h : Word.new text = .ok w) : Word.Reachable w
  | read (s : IStream) (w : Word) (h : Word.Reachable w) : Word.Reachable (Word.read s w).2

/-- The number of elements of a sequence that are smaller than `x` under `comp`. -/
def countSmaller {α : Type} (comp : α → α → Bool) (s : List α) (x : α) : Nat :=
  (s.filter (fun y => comp y x)).length

/-! ## The pocket calculator (`01-calculator`): library functions -/

/-- The function `std::isspace` of the "C" locale: space, `\t`, `\n`, `\v`, `\f`, `\r`. -/
def isspace (c : Char) : Bool :=
  decide (c.toNat = 32) || (decide (9 ≤ c.toNat) && decide (c.toNat ≤ 13))

/-- The function `std::isdigit`: `0`..`9`. -/
def isdigit (c : Char) : Bool := decide (48 ≤ c.toNat) && decide (c.toNat ≤ 57)

/-- The constant `std::numeric_limits<int>::min()` for the 32-bit `int`. -/
def INT_MIN : Int := -2147483648

/-- The constant `std::numeric_limits<int>::max()` for the 32-bit `int`. -/
def INT_MAX : Int := 2147483647

/-- The value an `int` holds after an arithmetic operation whose exact result is `z`:
the result modulo `2^32`, in two's complement. Signed overflow is undefined behaviour in
C++; wrapping around is what the arithmetic of mainstream compilers produces. -/
def wrapInt (z : Int) : Int := (z + 2147483648) % 4294967296 - 2147483648

/-- The decimal digits of a number, most significant first, put in front of `acc`;
the first argument bounds the number of digits. -/
def to_string.digits : Nat → Nat → List Char → List Char
  | 0, _, acc => acc
  | fuel + 1, n, acc =>
    if n / 10 = 0 then Char.ofNat (48 + n % 10) :: acc
    else to_string.digits fuel (n / 10) (Char.ofNat (48 + n % 10) :: acc)

/-- The decimal text of a natural number (a number `n` has at most `n + 1` digits). -/
def to_string.natText (n : Nat) : List Char := to_string.digits (n + 1) n []

/-- The function `std::to_string(int)`: the decimal text, with a leading `-` for a
negative value. -/
def to_string (value : Int) : List Char :=
  if value < 0 then '-' :: to_string.natText value.natAbs
  else to_string.natText value.natAbs

/-- The number a sequence of decimal digits denotes, continuing from `v`. -/
def digitsValue (v : Nat) (ds : List Char) : Nat :=
  ds.foldl (fun acc c => 10 * acc + (c.toNat - 48)) v

/-- The extraction `in >> value` for an `int`. On a stream that is not good only
`failbit` is set. Otherwise leading whitespace is skipped (the end of the input gives
`eofbit` and `failbit`), an optional sign and the decimal digits that follow are
extracted, and `eofbit` is set when the digits reach the end of the input. Without a
digit the extraction fails with value 0; a value outside the range of `int` fails with
the nearest limit stored. -/
def extractInt (s : IStream) (old : Int) : IStream × Int :=
  if !s.good then ({ s with failbit := true }, old)
  else
    match s.buf.dropWhile isspace with
    | [] => (⟨[], true, true⟩, old)
    | c :: cs =>
      let negative := decide (c = '-')
      let body := if c = '-' ∨ c = '+' then cs else c :: cs
      let ds := body.takeWhile isdigit
      let rest := body.dropWhile isdigit
      if ds.isEmpty then (⟨rest, rest.isEmpty, true⟩, 0)
      else
        let v : Int := if negative then -(digitsValue 0 ds : Int) else (digitsValue 0 ds : Int)
        if v < INT_MIN then (⟨rest, rest.isEmpty, true⟩, INT_MIN)
        else if v > INT_MAX then (⟨rest, rest.isEmpty, true⟩, INT_MAX)
        else (⟨rest, rest.isEmpty, false⟩, v)

/-- The extraction `in >> c` for a `char`: leading whitespace is skipped and one
character is extracted; at the end of the input `eofbit` and `failbit` are set. -/
def extractChar (s : IStream) (old : Char) : IStream × Char :=
  if !s.good then ({ s with failbit := true }, old)
  else
    match s.buf.dropWhile isspace with
    | [] => (⟨[], true, true⟩, old)
    | c :: cs => (⟨cs, false, false⟩, c)

/-- The manipulator `in >> std::ws`: whitespace is discarded; reaching the end of the
input sets `eofbit`. On a stream that is not good only `failbit` is set. -/
def IStream.ws (s : IStream) : IStream :=
  if !s.good then { s with failbit := true }
  else ⟨s.buf.dropWhile isspace, (s.buf.dropWhile isspace).isEmpty, false⟩

/-- The member `peek()`: the next character, or `none` for `traits::eof()`, which is
also the result on a stream that is not good. -/
def IStream.peek (s : IStream) : Option Char :=
  if !s.good then none else s.buf.head?

/-! ## The pocket calculator: `Sevensegment.cpp` -/

/-- The glyph `minus`. -/
def minus : List (List Char) := ["   ", "   ", " - ", "   ", "   "].map String.toList

/-- The table `digits`. -/
def digits : List (List (List Char)) :=
  [[" - ", "| |", "   ", "| |", " - "],
   ["   ", "  |", "   ", "  |", "   "],
   [" - ", "  |", " - ", "|  ", " - "],
   [" - ", "  |", " - ", "  |", " - "],
   ["   ", "| |", " - ", "  |", "   "],
   [" - ", "|  ", " - ", "  |", " - "],
   [" - ", "|  ", " - ", "| |", " - "],
   [" - ", "  |", "   ", "  |", "   "],
   [" - ", "| |", " - ", "| |", " - "],
   [" - ", "| |", " - ", "  |", " - "]].map (fun g => g.map String.toList)

/-- The glyph `glyph_E`. -/
def glyph_E : List (List Char) := [" - ", "|  ", " - ", "|  ", " - "].map String.toList

/-- The glyph `glyph_r`. -/
def glyph_r : List (List Char) := ["   ", "   ", " - ", "|  ", "   "].map String.toList

/-- The glyph `glyph_o`. -/
def glyph_o : List (List Char) := ["   ", "   ", " - ", "| |", " - "].map String.toList

/-- The function `glyphFor(char c)`. Only `-` and the digits occur in the text of
`std::to_string`; for any other character the C++ index is out of bounds and the model
gives the empty glyph. -/
def glyphFor (c : Char) : List (List Char) :=
  if c = '-' then minus else digits.getD (c.toNat - 48) []

/-- The function `printLargeNumber(int i, std::ostream &output)`. -/
def printLargeNumber (i : Int) (output : List Char) : List Char :=
  (List.range 5).foldl
    (fun out row => (to_string i).foldl (fun o c => o ++ (glyphFor c).getD row []) out ++ ['\n'])
    output

/-- The function `printLargeError(std::ostream &out)`. -/
def printLargeError (out : List Char) : List Char :=
  (List.range 5).foldl
    (fun o row =>
      [glyph_E, glyph_r, glyph_r, glyph_o, glyph_r].foldl (fun o' g => o' ++ g.getD row []) o
        ++ ['\n'])
    out

/-! ## The pocket calculator: `Calc.cpp` and `Pocketcalculator.cpp` -/

/-- How a run of code ends: it returns, or the process is killed by a signal before it
returns. The latter is what the division instruction does for a quotient that does not
fit an `int`; in C++ the behaviour of such a division is undefined. -/
inductive Outcome (α : Type) where
  | returned (value : α)
  | killed
deriving DecidableEq, Repr

/-- The function `calc(int x, int y, char op)` of `Calc.cpp`. For `/` and `%` with
`x = INT_MIN` and `y = -1` the quotient is not representable: the behaviour of `x / y`
and of `x % y` is undefined and the process is killed (SIGFPE), which no `catch` sees. -/
def Calc.calc (x y : Int) (op : Char) : Outcome (Except Exception Int) :=
  if op = '+' then .returned (.ok (wrapInt (x + y)))
  else if op = '-' then .returned (.ok (wrapInt (x - y)))
  else if op = '*' then .returned (.ok (wrapInt (x * y)))
  else if op = '/' then
    if y = 0 then .returned (.error (.invalid_argument "Error: Division duch 0"))
    else if x = INT_MIN ∧ y = -1 then .killed
    else .returned (.ok (wrapInt (Int.tdiv x y)))
  else if op = '%' then
    if y = 0 then .returned (.error (.invalid_argument "Error: Modulo mit 0, wa willsch?"))
    else if x = INT_MIN ∧ y = -1 then .killed
    else .returned (.ok (wrapInt (Int.tmod x y)))
  else .returned (.error (.invalid_argument "unknown operator"))

/-- The helper `printed_width(int value)`. -/
def printed_width (value : Int) : Nat := (to_string value).length

/-- The statements of the `try` block of `pocketcalculator` up to the call of `calc`:
the value of `result` or the exception thrown, unless the process is killed in `calc`. -/
def pocketcalculator.evaluate (line : List Char) : Outcome (Except Exception Int) :=
  let iss := IStream.ofText line
  let ra := extractInt iss 0
  let rop := extractChar ra.1 (Char.ofNat 0)
  let rb := extractInt rop.1 0
  if !rb.1.ok then .returned (.error (.invalid_argument "invalid format"))
  else
    let iss' := rb.1.ws
    if iss'.peek ≠ none then .returned (.error (.invalid_argument "trailing characters"))
    else Calc.calc ra.2 rb.2 rop.2

/-- The body of the loop of `pocketcalculator` for one line: the output after it.
The handler `catch (...)` turns every exception into the error glyphs; a process killed
in `calc` writes nothing more. -/
def pocketcalculator.processLine (output : List Char) (line : List Char) :
    Outcome (List Char) :=
  if line.isEmpty then .returned (printLargeError output)
  else
    match pocketcalculator.evaluate line with
    | .killed => .killed
    | .returned (.error _) => .returned (printLargeError output)
    | .returned (.ok result) =>
      if printed_width result > 8 then .returned (printLargeError output)
      else .returned (printLargeNumber result output)

/-- The loop `while (std::getline(input, line))` of `pocketcalculator`; `none` when the
fuel runs out. -/
def pocketcalculator.readLines : Nat → IStream → List Char → Option (Outcome (List Char))
  | 0, _, _ => none
  | fuel + 1, input, output =>
    let r := getline input
    if r.1.ok then
      match pocketcalculator.processLine output r.2 with
      | .killed => some .killed
      | .returned output' => pocketcalculator.readLines fuel r.1 output'
    else some (.returned output)

/-- The function `pocketcalculator(input, output)` for `input = std::istringstream{text}`
and an empty `output`: the text written when it returns. -/
def pocketcalculator (text : List Char) : Option (Outcome (List Char)) :=
  pocketcalculator.readLines (text.length + 1) (IStream.ofText text) []

/-! ## Notions used to state the properties of the pocket calculator -/

/-- The exact value of `a op b` for the five operators, `/` rounding towards zero and
`%` being the remainder of that division, as in C++. -/
def exactResult (a b : Int) (op : Char) : Int :=
  if op = '+' then a + b
  else if op = '-' then a - b
  else if op = '*' then a * b
  else if op = '/' then Int.tdiv a b
  else Int.tmod a b

/-- The value lies in the range of `int`. -/
def inIntRange (z : Int) : Prop := INT_MIN ≤ z ∧ z ≤ INT_MAX

/-- The output of the loop body run on the given lines in turn, unless the process is
killed on the way. -/
def pocketcalculator.processLines : List Char → List (List Char) → Outcome (List Char)
  | output, [] => .returned output
  | output, line :: lines =>
    match pocketcalculator.processLine output line with
    | .killed => .killed
    | .returned output' => pocketcalculator.processLines output' lines

/-- An input line of the form `a op b`: the decimal texts of `a` and `b` around the
operator, with optional whitespace `w1` .. `w4` before, between and after them. -/
def expressionLine (w1 : List Char) (a : Int) (w2 : List Char) (op : Char) (w3 : List Char)
    (b : Int) (w4 : List Char) : List Char :=
  w1 ++ to_string a ++ w2 ++ [op] ++ w3 ++ to_string b ++ w4

/-! ## Strict weak orderings and lexicographic comparison -/

namespace StrictWeak
variable {α : Type} {lt : α → α → Bool}

theorem irrefl (h : StrictWeak lt) (a : α) : lt a a = false := by
  cases hx : lt a a
  · rfl
  · have := h.asymm a a hx
    simp_all

theorem trans (h : StrictWeak lt) {a b c : α} (hab : lt a b = true) (hbc : lt b c = true) :
    lt a c = true := by
  cases hac : lt a c
  · have h1 := h.negtrans a c b hac (h.asymm b c hbc)
    simp_all
  · rfl

end StrictWeak

theorem lex_nil_right {α : Type} (lt : α → α → Bool) (l : List α) :
    lexicographical_compare lt l [] = false := by
  cases l <;> rfl

theorem lex_asymm {α : Type} {lt : α → α → Bool} (h : StrictWeak lt) :
    ∀ l r : List α, lexicographical_compare lt l r = true →
      lexicographical_compare lt r l = false
  | [], [] => by simp [lexicographical_compare]
  | [], _ :: _ => by simp [lexicographical_compare]
  | _ :: _, [] => by simp [lexicographical_compare]
  | a :: as, b :: bs => by
    have ih := lex_asymm h as bs
    have h1 := h.asymm a b
    have h2 := h.asymm b a
    simp only [lexicographical_compare]
    cases hab : lt a b <;> cases hba : lt b a <;> simp_all

theorem lex_negtrans {α : Type} {lt : α → α → Bool} (h : StrictWeak lt) :
    ∀ l m r : List α, lexicographical_compare lt l m = false →
      lexicographical_compare lt m r = false → lexicographical_compare lt l r = false
  | _, _, [] => by intros; exact lex_nil_right lt _
  | [], [], _ :: _ => by simp [lexicographical_compare]
  | [], _ :: _, _ :: _ => by simp [lexicographical_compare]
  | _ :: _, [], _ :: _ => by simp [lexicographical_compare]
  | a :: as, b :: bs, c :: cs => by
    have ih := lex_negtrans h as bs cs
    have n1 := h.negtrans a b c
    have n2 := h.negtrans c b a
    have n3 := h.negtrans b c a
    have n4 := h.negtrans c a b
    have n5 := h.negtrans b a c
    have n6 := h.negtrans a c b
    simp only [lexicographical_compare]
    cases hab : lt a b <;> cases hba : lt b a <;> cases hbc : lt b c <;> cases hcb : lt c b <;>
      cases hac : lt a c <;> cases hca : lt c a <;> simp_all

theorem lex_strictWeak {α : Type} {lt : α → α → Bool} (h : StrictWeak lt) :
    StrictWeak (lexicographical_compare lt) :=
  ⟨lex_asymm h, lex_negtrans h⟩

/-! ## `Word`: comparison -/

theorem charLt_strictWeak : StrictWeak Word.charLt := by
  constructor
  · intro a b h
    simp only [Word.charLt, decide_eq_true_eq, decide_eq_false_iff_not] at *
    exact lt_asymm h
  · intro a b c h1 h2
    simp only [Word.charLt, decide_eq_false_iff_not, not_lt] at *
    exact le_trans h2 h1

theorem cci_range (a b : List Char) :
    Word.compareCaseInsensitive a b = -1 ∨ Word.compareCaseInsensitive a b = 0 ∨
      Word.compareCaseInsensitive a b = 1 := by
  induction a generalizing b with
  | nil => cases b <;> simp [Word.compareCaseInsensitive]
  | cons l ls ih =>
    cases b with
    | nil => simp [Word.compareCaseInsensitive]
    | cons r rs =>
      simp only [Word.compareCaseInsensitive]
      split_ifs
      · simp
      · simp
      · exact ih rs

theorem cci_swap (a b : List Char) :
    Word.compareCaseInsensitive b a = - Word.compareCaseInsensitive a b := by
  induction a generalizing b with
  | nil => cases b <;> simp [Word.compareCaseInsensitive]
  | cons l ls ih =>
    cases b with
    | nil => simp [Word.compareCaseInsensitive]
    | cons r rs =>
      simp only [Word.compareCaseInsensitive, gt_iff_lt]
      rcases lt_trichotomy (Word.toLower l) (Word.toLower r) with h | h | h
      · simp [h, lt_asymm h]
      · simp [h, ih rs]
      · simp [h, lt_asymm h]

theorem cci_lt_iff (a b : List Char) :
    Word.compareCaseInsensitive a b < 0 ↔ lexicographical_compare Word.charLt a b = true := by
  induction a generalizing b with
  | nil => cases b <;> simp [Word.compareCaseInsensitive, lexicographical_compare]
  | cons l ls ih =>
    cases b with
    | nil => simp [Word.compareCaseInsensitive, lexicographical_compare]
    | cons r rs =>
      simp only [Word.compareCaseInsensitive, lexicographical_compare, Word.charLt, gt_iff_lt]
      rcases lt_trichotomy (Word.toLower l) (Word.toLower r) with h | h | h
      · simp [h]
      · simp [h, ih rs]
      · simp [h, lt_asymm h]

theorem cci_eq_zero_iff (a b : List Char) :
    Word.compareCaseInsensitive a b = 0 ↔ a.map tolower = b.map tolower := by
  induction a generalizing b with
  | nil => cases b <;> simp [Word.compareCaseInsensitive]
  | cons l ls ih =>
    cases b with
    | nil => simp [Word.compareCaseInsensitive]
    | cons r rs =>
      simp only [Word.compareCaseInsensitive, gt_iff_lt, List.map_cons, List.cons.injEq]
      rcases lt_trichotomy (Word.toLower l) (Word.toLower r) with h | h | h
      · have : tolower l ≠ tolower r := ne_of_lt h
        simp [h, this]
      · have h' : tolower l = tolower r := h
        simp [h, h', ih rs]
      · have : tolower l ≠ tolower r := ne_of_gt h
        simp [h, lt_asymm h, this]

theorem Word.lt_eq_lex (a b : Word) :
    a.lt b = lexicographical_compare Word.charLt a.value b.value := by
  have h := cci_lt_iff a.value b.value
  unfold Word.lt
  cases hx : lexicographical_compare Word.charLt a.value b.value
  · simpa [hx] using h
  · simpa [hx] using h

theorem Word.lt_strictWeak : StrictWeak Word.lt := by
  have h := lex_strictWeak charLt_strictWeak
  constructor
  · intro a b
    simpa [Word.lt_eq_lex] using h.asymm a.value b.value
  · intro a b c
    simpa [Word.lt_eq_lex] using h.negtrans a.value b.value c.value

theorem Word.eq_iff_equiv (a b : Word) : a.eq b = equivUnder Word.lt a b := by
  have hs := cci_swap a.value b.value
  have hr := cci_range a.value b.value
  unfold Word.eq equivUnder Word.lt
  rw [hs]
  rcases hr with h | h | h <;> simp [h]


/-! ## Characters -/

theorem toNat_ofNat_small (n : Nat) (h : n < 55296) : (Char.ofNat n).toNat = n := by
  have hv : n.isValidChar := Or.inl h
  unfold Char.ofNat
  rw [dif_pos hv]
  simp [Char.ofNatAux, Char.toNat, UInt32.toNat]

theorem tolower_flipCase (c : Char) : tolower (flipCase c) = tolower c := by
  unfold flipCase tolower
  by_cases h1 : 65 ≤ c.toNat ∧ c.toNat ≤ 90
  · have h2 : (Char.ofNat (c.toNat + 32)).toNat = c.toNat + 32 :=
      toNat_ofNat_small _ (by omega)
    have h3 : ¬ (65 ≤ c.toNat + 32 ∧ c.toNat + 32 ≤ 90) := by omega
    simp only [h1, and_self, if_true, h2, h3, if_false]
  · by_cases h4 : 97 ≤ c.toNat ∧ c.toNat ≤ 122
    · have h2 : (Char.ofNat (c.toNat - 32)).toNat = c.toNat - 32 :=
        toNat_ofNat_small _ (by omega)
      have h3 : 65 ≤ c.toNat - 32 ∧ c.toNat - 32 ≤ 90 := by omega
      have h5 : c.toNat - 32 + 32 = c.toNat := by omega
      simp only [h1, if_false, h4, and_self, if_true, h2, h3, h5, Char.ofNat_toNat]
    · simp only [h1, if_false, h4]

theorem isalpha_flipCase (c : Char) : isalpha (flipCase c) = isalpha c := by
  unfold flipCase isalpha
  by_cases h1 : 65 ≤ c.toNat ∧ c.toNat ≤ 90
  · have h2 : (Char.ofNat (c.toNat + 32)).toNat = c.toNat + 32 :=
      toNat_ofNat_small _ (by omega)
    rw [if_pos h1, h2]
    have h6 : 97 ≤ c.toNat + 32 ∧ c.toNat + 32 ≤ 122 := by omega
    simp [h1, h6]
  · by_cases h4 : 97 ≤ c.toNat ∧ c.toNat ≤ 122
    · have h2 : (Char.ofNat (c.toNat - 32)).toNat = c.toNat - 32 :=
        toNat_ofNat_small _ (by omega)
      rw [if_neg h1, if_pos h4, h2]
      have h3 : 65 ≤ c.toNat - 32 ∧ c.toNat - 32 ≤ 90 := by omega
      simp [h3, h4]
    · rw [if_neg h1, if_neg h4]

theorem caseVariant_tolower {s t : List Char} (h : caseVariant s t) :
    s.map tolower = t.map tolower := by
  induction h with
  | nil => rfl
  | cons hcd _ ih =>
    rcases hcd with rfl | rfl
    · simp [ih]
    · simp [ih, tolower_flipCase]

theorem caseVariant_isalpha {s t : List Char} (h : caseVariant s t) :
    s.map isalpha = t.map isalpha := by
  induction h with
  | nil => rfl
  | cons hcd _ ih =>
    rcases hcd with rfl | rfl
    · simp [ih]
    · simp [ih, isalpha_flipCase]

theorem caseVariant_refl (s : List Char) : caseVariant s s := by
  induction s with
  | nil => exact List.Forall₂.nil
  | cons c cs ih => exact List.Forall₂.cons (Or.inl rfl) ih

/-! ## `Word`: construction -/

theorem new_check_ok {text : List Char} (h : text.all isalpha = true) :
    Word.new.check text = .ok () := by
  induction text with
  | nil => rfl
  | cons c cs ih =>
    simp only [List.all_cons, Bool.and_eq_true] at h
    simp [Word.new.check, h.1, ih h.2]

theorem new_check_error {text : List Char} (h : text.all isalpha = false) :
    Word.new.check text =
      .error (.invalid_argument "Word can only contain alphabetic characters") := by
  induction text with
  | nil => simp at h
  | cons c cs ih =>
    cases hc : isalpha c
    · simp [Word.new.check, hc]
    · simp only [List.all_cons, hc, Bool.true_and] at h
      simp [Word.new.check, hc, ih h]

theorem Word.new_of_alphabetic {text : List Char} (h : alphabetic text = true) :
    Word.new text = .ok ⟨text⟩ := by
  simp only [alphabetic, Bool.and_eq_true, Bool.not_eq_true'] at h
  simp [Word.new, h.1, new_check_ok h.2]

theorem Word.new_of_not_alphabetic {text : List Char} (h : alphabetic text = false) :
    ∃ what, Word.new text = .error (.invalid_argument what) := by
  cases he : text.isEmpty
  · simp only [alphabetic, he, Bool.not_false, Bool.true_and] at h
    exact ⟨"Word can only contain alphabetic characters",
      by simp [Word.new, he, new_check_error h]⟩
  · exact ⟨"Word cannot be empty", by simp [Word.new, he]⟩

theorem alphabetic_eq_false_iff (text : List Char) :
    alphabetic text = false ↔ (text = [] ∨ ∃ c ∈ text, isalpha c = false) := by
  cases text with
  | nil => simp [alphabetic]
  | cons c cs =>
    cases hc : isalpha c <;> simp [alphabetic, hc]

/-- C7: constructing `Word(text)` throws `invalid_argument` exactly when `text` is empty
or holds a non-alphabetic character; otherwise the construction succeeds and printing
the word gives `text` back unchanged. -/
theorem Word_new_fails_iff_and_round_trip (text : List Char) :
    ((∃ what, Word.new text = .error (.invalid_argument what)) ↔
        (text = [] ∨ ∃ c ∈ text, isalpha c = false)) ∧
      ((∃ e, Word.new text = .error e) ↔ (text = [] ∨ ∃ c ∈ text, isalpha c = false)) ∧
      (¬ (text = [] ∨ ∃ c ∈ text, isalpha c = false) →
        ∃ w, Word.new text = .ok w ∧ w.print [] = text) := by
  rw [← alphabetic_eq_false_iff]
  cases h : alphabetic text
  · obtain ⟨what, hw⟩ := Word.new_of_not_alphabetic h
    refine ⟨⟨fun _ => rfl, fun _ => ⟨what, hw⟩⟩, ⟨fun _ => rfl, fun _ => ⟨_, hw⟩⟩, ?_⟩
    intro hn
    exact absurd rfl hn
  · have hw := Word.new_of_alphabetic h
    refine ⟨⟨?_, fun hf => by cases hf⟩, ⟨?_, fun hf => by cases hf⟩, ?_⟩
    · rintro ⟨what, he⟩
      rw [hw] at he
      cases he
    · rintro ⟨e, he⟩
      rw [hw] at he
      cases he
    · intro _
      exact ⟨⟨text⟩, hw, by simp [Word.print]⟩

/-- C7, at concrete texts: `Python` is accepted and printed back, while the empty text,
`abc xyz`, `abc3xyz` and `abc.xyz` are rejected. -/
theorem Word_new_fails_iff_and_round_trip_witness :
    (∃ w, Word.new "Python".toList = .ok w ∧ w.print [] = "Python".toList) ∧
      (∃ what, Word.new [] = .error (.invalid_argument what)) ∧
      (∃ what, Word.new "abc xyz".toList = .error (.invalid_argument what)) ∧
      (∃ what, Word.new "abc3xyz".toList = .error (.invalid_argument what)) ∧
      (∃ what, Word.new "abc.xyz".toList = .error (.invalid_argument what)) :=
  ⟨(Word_new_fails_iff_and_round_trip "Python".toList).2.2 (by decide),
    (Word_new_fails_iff_and_round_trip []).1.2 (by decide),
    (Word_new_fails_iff_and_round_trip "abc xyz".toList).1.2 (by decide),
    (Word_new_fails_iff_and_round_trip "abc3xyz".toList).1.2 (by decide),
    (Word_new_fails_iff_and_round_trip "abc.xyz".toList).1.2 (by decide)⟩


/-! ## `Word`: the comparison, position by position -/

theorem cci_first_difference :
    ∀ (a b : List Char) (i : Nat) (x y : Char),
      (a.map tolower)[i]? = some x → (b.map tolower)[i]? = some y → x ≠ y →
      (∀ j, j < i → (a.map tolower)[j]? = (b.map tolower)[j]?) →
      Word.compareCaseInsensitive a b = if x < y then -1 else 1
  | [], _, _, _, _ => by simp
  | _ :: _, [], _, _, _ => by simp
  | l :: ls, r :: rs, 0, x, y => by
    intro hx hy hne _
    simp only [List.map_cons, List.getElem?_cons_zero, Option.some.injEq] at hx hy
    subst hx hy
    simp only [Word.compareCaseInsensitive, Word.toLower, gt_iff_lt]
    rcases lt_trichotomy (tolower l) (tolower r) with h | h | h
    · simp [h]
    · exact absurd h hne
    · simp [h, lt_asymm h]
  | l :: ls, r :: rs, i + 1, x, y => by
    intro hx hy hne hj
    have h0 := hj 0 (Nat.succ_pos i)
    simp only [List.map_cons, List.getElem?_cons_zero, Option.some.injEq] at h0
    simp only [List.map_cons, List.getElem?_cons_succ] at hx hy
    have ih := cci_first_difference ls rs i x y hx hy hne (fun j hji => by
      have := hj (j + 1) (Nat.succ_lt_succ hji)
      simpa using this)
    simp only [Word.compareCaseInsensitive, Word.toLower, gt_iff_lt, h0, lt_irrefl, if_false]
    exact ih

theorem cci_shorter :
    ∀ (a b : List Char),
      (∀ j, j < a.length → (a.map tolower)[j]? = (b.map tolower)[j]?) →
      a.length < b.length → Word.compareCaseInsensitive a b = -1
  | [], [] => by simp
  | [], _ :: _ => by simp [Word.compareCaseInsensitive]
  | _ :: _, [] => by simp
  | l :: ls, r :: rs => by
    intro hj hlen
    have h0 := hj 0 (by simp)
    simp only [List.map_cons, List.getElem?_cons_zero, Option.some.injEq] at h0
    have ih := cci_shorter ls rs (fun j hji => by
      have := hj (j + 1) (by simpa using hji)
      simpa using this) (by simpa using hlen)
    simp only [Word.compareCaseInsensitive, Word.toLower, gt_iff_lt, h0, lt_irrefl, if_false]
    exact ih

/-- C8: for alphabetic strings `a` and `b`, `compareCaseInsensitive` is the lexicographic
comparison of the lower-cased strings. The first position at which the lower-cased
characters differ decides (`-1` when the character of `a` is the smaller one, `1`
otherwise); when no position differs the shorter string is the smaller one; when the
lower-cased strings coincide the result is `0`. The operators `<`, `>` and `==` test
the sign of that result. -/
theorem compareCaseInsensitive_is_lexicographic_on_lower_case (a b : List Char)
    (ha : alphabetic a = true) (hb : alphabetic b = true) :
    (∀ (i : Nat) (x y : Char),
        (a.map tolower)[i]? = some x → (b.map tolower)[i]? = some y → x ≠ y →
        (∀ j, j < i → (a.map tolower)[j]? = (b.map tolower)[j]?) →
        Word.compareCaseInsensitive a b = if x < y then -1 else 1) ∧
      ((∀ j, j < a.length → (a.map tolower)[j]? = (b.map tolower)[j]?) →
        a.length < b.length → Word.compareCaseInsensitive a b = -1) ∧
      ((∀ j, j < b.length → (a.map tolower)[j]? = (b.map tolower)[j]?) →
        b.length < a.length → Word.compareCaseInsensitive a b = 1) ∧
      (a.map tolower = b.map tolower ↔ Word.compareCaseInsensitive a b = 0) ∧
      (∃ wa wb, Word.new a = .ok wa ∧ Word.new b = .ok wb ∧
        (wa.lt wb = true ↔ Word.compareCaseInsensitive a b = -1) ∧
        (wa.gt wb = true ↔ Word.compareCaseInsensitive a b = 1) ∧
        (wa.eq wb = true ↔ Word.compareCaseInsensitive a b = 0)) := by
  refine ⟨cci_first_difference a b, cci_shorter a b, ?_, (cci_eq_zero_iff a b).symm, ?_⟩
  · intro hj hlen
    have h := cci_shorter b a (fun j hjb => (hj j hjb).symm) hlen
    rw [cci_swap b a, h]
    rfl
  · refine ⟨⟨a⟩, ⟨b⟩, Word.new_of_alphabetic ha, Word.new_of_alphabetic hb, ?_⟩
    simp only [Word.lt, Word.gt, Word.eq]
    rcases cci_range a b with h | h | h <;> simp [h]

/-- C8, at the words of the tests: `ADA` and `java` differ at position 0, where
`a < j`, so `Word("ADA") < Word("java")`; `Lisp` and `brainfuck` differ at position 0,
where `l > b`, so `Word("Lisp") > Word("brainfuck")`. -/
theorem compareCaseInsensitive_is_lexicographic_on_lower_case_witness :
    (alphabetic "ADA".toList = true ∧ alphabetic "java".toList = true ∧
        Word.compareCaseInsensitive "ADA".toList "java".toList = -1 ∧
        Word.lt ⟨"ADA".toList⟩ ⟨"java".toList⟩ = true) ∧
      (alphabetic "Lisp".toList = true ∧ alphabetic "brainfuck".toList = true ∧
        Word.compareCaseInsensitive "Lisp".toList "brainfuck".toList = 1 ∧
        Word.gt ⟨"Lisp".toList⟩ ⟨"brainfuck".toList⟩ = true) :=
  ⟨⟨by decide, by decide,
      (compareCaseInsensitive_is_lexicographic_on_lower_case "ADA".toList "java".toList
        (by decide) (by decide)).1 0 'a' 'j' (by decide) (by decide) (by decide)
        (fun j hj => absurd hj (Nat.not_lt_zero j)),
      by decide⟩,
    ⟨by decide, by decide,
      (compareCaseInsensitive_is_lexicographic_on_lower_case "Lisp".toList "brainfuck".toList
        (by decide) (by decide)).1 0 'l' 'b' (by decide) (by decide) (by decide)
        (fun j hj => absurd hj (Nat.not_lt_zero j)),
      by decide⟩⟩

/-! ## `Word`: order properties -/

/-- C9: `operator<` of `Word` is a strict total order up to `operator==`: it is
irreflexive and transitive, exactly one of `a < b`, `a == b`, `b < a` holds, and
`a == b` holds exactly when neither `a < b` nor `b < a` does. -/
theorem Word_lt_strict_total_order (a b c : Word) :
    a.lt a = false ∧
      (a.lt b = true → b.lt c = true → a.lt c = true) ∧
      ((a.lt b = true ∧ a.eq b = false ∧ b.lt a = false) ∨
        (a.lt b = false ∧ a.eq b = true ∧ b.lt a = false) ∨
        (a.lt b = false ∧ a.eq b = false ∧ b.lt a = true)) ∧
      (a.eq b = true ↔ (a.lt b = false ∧ b.lt a = false)) := by
  have hsw := Word.lt_strictWeak
  refine ⟨hsw.irrefl a, fun h1 h2 => hsw.trans h1 h2, ?_, ?_⟩
  · have he := Word.eq_iff_equiv a b
    have h1 := hsw.asymm a b
    have h2 := hsw.asymm b a
    unfold equivUnder at he
    cases hab : a.lt b <;> cases hba : b.lt a <;> simp_all
  · rw [Word.eq_iff_equiv]
    simp [equivUnder]

/-- C9, at concrete words: `Erlang < Fortran` and `Fortran < Go` give `Erlang < Go`;
`Erlang` is not smaller than itself. -/
theorem Word_lt_strict_total_order_witness :
    Word.lt ⟨"Erlang".toList⟩ ⟨"Fortran".toList⟩ = true ∧
      Word.lt ⟨"Fortran".toList⟩ ⟨"Go".toList⟩ = true ∧
      Word.lt ⟨"Erlang".toList⟩ ⟨"Go".toList⟩ = true ∧
      Word.lt ⟨"Erlang".toList⟩ ⟨"Erlang".toList⟩ = false :=
  ⟨by decide, by decide,
    (Word_lt_strict_total_order ⟨"Erlang".toList⟩ ⟨"Fortran".toList⟩ ⟨"Go".toList⟩).2.1
      (by decide) (by decide),
    (Word_lt_strict_total_order ⟨"Erlang".toList⟩ ⟨"Fortran".toList⟩ ⟨"Go".toList⟩).1⟩

theorem caseVariant_alphabetic {s t : List Char} (h : caseVariant s t)
    (hs : alphabetic s = true) : alphabetic t = true := by
  have hm := caseVariant_isalpha h
  have hl : s.length = t.length := h.length_eq
  simp only [alphabetic, Bool.and_eq_true, Bool.not_eq_true', List.isEmpty_eq_false,
    List.all_eq_true] at hs ⊢
  have hmap : ∀ (u : List Char), (∀ x ∈ u, isalpha x = true) ↔ ∀ y ∈ u.map isalpha, y = true := by
    intro u
    simp
  refine ⟨?_, ?_⟩
  · intro ht
    apply hs.1
    rw [ht] at hl
    exact List.length_eq_zero.mp hl
  · rw [hmap, ← hm, ← hmap]
    exact hs.2

/-- C10: `Word` comparison ignores letter case: when `s` is alphabetic and `t` is `s`
with the case of any of its characters changed, both words can be constructed,
`Word(s) == Word(t)` holds and neither is smaller than the other. -/
theorem Word_comparison_case_insensitive (s t : List Char)
    (hs : alphabetic s = true) (hst : caseVariant s t) :
    ∃ ws wt, Word.new s = .ok ws ∧ Word.new t = .ok wt ∧
      ws.eq wt = true ∧ ws.lt wt = false ∧ wt.lt ws = false := by
  refine ⟨⟨s⟩, ⟨t⟩, Word.new_of_alphabetic hs,
    Word.new_of_alphabetic (caseVariant_alphabetic hst hs), ?_⟩
  have h0 : Word.compareCaseInsensitive s t = 0 :=
    (cci_eq_zero_iff s t).2 (caseVariant_tolower hst)
  have h1 : Word.compareCaseInsensitive t s = 0 := by rw [cci_swap s t, h0]; rfl
  simp [Word.eq, Word.lt, h0, h1]

/-- C10, at the words of the tests: `basic` and `BASIC` are equal and neither is smaller. -/
theorem Word_comparison_case_insensitive_witness :
    alphabetic "basic".toList = true ∧ caseVariant "basic".toList "BASIC".toList ∧
      ∃ ws wt, Word.new "basic".toList = .ok ws ∧ Word.new "BASIC".toList = .ok wt ∧
        ws.eq wt = true ∧ ws.lt wt = false ∧ wt.lt ws = false :=
  ⟨by decide,
    by unfold caseVariant; repeat (first | exact List.Forall₂.nil | refine List.Forall₂.cons (by decide) ?_),
    Word_comparison_case_insensitive "basic".toList "BASIC".toList (by decide)
      (by unfold caseVariant; repeat (first | exact List.Forall₂.nil | refine List.Forall₂.cons (by decide) ?_))⟩


/-! ## `std::set`: insertion into a strictly ascending sequence -/

section StdSetLemmas
variable {α : Type} {comp : α → α → Bool}

theorem equivUnder_iff (a b : α) :
    equivUnder comp a b = true ↔ comp a b = false ∧ comp b a = false := by
  simp [equivUnder]

theorem equivUnder_refl (h : StrictWeak comp) (a : α) : equivUnder comp a a = true := by
  simp [equivUnder, h.irrefl a]

theorem equivUnder_symm {a b : α} (hab : equivUnder comp a b = true) :
    equivUnder comp b a = true := by
  rw [equivUnder_iff] at *
  exact ⟨hab.2, hab.1⟩

theorem equivUnder_trans (h : StrictWeak comp) {a b c : α}
    (hab : equivUnder comp a b = true) (hbc : equivUnder comp b c = true) :
    equivUnder comp a c = true := by
  rw [equivUnder_iff] at *
  exact ⟨h.negtrans a b c hab.1 hbc.1, h.negtrans c b a hbc.2 hab.2⟩

theorem StdSet.subset_insert (x : α) (s : StdSet α) {y : α} (hy : y ∈ s) :
    y ∈ StdSet.insert comp x s := by
  induction s with
  | nil => cases hy
  | cons z zs ih =>
    simp only [StdSet.insert]
    split_ifs
    · exact List.mem_cons_of_mem _ hy
    · rcases List.mem_cons.1 hy with rfl | hy'
      · exact List.mem_cons_self _ _
      · exact List.mem_cons_of_mem _ (ih hy')
    · exact hy

theorem StdSet.mem_insert_cases (x : α) (s : StdSet α) {y : α}
    (hy : y ∈ StdSet.insert comp x s) : y = x ∨ y ∈ s := by
  induction s with
  | nil =>
    simp only [StdSet.insert, List.mem_singleton] at hy
    exact Or.inl hy
  | cons z zs ih =>
    simp only [StdSet.insert] at hy
    split_ifs at hy
    · rcases List.mem_cons.1 hy with rfl | hy'
      · exact Or.inl rfl
      · exact Or.inr hy'
    · rcases List.mem_cons.1 hy with rfl | hy'
      · exact Or.inr (List.mem_cons_self _ _)
      · rcases ih hy' with h | h
        · exact Or.inl h
        · exact Or.inr (List.mem_cons_of_mem _ h)
    · exact Or.inr hy

theorem StdSet.insert_ascending (h : StrictWeak comp) (x : α) (s : StdSet α)
    (hs : ascending comp s) : ascending comp (StdSet.insert comp x s) := by
  induction s with
  | nil => simp [StdSet.insert, ascending]
  | cons z zs ih =>
    unfold ascending at hs ih ⊢
    rw [List.pairwise_cons] at hs
    simp only [StdSet.insert]
    split_ifs with h1 h2
    · rw [List.pairwise_cons]
      refine ⟨?_, List.pairwise_cons.2 hs⟩
      intro y hy
      rcases List.mem_cons.1 hy with rfl | hy'
      · exact h1
      · exact h.trans h1 (hs.1 y hy')
    · rw [List.pairwise_cons]
      refine ⟨?_, ih hs.2⟩
      intro y hy
      rcases StdSet.mem_insert_cases x zs hy with rfl | hy'
      · exact h2
      · exact hs.1 y hy'
    · exact List.pairwise_cons.2 hs

theorem StdSet.insert_has_equiv (h : StrictWeak comp) (x : α) (s : StdSet α) :
    ∃ z ∈ StdSet.insert comp x s, equivUnder comp x z = true := by
  induction s with
  | nil => exact ⟨x, by simp [StdSet.insert], equivUnder_refl h x⟩
  | cons y ys ih =>
    simp only [StdSet.insert]
    split_ifs with h1 h2
    · exact ⟨x, List.mem_cons_self _ _, equivUnder_refl h x⟩
    · obtain ⟨z, hz, hxz⟩ := ih
      exact ⟨z, List.mem_cons_of_mem _ hz, hxz⟩
    · refine ⟨y, List.mem_cons_self _ _, ?_⟩
      simp only [Bool.not_eq_true] at h1 h2
      simp [equivUnder, h1, h2]

theorem StdSet.insert_of_equiv (h : StrictWeak comp) (x : α) (s : StdSet α)
    (hs : ascending comp s) (hx : ∃ z ∈ s, equivUnder comp x z = true) :
    StdSet.insert comp x s = s := by
  induction s with
  | nil =>
    obtain ⟨z, hz, _⟩ := hx
    cases hz
  | cons y ys ih =>
    unfold ascending at hs ih
    rw [List.pairwise_cons] at hs
    obtain ⟨z, hz, hxz⟩ := hx
    rw [equivUnder_iff] at hxz
    simp only [StdSet.insert]
    split_ifs with h1 h2
    · exfalso
      rcases List.mem_cons.1 hz with rfl | hz'
      · rw [hxz.1] at h1
        cases h1
      · have := h.trans h1 (hs.1 z hz')
        rw [hxz.1] at this
        cases this
    · rcases List.mem_cons.1 hz with rfl | hz'
      · rw [hxz.2] at h2
        cases h2
      · rw [ih hs.2 ⟨z, hz', (equivUnder_iff x z).2 hxz⟩]
    · rfl

theorem StdSet.mem_insert_self_or (x : α) (s : StdSet α) :
    x ∈ StdSet.insert comp x s ∨ StdSet.insert comp x s = s := by
  induction s with
  | nil => exact Or.inl (by simp [StdSet.insert])
  | cons y ys ih =>
    simp only [StdSet.insert]
    split_ifs
    · exact Or.inl (List.mem_cons_self _ _)
    · rcases ih with h | h
      · exact Or.inl (List.mem_cons_of_mem _ h)
      · exact Or.inr (by rw [h])
    · exact Or.inr rfl

/-- The invariant of a set built by insertions: it is strictly ascending, every element
is the first of the inserted ones in its equivalence class, and every inserted element
has an equivalent element in the set. -/
theorem foldl_insert_invariant (h : StrictWeak comp) (gen : List α) :
    ∀ (s : StdSet α) (done : List α),
      (ascending comp s ∧
        (∀ e ∈ s, done.find? (fun g => equivUnder comp e g) = some e) ∧
        (∀ d ∈ done, ∃ e ∈ s, equivUnder comp d e = true)) →
      (ascending comp (gen.foldl (fun set x => StdSet.insert comp x set) s) ∧
        (∀ e ∈ gen.foldl (fun set x => StdSet.insert comp x set) s,
          (done ++ gen).find? (fun g => equivUnder comp e g) = some e) ∧
        (∀ d ∈ done ++ gen,
          ∃ e ∈ gen.foldl (fun set x => StdSet.insert comp x set) s,
            equivUnder comp d e = true)) := by
  induction gen with
  | nil =>
    intro s done hinv
    simpa using hinv
  | cons x xs ih =>
    intro s done ⟨hasc, hfirst, hcov⟩
    have hstep := ih (StdSet.insert comp x s) (done ++ [x]) ?_
    · simpa [List.append_assoc] using hstep
    · refine ⟨StdSet.insert_ascending h x s hasc, ?_, ?_⟩
      · intro e he
        by_cases hes : e ∈ s
        · rw [List.find?_append, hfirst e hes]
          rfl
        · have hex : e = x := (StdSet.mem_insert_cases x s he).resolve_right hes
          subst hex
          have hnone : done.find? (fun g => equivUnder comp e g) = none := by
            rw [List.find?_eq_none]
            intro d hd hed
            obtain ⟨e', he', hde'⟩ := hcov d hd
            have := StdSet.insert_of_equiv h e s hasc ⟨e', he', equivUnder_trans h hed hde'⟩
            rw [this] at he
            exact hes he
          rw [List.find?_append, hnone]
          simp [equivUnder_refl h e]
      · intro d hd
        rcases List.mem_append.1 hd with hd' | hd'
        · obtain ⟨e, he, hde⟩ := hcov d hd'
          exact ⟨e, StdSet.subset_insert x s he, hde⟩
        · rw [List.mem_singleton] at hd'
          subst hd'
          exact StdSet.insert_has_equiv h d s

theorem foldl_insert_subset (gen : List α) (s : StdSet α) {y : α} (hy : y ∈ s) :
    y ∈ gen.foldl (fun set x => StdSet.insert comp x set) s := by
  induction gen generalizing s with
  | nil => exact hy
  | cons x xs ih => exact ih _ (StdSet.subset_insert x s hy)

theorem foldl_insert_of_equiv (h : StrictWeak comp) (gen : List α) (s : StdSet α)
    (hs : ascending comp s) (hx : ∀ g ∈ gen, ∃ z ∈ s, equivUnder comp g z = true) :
    gen.foldl (fun set x => StdSet.insert comp x set) s = s := by
  induction gen with
  | nil => rfl
  | cons x xs ih =>
    rw [List.foldl_cons, StdSet.insert_of_equiv h x s hs (hx x (List.mem_cons_self _ _))]
    exact ih (fun g hg => hx g (List.mem_cons_of_mem _ hg))

end StdSetLemmas


/-! ## The comparator of `kwic` -/

theorem comparator_strictWeak : StrictWeak comparator :=
  lex_strictWeak Word.lt_strictWeak

theorem Line.eqv_eq_equiv : ∀ a b : Line, Line.eqv a b = equivUnder comparator a b
  | [], [] => by simp [Line.eqv, equivUnder, comparator, lexicographical_compare]
  | [], _ :: _ => by simp [Line.eqv, equivUnder, comparator, lexicographical_compare]
  | _ :: _, [] => by simp [Line.eqv, equivUnder, comparator, lexicographical_compare]
  | a :: as, b :: bs => by
    have ih := Line.eqv_eq_equiv as bs
    have he := Word.eq_iff_equiv a b
    have h1 := Word.lt_strictWeak.asymm a b
    have h2 := Word.lt_strictWeak.asymm b a
    simp only [Line.eqv, equivUnder, comparator, lexicographical_compare] at *
    rw [ih, he]
    cases hab : a.lt b <;> cases hba : b.lt a <;> simp_all

theorem Line.eqv_refl (a : Line) : Line.eqv a a = true := by
  rw [Line.eqv_eq_equiv]
  exact equivUnder_refl comparator_strictWeak a

/-! ## `Word::read` and the tokens of a line -/

theorem read_skip_some {buf : List Char} {c : Char} {rest : List Char}
    (h : Word.read.skip buf = some (c, rest)) :
    isalpha c = true ∧ rest.length < buf.length := by
  induction buf with
  | nil => simp [Word.read.skip] at h
  | cons d ds ih =>
    simp only [Word.read.skip] at h
    cases hd : isalpha d
    · simp only [hd, Bool.not_false, if_true] at h
      have := ih h
      exact ⟨this.1, Nat.lt_succ_of_lt this.2⟩
    · simp only [hd, Bool.not_true, Bool.false_eq_true, if_false, Option.some.injEq,
        Prod.mk.injEq] at h
      obtain ⟨rfl, rfl⟩ := h
      exact ⟨hd, Nat.lt_succ_self _⟩

theorem read_skip_none_iff (buf : List Char) :
    Word.read.skip buf = none ↔ ∀ c ∈ buf, isalpha c = false := by
  induction buf with
  | nil => simp [Word.read.skip]
  | cons d ds ih =>
    cases hd : isalpha d <;> simp [Word.read.skip, hd, ih]

theorem read_run_stream (newWord buf : List Char) :
    (Word.read.run newWord buf).2.failbit = false ∧
      (Word.read.run newWord buf).2.buf.length ≤ buf.length := by
  induction buf generalizing newWord with
  | nil => simp [Word.read.run]
  | cons c cs ih =>
    simp only [Word.read.run]
    split_ifs
    · exact ⟨(ih _).1, Nat.le_succ_of_le (ih _).2⟩
    · simp

theorem read_ok_progress (s : IStream) (w : Word) (h : (Word.read s w).1.ok = true) :
    (Word.read s w).1.buf.length < s.buf.length := by
  unfold Word.read at h ⊢
  split_ifs at h ⊢ with hg
  · simp [IStream.ok] at h
  · cases hs : Word.read.skip s.buf with
    | none => simp [hs, IStream.ok] at h
    | some p =>
      obtain ⟨c, rest⟩ := p
      simp only [hs]
      exact Nat.lt_of_le_of_lt (read_run_stream [c] rest).2 (read_skip_some hs).2

theorem readWords_total :
    ∀ (fuel : Nat) (s : IStream) (w : Word) (words : Line), s.buf.length < fuel →
      ∃ r, kwic.readWords fuel s w words = some r
  | 0, _, _, _ => by intro h; exact absurd h (Nat.not_lt_zero _)
  | fuel + 1, s, w, words => by
    intro h
    simp only [kwic.readWords]
    split_ifs with hok
    · apply readWords_total fuel
      have := read_ok_progress s w hok
      omega
    · exact ⟨words, rfl⟩

theorem tokenize_spec (line : List Char) :
    kwic.readWords (line.length + 1) (IStream.ofText line) Word.default [] =
      some (tokenize line) := by
  obtain ⟨r, hr⟩ := readWords_total (line.length + 1) (IStream.ofText line) Word.default []
    (by simp [IStream.ofText])
  simp [tokenize, hr]

theorem tokenize_of_no_alpha {line : List Char} (h : ∀ c ∈ line, isalpha c = false) :
    tokenize line = [] := by
  have hs := (read_skip_none_iff line).2 h
  simp [tokenize, kwic.readWords, Word.read, IStream.ofText, IStream.good, hs, IStream.ok]

/-! ## The rotation loop -/

theorem insertRotations_eq (words : Line) (s : StdSet Line) :
    kwic.insertRotations words s =
      (rotations words).foldl (fun set x => StdSet.insert comparator x set) s := by
  simp [kwic.insertRotations, rotations, List.foldl_map]

theorem insertRotations_nil (s : StdSet Line) : kwic.insertRotations [] s = s := by
  simp [kwic.insertRotations]

theorem foldl_processLine_eq (lines : List (List Char)) (s : StdSet Line) :
    lines.foldl processLine s =
      (lines.flatMap (fun line => rotations (tokenize line))).foldl
        (fun set x => StdSet.insert comparator x set) s := by
  induction lines generalizing s with
  | nil => rfl
  | cons l ls ih =>
    rw [List.foldl_cons, ih, List.flatMap_cons, List.foldl_append, processLine,
      insertRotations_eq]

/-! ## The reading loop -/

theorem getline_extract_spec :
    ∀ (buf str : List Char),
      (∃ line rest, getline.extract str buf = (line, ⟨rest, false, false⟩) ∧
          inputLines.go str buf = line :: inputLines.go [] rest ∧
          rest.length < buf.length) ∨
        (getline.extract str buf = (str ++ buf, ⟨[], true, false⟩) ∧
          inputLines.go str buf = if (str ++ buf).isEmpty then [] else [str ++ buf])
  | [], str => by
    right
    simp [getline.extract, inputLines.go]
  | c :: cs, str => by
    by_cases hc : c = '\n'
    · left
      exact ⟨str, cs, by simp [getline.extract, hc], by simp [inputLines.go, hc], by simp⟩
    · rcases getline_extract_spec cs (str ++ [c]) with ⟨line, rest, h1, h2, h3⟩ | ⟨h1, h2⟩
      · left
        exact ⟨line, rest, by simp [getline.extract, hc, h1], by simp [inputLines.go, hc, h2],
          Nat.lt_succ_of_lt h3⟩
      · right
        refine ⟨by simp [getline.extract, hc, h1], ?_⟩
        simp only [inputLines.go, hc, if_false, h2, List.append_assoc, List.singleton_append]

theorem readLines_step (fuel : Nat) (s : IStream) (line : List Char)
    (allRotations : StdSet Line)
    (hg : getline s = (⟨(getline s).1.buf, (getline s).1.eofbit, false⟩, line)) :
    kwic.readLines (fuel + 1) s allRotations =
      kwic.readLines fuel (getline s).1 (processLine allRotations line) := by
  have h1 : (getline s).1.ok = true := by
    rw [hg]
    rfl
  have h2 : (getline s).2 = line := by
    rw [hg]
  simp only [kwic.readLines, h1, if_true, h2, tokenize_spec]
  by_cases hl : line = []
  · subst hl
    have : tokenize [] = [] := tokenize_of_no_alpha (by simp)
    simp [processLine, this, insertRotations_nil]
  · have hl' : line.isEmpty = false := by
      cases line with
      | nil => exact absurd rfl hl
      | cons _ _ => rfl
    simp only [hl', Bool.false_eq_true, if_false, processLine]
    by_cases hw : tokenize line = []
    · simp [hw, insertRotations_nil]
    · have hw' : (tokenize line).isEmpty = false := by
        cases htl : tokenize line with
        | nil => exact absurd htl hw
        | cons _ _ => rfl
      simp [hw']

theorem readLines_eq :
    ∀ (fuel : Nat) (buf : List Char) (s : StdSet Line), buf.length < fuel →
      kwic.readLines fuel ⟨buf, false, false⟩ s =
        some ((inputLines buf).foldl processLine s)
  | 0, _, _ => by intro h; exact absurd h (Nat.not_lt_zero _)
  | fuel + 1, [], s => by
    intro _
    simp [kwic.readLines, getline, IStream.good, IStream.ok, inputLines, inputLines.go]
  | fuel + 1, c :: cs, s => by
    intro hlen
    have hgl : getline ⟨c :: cs, false, false⟩ =
        ((getline.extract [] (c :: cs)).2, (getline.extract [] (c :: cs)).1) := by
      simp [getline, IStream.good]
    rcases getline_extract_spec (c :: cs) [] with ⟨line, rest, h1, h2, h3⟩ | ⟨h1, h2⟩
    · have hg : getline ⟨c :: cs, false, false⟩ = (⟨rest, false, false⟩, line) := by
        rw [hgl, h1]
      rw [readLines_step fuel _ line s (by rw [hg]), hg]
      simp only
      rw [readLines_eq fuel rest _ (by simp at hlen h3; omega)]
      simp only [inputLines, h2, List.foldl_cons]
    · have hg : getline ⟨c :: cs, false, false⟩ = (⟨[], true, false⟩, c :: cs) := by
        rw [hgl, h1]
        simp
      rw [readLines_step fuel _ (c :: cs) s (by rw [hg]), hg]
      simp only
      cases fuel with
      | zero => simp at hlen
      | succ fuel =>
        simp only [List.nil_append, List.isEmpty_cons, Bool.false_eq_true, if_false] at h2
        simp [kwic.readLines, getline, IStream.good, IStream.ok, inputLines, h2]

theorem index_eq_lines (input : List Char) :
    kwic.index input = some ((inputLines input).foldl processLine []) :=
  readLines_eq (input.length + 1) input [] (Nat.lt_succ_self _)

theorem index_eq (input : List Char) :
    kwic.index input =
      some ((generated input).foldl (fun set x => StdSet.insert comparator x set) []) := by
  rw [index_eq_lines, foldl_processLine_eq]
  rfl

theorem kwic_eq (input : List Char) :
    kwic input = some (kwic.write
      ((generated input).foldl (fun set x => StdSet.insert comparator x set) []) []) := by
  simp [kwic, index_eq]


/-! ## Tokens of two lines that differ in letter case only -/

theorem isalpha_of_variant {c d : Char} (h : d = c ∨ d = flipCase c) :
    isalpha d = isalpha c := by
  rcases h with rfl | rfl
  · rfl
  · exact isalpha_flipCase c

theorem read_skip_variant {b b' : List Char} (h : caseVariant b b') :
    (Word.read.skip b = none ∧ Word.read.skip b' = none) ∨
      ∃ c rest c' rest', Word.read.skip b = some (c, rest) ∧
        Word.read.skip b' = some (c', rest') ∧ (c' = c ∨ c' = flipCase c) ∧
        caseVariant rest rest' := by
  induction h with
  | nil => exact Or.inl ⟨rfl, rfl⟩
  | @cons c d cs ds hcd hrest ih =>
    have ha := isalpha_of_variant hcd
    cases hc : isalpha c
    · rw [hc] at ha
      simpa [Word.read.skip, hc, ha] using ih
    · rw [hc] at ha
      right
      exact ⟨c, cs, d, ds, by simp [Word.read.skip, hc], by simp [Word.read.skip, ha], hcd,
        hrest⟩

theorem read_run_variant {b b' : List Char} (h : caseVariant b b') :
    ∀ {acc acc' : List Char}, caseVariant acc acc' →
      caseVariant (Word.read.run acc b).1 (Word.read.run acc' b').1 ∧
        streamVariant (Word.read.run acc b).2 (Word.read.run acc' b').2 := by
  induction h with
  | nil =>
    intro acc acc' hacc
    exact ⟨hacc, List.Forall₂.nil, rfl, rfl⟩
  | @cons c d cs ds hcd hrest ih =>
    intro acc acc' hacc
    have ha := isalpha_of_variant hcd
    cases hc : isalpha c
    · rw [hc] at ha
      simp only [Word.read.run, hc, ha, Bool.false_eq_true, if_false]
      exact ⟨hacc, List.Forall₂.cons hcd hrest, rfl, rfl⟩
    · rw [hc] at ha
      simp only [Word.read.run, hc, ha, if_true]
      exact ih (List.rel_append hacc (List.Forall₂.cons hcd List.Forall₂.nil))

theorem read_variant {s s' : IStream} (h : streamVariant s s') (w w' : Word) :
    streamVariant (Word.read s w).1 (Word.read s' w').1 ∧
      ((Word.read s w).1.ok = true →
        caseVariant (Word.read s w).2.value (Word.read s' w').2.value) := by
  obtain ⟨hbuf, heof, hfail⟩ := h
  have hgood : s.good = s'.good := by simp [IStream.good, heof, hfail]
  unfold Word.read
  cases hg : s.good
  · rw [← hgood, hg]
    simp only [Bool.not_false, if_true]
    exact ⟨⟨hbuf, heof, rfl⟩, fun hok => by simp [IStream.ok] at hok⟩
  · rw [← hgood, hg]
    simp only [Bool.not_true, Bool.false_eq_true, if_false]
    rcases read_skip_variant hbuf with ⟨h1, h2⟩ | ⟨c, rest, c', rest', h1, h2, hc, hrest⟩
    · rw [h1, h2]
      exact ⟨⟨List.Forall₂.nil, rfl, rfl⟩, fun hok => by simp [IStream.ok] at hok⟩
    · rw [h1, h2]
      have hr := read_run_variant hrest (List.Forall₂.cons hc List.Forall₂.nil)
      exact ⟨hr.2, fun _ => hr.1⟩

theorem readWords_variant :
    ∀ (fuel : Nat) {s s' : IStream}, streamVariant s s' → ∀ (w w' : Word) {ws ws' : Line},
      tokensVariant ws ws' →
      (kwic.readWords fuel s w ws = none ∧ kwic.readWords fuel s' w' ws' = none) ∨
        ∃ r r', kwic.readWords fuel s w ws = some r ∧
          kwic.readWords fuel s' w' ws' = some r' ∧ tokensVariant r r'
  | 0, _, _, _, _, _, _, _, _ => Or.inl ⟨rfl, rfl⟩
  | fuel + 1, s, s', h, w, w', ws, ws', hws => by
    have hr := read_variant h w w'
    have hok : (Word.read s w).1.ok = (Word.read s' w').1.ok := by
      simp [IStream.ok, hr.1.2.2]
    simp only [kwic.readWords]
    rw [← hok]
    cases hk : (Word.read s w).1.ok
    · simp only [Bool.false_eq_true, if_false]
      exact Or.inr ⟨ws, ws', rfl, rfl, hws⟩
    · simp only [if_true]
      exact readWords_variant fuel hr.1 _ _
        (List.rel_append hws (List.Forall₂.cons (hr.2 hk) List.Forall₂.nil))

theorem tokenize_variant {l l' : List Char} (h : caseVariant l l') :
    tokensVariant (tokenize l) (tokenize l') := by
  have hlen : l.length = l'.length := h.length_eq
  have hs : streamVariant (IStream.ofText l) (IStream.ofText l') := ⟨h, rfl, rfl⟩
  have h1 := tokenize_spec l
  have h2 := tokenize_spec l'
  rw [← hlen] at h2
  rcases readWords_variant (l.length + 1) hs Word.default Word.default
    (List.Forall₂.nil : tokensVariant [] []) with ⟨h3, _⟩ | ⟨r, r', h3, h4, hrr⟩
  · rw [h1] at h3
    cases h3
  · rw [h1] at h3
    rw [h2] at h4
    cases h3
    cases h4
    exact hrr

theorem Line.eqv_of_tokensVariant {a b : Line} (h : tokensVariant a b) :
    Line.eqv a b = true := by
  induction h with
  | nil => rfl
  | @cons x y xs ys hxy _ ih =>
    have : x.eq y = true := by
      simp [Word.eq, (cci_eq_zero_iff x.value y.value).2 (caseVariant_tolower hxy)]
    simp [Line.eqv, this, ih]

theorem rotate_tokensVariant {a b : Line} (h : tokensVariant a b) (i : Nat) :
    tokensVariant (rotate a i) (rotate b i) :=
  List.rel_append (List.forall₂_drop i h) (List.forall₂_take i h)

/-! ## Texts and their lines -/

theorem mem_generated {input : List Char} {g : Line} :
    g ∈ generated input ↔
      ∃ line ∈ inputLines input, ∃ i, i < (tokenize line).length ∧
        g = rotate (tokenize line) i := by
  simp only [generated, rotations, List.mem_flatMap, List.mem_map, List.mem_range]
  constructor
  · rintro ⟨line, hl, i, hi, rfl⟩
    exact ⟨line, hl, i, hi, rfl⟩
  · rintro ⟨line, hl, i, hi, rfl⟩
    exact ⟨line, hl, i, hi, rfl⟩

theorem inputLines_go_mem :
    ∀ (buf cur : List Char) {line : List Char}, line ∈ inputLines.go cur buf →
      ∀ c ∈ line, c ∈ cur ∨ c ∈ buf
  | [], cur, line => by
    intro hl c hc
    simp only [inputLines.go] at hl
    split_ifs at hl
    · cases hl
    · rw [List.mem_singleton] at hl
      subst hl
      exact Or.inl hc
  | d :: ds, cur, line => by
    intro hl c hc
    simp only [inputLines.go] at hl
    split_ifs at hl
    · rcases List.mem_cons.1 hl with rfl | hl'
      · exact Or.inl hc
      · rcases inputLines_go_mem ds [] hl' c hc with h | h
        · cases h
        · exact Or.inr (List.mem_cons_of_mem _ h)
    · rcases inputLines_go_mem ds (cur ++ [d]) hl c hc with h | h
      · rcases List.mem_append.1 h with h' | h'
        · exact Or.inl h'
        · rw [List.mem_singleton] at h'
          subst h'
          exact Or.inr (List.mem_cons_self _ _)
      · exact Or.inr (List.mem_cons_of_mem _ h)

theorem inputLines_go_no_newline :
    ∀ (l cur : List Char), '\n' ∉ l →
      inputLines.go cur l = if (cur ++ l).isEmpty then [] else [cur ++ l]
  | [], cur => by
    intro _
    simp [inputLines.go]
  | c :: cs, cur => by
    intro h
    have hc : c ≠ '\n' := fun hc => h (by simp [hc])
    have hcs : '\n' ∉ cs := fun hcs => h (List.mem_cons_of_mem _ hcs)
    simp only [inputLines.go, hc, if_false, inputLines_go_no_newline cs (cur ++ [c]) hcs,
      List.append_assoc, List.singleton_append]

theorem processLine_nil (s : StdSet Line) : processLine s [] = s := by
  have : tokenize [] = [] := tokenize_of_no_alpha (by simp)
  simp [processLine, this, insertRotations_nil]

theorem processText_of_line {l : List Char} (h : '\n' ∉ l) (s : StdSet Line) :
    processText s l = processLine s l := by
  unfold processText inputLines
  rw [inputLines_go_no_newline l [] h]
  cases l with
  | nil => simp [processLine_nil]
  | cons c cs => simp

theorem foldl_processLine_go_append :
    ∀ (a cur b : List Char) (s : StdSet Line),
      (inputLines.go cur (a ++ '\n' :: b)).foldl processLine s =
        (inputLines.go [] b).foldl processLine
          ((inputLines.go cur a).foldl processLine s)
  | [], cur, b, s => by
    cases cur with
    | nil => simp [inputLines.go, processLine_nil]
    | cons c cs => simp [inputLines.go]
  | c :: cs, cur, b, s => by
    by_cases hc : c = '\n'
    · simp [inputLines.go, hc, foldl_processLine_go_append cs [] b]
    · simp [inputLines.go, hc, foldl_processLine_go_append cs (cur ++ [c]) b]

theorem processText_append (a b : List Char) (s : StdSet Line) :
    processText s (a ++ '\n' :: b) = processText (processText s a) b :=
  foldl_processLine_go_append a [] b s

theorem processText_nil (s : StdSet Line) : processText s [] = s := rfl

theorem processText_joinLines :
    ∀ (ls : List (List Char)) (s : StdSet Line),
      processText s (joinLines ls) = ls.foldl processText s
  | [], s => rfl
  | [l], s => rfl
  | l :: l' :: ls, s => by
    rw [joinLines, processText_append, processText_joinLines (l' :: ls)]
    rfl

theorem kwic_eq_processText (input : List Char) :
    kwic input = some (kwic.write (processText [] input) []) := by
  simp [kwic, index_eq_lines, processText]

theorem processLine_of_no_alpha {l : List Char} (h : ∀ c ∈ l, isalpha c = false)
    (s : StdSet Line) : processLine s l = s := by
  simp [processLine, tokenize_of_no_alpha h, insertRotations_nil]

theorem processText_of_no_alpha {t : List Char} (h : ∀ c ∈ t, isalpha c = false)
    (s : StdSet Line) : processText s t = s := by
  unfold processText
  have hl : ∀ line ∈ inputLines t, ∀ c ∈ line, isalpha c = false := by
    intro line hline c hc
    rcases inputLines_go_mem t [] hline c hc with h' | h'
    · cases h'
    · exact h c h'
  generalize inputLines t = lines at hl
  induction lines generalizing s with
  | nil => rfl
  | cons l ls ih =>
    rw [List.foldl_cons, processLine_of_no_alpha (hl l (List.mem_cons_self _ _))]
    exact ih s (fun line hline => hl line (List.mem_cons_of_mem _ hline))


/-! ## The set of rotations built by `kwic` -/

theorem ascending_equiv_unique {α : Type} {comp : α → α → Bool} :
    ∀ {s : List α}, ascending comp s → ∀ {a b : α}, a ∈ s → b ∈ s →
      equivUnder comp a b = true → a = b
  | [], _, _, _, ha, _, _ => by cases ha
  | y :: ys, hs, a, b, ha, hb, hab => by
    unfold ascending at hs
    rw [List.pairwise_cons] at hs
    rw [equivUnder_iff] at hab
    rcases List.mem_cons.1 ha with rfl | ha'
    · rcases List.mem_cons.1 hb with rfl | hb'
      · rfl
      · have := hs.1 b hb'
        rw [hab.1] at this
        cases this
    · rcases List.mem_cons.1 hb with rfl | hb'
      · have := hs.1 a ha'
        rw [hab.2] at this
        cases this
      · exact ascending_equiv_unique hs.2 ha' hb' ((equivUnder_iff a b).2 hab)

theorem foldl_insert_ascending {α : Type} {comp : α → α → Bool} (h : StrictWeak comp)
    (gen : List α) (s : StdSet α) (hs : ascending comp s) :
    ascending comp (gen.foldl (fun set x => StdSet.insert comp x set) s) := by
  induction gen generalizing s with
  | nil => exact hs
  | cons x xs ih => exact ih _ (StdSet.insert_ascending h x s hs)

theorem foldl_insert_covers {α : Type} {comp : α → α → Bool} (h : StrictWeak comp)
    (gen : List α) (s : StdSet α) :
    ∀ g ∈ gen, ∃ e ∈ gen.foldl (fun set x => StdSet.insert comp x set) s,
      equivUnder comp g e = true := by
  induction gen generalizing s with
  | nil =>
    intro g hg
    cases hg
  | cons x xs ih =>
    intro g hg
    rcases List.mem_cons.1 hg with rfl | hg'
    · obtain ⟨z, hz, hgz⟩ := StdSet.insert_has_equiv h g s
      exact ⟨z, foldl_insert_subset xs _ hz, hgz⟩
    · exact ih _ g hg'

theorem processLine_ascending (s : StdSet Line) (l : List Char)
    (hs : ascending comparator s) : ascending comparator (processLine s l) := by
  rw [processLine, insertRotations_eq]
  exact foldl_insert_ascending comparator_strictWeak _ s hs

theorem processLine_subset (s : StdSet Line) (l : List Char) {y : Line} (hy : y ∈ s) :
    y ∈ processLine s l := by
  rw [processLine, insertRotations_eq]
  exact foldl_insert_subset _ s hy

theorem processText_ascending (s : StdSet Line) (t : List Char)
    (hs : ascending comparator s) : ascending comparator (processText s t) := by
  unfold processText
  generalize inputLines t = lines
  induction lines generalizing s with
  | nil => exact hs
  | cons l ls ih => exact ih _ (processLine_ascending s l hs)

theorem processText_subset (s : StdSet Line) (t : List Char) {y : Line} (hy : y ∈ s) :
    y ∈ processText s t := by
  unfold processText
  generalize inputLines t = lines
  induction lines generalizing s with
  | nil => exact hy
  | cons l ls ih => exact ih _ (processLine_subset s l hy)

theorem foldl_processText_ascending (ts : List (List Char)) (s : StdSet Line)
    (hs : ascending comparator s) : ascending comparator (ts.foldl processText s) := by
  induction ts generalizing s with
  | nil => exact hs
  | cons t ts ih => exact ih _ (processText_ascending s t hs)

theorem foldl_processText_subset (ts : List (List Char)) (s : StdSet Line) {y : Line}
    (hy : y ∈ s) : y ∈ ts.foldl processText s := by
  induction ts generalizing s with
  | nil => exact hy
  | cons t ts ih => exact ih _ (processText_subset s t hy)

theorem index_invariant (input : List Char) :
    ascending comparator
        ((generated input).foldl (fun set x => StdSet.insert comparator x set) []) ∧
      (∀ e ∈ (generated input).foldl (fun set x => StdSet.insert comparator x set) [],
        (generated input).find? (fun g => Line.eqv e g) = some e) ∧
      (∀ d ∈ generated input,
        ∃ e ∈ (generated input).foldl (fun set x => StdSet.insert comparator x set) [],
          Line.eqv d e = true) := by
  have h := foldl_insert_invariant comparator_strictWeak (generated input) [] []
    ⟨List.Pairwise.nil, by simp, by simp⟩
  simp only [List.nil_append] at h
  refine ⟨h.1, ?_, ?_⟩
  · intro e he
    have := h.2.1 e he
    rw [← this]
    congr 1
    funext g
    exact Line.eqv_eq_equiv e g
  · intro d hd
    obtain ⟨e, he, hde⟩ := h.2.2 d hd
    exact ⟨e, he, by rw [Line.eqv_eq_equiv]; exact hde⟩

/-! ## The output text -/

theorem writeLine_eq (out : List Char) (line : Line) :
    kwic.writeLine out line =
      out ++ line.flatMap (fun w => w.value ++ [' ']) ++ ['\n'] := by
  unfold kwic.writeLine
  congr 1
  induction line generalizing out with
  | nil => simp
  | cons w ws ih =>
    rw [List.foldl_cons, ih, List.flatMap_cons]
    simp [Word.print]

theorem write_eq (s : StdSet Line) (out : List Char) :
    kwic.write s out =
      out ++ s.flatMap (fun line => line.flatMap (fun w => w.value ++ [' ']) ++ ['\n']) := by
  unfold kwic.write
  induction s generalizing out with
  | nil => simp
  | cons l ls ih =>
    rw [List.foldl_cons, ih, writeLine_eq, List.flatMap_cons]
    simp


/-! ## The tokens are alphabetic, and distinct entries give distinct output lines -/

theorem read_run_alpha (buf : List Char) :
    ∀ (acc : List Char), (∀ c ∈ acc, isalpha c = true) →
      ∀ c ∈ (Word.read.run acc buf).1, isalpha c = true := by
  induction buf with
  | nil =>
    intro acc hacc
    simpa [Word.read.run] using hacc
  | cons d ds ih =>
    intro acc hacc
    simp only [Word.read.run]
    split_ifs with hd
    · apply ih
      intro c hc
      rcases List.mem_append.1 hc with h | h
      · exact hacc c h
      · rw [List.mem_singleton] at h
        rw [h]
        exact hd
    · exact hacc

theorem read_run_ne_nil (buf : List Char) :
    ∀ (acc : List Char), acc ≠ [] → (Word.read.run acc buf).1 ≠ [] := by
  induction buf with
  | nil =>
    intro acc hacc
    simpa [Word.read.run] using hacc
  | cons d ds ih =>
    intro acc hacc
    simp only [Word.read.run]
    split_ifs
    · exact ih _ (by simp)
    · exact hacc

theorem read_ok_alphabetic (s : IStream) (w : Word) (h : (Word.read s w).1.ok = true) :
    alphabetic (Word.read s w).2.value = true := by
  unfold Word.read at h ⊢
  split_ifs at h ⊢ with hg
  · simp [IStream.ok] at h
  · cases hs : Word.read.skip s.buf with
    | none => simp [hs, IStream.ok] at h
    | some p =>
      obtain ⟨c, rest⟩ := p
      have hc := (read_skip_some hs).1
      have h1 := read_run_alpha rest [c] (by simpa using hc)
      have h2 := read_run_ne_nil rest [c] (by simp)
      simp only [alphabetic, Bool.and_eq_true, Bool.not_eq_true', List.isEmpty_eq_false,
        List.all_eq_true]
      exact ⟨h2, h1⟩

theorem readWords_alphabetic :
    ∀ (fuel : Nat) (s : IStream) (w : Word) (ws r : Line),
      (∀ x ∈ ws, alphabetic x.value = true) → kwic.readWords fuel s w ws = some r →
      ∀ x ∈ r, alphabetic x.value = true
  | 0, _, _, _, _ => by
    intro _ h
    cases h
  | fuel + 1, s, w, ws, r => by
    intro hws h
    simp only [kwic.readWords] at h
    split_ifs at h with hok
    · refine readWords_alphabetic fuel _ _ _ r ?_ h
      intro x hx
      rcases List.mem_append.1 hx with hx' | hx'
      · exact hws x hx'
      · rw [List.mem_singleton] at hx'
        rw [hx']
        exact read_ok_alphabetic s w hok
    · cases h
      exact hws

theorem tokenize_alphabetic (line : List Char) :
    ∀ x ∈ tokenize line, alphabetic x.value = true :=
  readWords_alphabetic _ _ _ _ _ (by simp) (tokenize_spec line)

theorem mem_rotate {α : Type} {v : List α} {i : Nat} {x : α} (h : x ∈ rotate v i) :
    x ∈ v := by
  rcases List.mem_append.1 h with h' | h'
  · exact List.mem_of_mem_drop h'
  · exact List.mem_of_mem_take h'

theorem generated_alphabetic (input : List Char) :
    ∀ g ∈ generated input, ∀ x ∈ g, alphabetic x.value = true := by
  intro g hg x hx
  obtain ⟨line, _, i, _, rfl⟩ := mem_generated.1 hg
  exact tokenize_alphabetic line x (mem_rotate hx)

theorem alphabetic_no_separator {s : List Char} (h : alphabetic s = true) :
    ' ' ∉ s ∧ '\n' ∉ s := by
  simp only [alphabetic, Bool.and_eq_true, List.all_eq_true] at h
  refine ⟨fun hm => ?_, fun hm => ?_⟩
  · have := h.2 _ hm
    revert this
    decide
  · have := h.2 _ hm
    revert this
    decide

theorem append_space_inj :
    ∀ (w w' x x' : List Char), ' ' ∉ w → ' ' ∉ w' →
      w ++ ' ' :: x = w' ++ ' ' :: x' → w = w' ∧ x = x'
  | [], [], _, _ => by
    intro _ _ h
    simpa using h
  | [], c :: cs, _, _ => by
    intro _ hw' h
    simp only [List.nil_append, List.cons_append, List.cons.injEq] at h
    exact absurd (by simp [← h.1]) hw'
  | c :: cs, [], _, _ => by
    intro hw _ h
    simp only [List.nil_append, List.cons_append, List.cons.injEq] at h
    exact absurd (by simp [h.1]) hw
  | c :: cs, d :: ds, x, x' => by
    intro hw hw' h
    simp only [List.cons_append, List.cons.injEq] at h
    have := append_space_inj cs ds x x' (fun hm => hw (List.mem_cons_of_mem _ hm))
      (fun hm => hw' (List.mem_cons_of_mem _ hm)) h.2
    exact ⟨by rw [h.1, this.1], this.2⟩

theorem writeLine_inj :
    ∀ (a b : Line), (∀ x ∈ a, alphabetic x.value = true) →
      (∀ x ∈ b, alphabetic x.value = true) →
      kwic.writeLine [] a = kwic.writeLine [] b → a = b
  | [], [], _, _, _ => rfl
  | [], w :: ws, _, hb, h => by
    exfalso
    have hw := hb w (List.mem_cons_self _ _)
    have hsep := alphabetic_no_separator hw
    rw [writeLine_eq, writeLine_eq] at h
    cases hv : w.value with
    | nil => simp [hv, alphabetic] at hw
    | cons c cs =>
      simp only [List.flatMap_nil, List.append_nil, List.nil_append, List.flatMap_cons, hv,
        List.cons_append, List.cons.injEq] at h
      exact hsep.2 (by rw [hv, ← h.1]; exact List.mem_cons_self _ _)
  | w :: ws, [], ha, _, h => by
    exfalso
    have hw := ha w (List.mem_cons_self _ _)
    have hsep := alphabetic_no_separator hw
    rw [writeLine_eq, writeLine_eq] at h
    cases hv : w.value with
    | nil => simp [hv, alphabetic] at hw
    | cons c cs =>
      simp only [List.flatMap_nil, List.append_nil, List.nil_append, List.flatMap_cons, hv,
        List.cons_append, List.cons.injEq] at h
      exact hsep.2 (by rw [hv, h.1]; exact List.mem_cons_self _ _)
  | w :: ws, w' :: ws', ha, hb, h => by
    have hw := alphabetic_no_separator (ha w (List.mem_cons_self _ _))
    have hw' := alphabetic_no_separator (hb w' (List.mem_cons_self _ _))
    rw [writeLine_eq, writeLine_eq] at h
    simp only [List.nil_append, List.flatMap_cons, List.append_assoc,
      List.singleton_append] at h
    have hsplit := append_space_inj _ _ _ _ hw.1 hw'.1 h
    have hrest : kwic.writeLine [] ws = kwic.writeLine [] ws' := by
      rw [writeLine_eq, writeLine_eq]
      simpa using hsplit.2
    have ih := writeLine_inj ws ws' (fun x hx => ha x (List.mem_cons_of_mem _ hx))
      (fun x hx => hb x (List.mem_cons_of_mem _ hx)) hrest
    have hww : w = w' := by
      cases w
      cases w'
      simpa using hsplit.1
    rw [hww, ih]

theorem write_eq_map (s : StdSet Line) :
    kwic.write s [] = (s.map (kwic.writeLine [])).flatten := by
  rw [write_eq, List.nil_append, List.flatMap_def]
  congr 1
  apply List.map_congr_left
  intro l _
  rw [writeLine_eq, List.nil_append]


/-! ## The claims about `kwic` -/

/-- C1: the code at the input of test `kwic_single_line`. For `hello world` the function
`kwic` writes `hello world \nworld hello \n`, every token being followed by a space, the
last one of a line included; the text `hello world\nworld hello\n` that the test and the
specification require is not what is written. -/
theorem kwic_single_line_trailing_space :
    kwic "hello world".toList = some "hello world \nworld hello \n".toList ∧
      kwic "hello world".toList ≠ some "hello world\nworld hello\n".toList ∧
      kwic.writeLine [] [⟨"hello".toList⟩, ⟨"world".toList⟩] ≠
        specLine [⟨"hello".toList⟩, ⟨"world".toList⟩] := by
  refine ⟨by decide, by decide, by decide⟩

/-- C2: the entries `kwic` writes are the cyclic rotations of the tokenized input lines
up to letter case. Every rotation (offset `i` below the number of tokens) of every input
line is case-insensitively equivalent to exactly one written entry, and every written
entry is, casing included, a rotation of the tokens of some input line. -/
theorem kwic_lines_are_the_rotations (input : List Char) :
    ∃ idx : StdSet Line, kwic.index input = some idx ∧
      kwic input = some (idx.map (kwic.writeLine [])).flatten ∧
      idx.Nodup ∧
      (∀ line ∈ inputLines input, ∀ i, i < (tokenize line).length →
        ∃! e, e ∈ idx ∧ Line.eqv (rotate (tokenize line) i) e = true) ∧
      (∀ e ∈ idx, ∃ line ∈ inputLines input, ∃ i, i < (tokenize line).length ∧
        e = rotate (tokenize line) i) := by
  obtain ⟨hasc, hfirst, hcov⟩ := index_invariant input
  refine ⟨_, index_eq input, by rw [kwic_eq, write_eq_map], ?_, ?_, ?_⟩
  · refine List.Pairwise.imp ?_ hasc
    intro a b hab heq
    subst heq
    rw [comparator_strictWeak.irrefl a] at hab
    cases hab
  · intro line hline i hi
    obtain ⟨e, he, hde⟩ := hcov (rotate (tokenize line) i)
      (mem_generated.2 ⟨line, hline, i, hi, rfl⟩)
    refine ⟨e, ⟨he, hde⟩, ?_⟩
    rintro e' ⟨he', hde'⟩
    rw [Line.eqv_eq_equiv] at hde hde'
    exact ascending_equiv_unique hasc he' he
      (equivUnder_trans comparator_strictWeak (equivUnder_symm hde') hde)
  · intro e he
    exact mem_generated.1 (List.mem_of_find?_eq_some (hfirst e he))

/-- C3: the entries `kwic` writes, in the order written, are strictly ascending under
`std::lexicographical_compare` with `Word::operator<`; hence no two written entries are
case-insensitively equivalent, no entry is written twice, and no two of the text lines
written are the same. -/
theorem kwic_lines_strictly_ascending (input : List Char) :
    ∃ idx : StdSet Line, kwic.index input = some idx ∧
      kwic input = some (idx.map (kwic.writeLine [])).flatten ∧
      idx.Pairwise (fun a b => lexicographical_compare Word.lt a b = true) ∧
      idx.Pairwise (fun a b => Line.eqv a b = false) ∧
      idx.Nodup ∧
      (idx.map (kwic.writeLine [])).Nodup := by
  obtain ⟨hasc, hfirst, -⟩ := index_invariant input
  have hnodup : ((generated input).foldl
      (fun set x => StdSet.insert comparator x set) []).Nodup := by
    refine List.Pairwise.imp ?_ hasc
    intro a b hab heq
    subst heq
    have : comparator a a = true := hab
    rw [comparator_strictWeak.irrefl a] at this
    cases this
  refine ⟨_, index_eq input, ?_, hasc, ?_, hnodup, ?_⟩
  · rw [kwic_eq, write_eq_map]
  · refine List.Pairwise.imp ?_ hasc
    intro a b hab
    rw [Line.eqv_eq_equiv]
    have : comparator a b = true := hab
    simp [equivUnder, this]
  · refine List.Nodup.map_on ?_ hnodup
    intro a ha b hb hab
    exact writeLine_inj a b
      (generated_alphabetic input a (List.mem_of_find?_eq_some (hfirst a ha)))
      (generated_alphabetic input b (List.mem_of_find?_eq_some (hfirst b hb))) hab

/-- C4: every entry `kwic` writes is the first generated rotation of its equivalence
class: searching the rotations in the order of generation (by input line, then by
offset) for one that is case-insensitively equivalent to the entry finds the entry
itself, token for token with its letter case. -/
theorem kwic_keeps_first_generated_casing (input : List Char) :
    ∃ idx : StdSet Line, kwic.index input = some idx ∧
      kwic input = some (idx.map (kwic.writeLine [])).flatten ∧
      ∀ e ∈ idx, (generated input).find? (fun g => Line.eqv e g) = some e := by
  obtain ⟨-, hfirst, -⟩ := index_invariant input
  exact ⟨_, index_eq input, by rw [kwic_eq, write_eq_map], hfirst⟩


theorem caseVariant_no_newline {l l' : List Char} (h : caseVariant l l')
    (hl : '\n' ∉ l) : '\n' ∉ l' := by
  induction h with
  | nil => simp
  | @cons c d cs ds hcd _ ih =>
    have hc : c ≠ '\n' := fun hc => hl (by simp [hc])
    have hcs : '\n' ∉ cs := fun hcs => hl (List.mem_cons_of_mem _ hcs)
    have hd : d ≠ '\n' := by
      intro hd
      have h1 : isalpha d = false := by rw [hd]; decide
      have h2 : tolower d = tolower c := by
        rcases hcd with rfl | rfl
        · rfl
        · exact tolower_flipCase c
      have h3 : isalpha c = false := by rw [← isalpha_of_variant hcd]; exact h1
      have h4 : tolower c = c := by
        unfold tolower
        unfold isalpha at h3
        split_ifs with h5
        · simp [h5.1, h5.2] at h3
        · rfl
      have h5 : tolower d = d := by rw [hd]; decide
      rw [h5, h4] at h2
      exact hc (h2 ▸ hd)
    intro hmem
    rcases List.mem_cons.1 hmem with h | h
    · exact hd h.symm
    · exact ih hcs h

theorem processLine_of_variant {l l' : List Char} (h : caseVariant l l')
    (s0 s : StdSet Line) (hs : ascending comparator s)
    (hsub : ∀ y ∈ processLine s0 l, y ∈ s) : processLine s l' = s := by
  rw [processLine, insertRotations_eq]
  apply foldl_insert_of_equiv comparator_strictWeak _ s hs
  intro g hg
  have htok := tokenize_variant h
  have hlen : (tokenize l).length = (tokenize l').length := htok.length_eq
  simp only [rotations, List.mem_map, List.mem_range] at hg
  obtain ⟨i, hi, rfl⟩ := hg
  have hr : rotate (tokenize l) i ∈ rotations (tokenize l) := by
    simp only [rotations, List.mem_map, List.mem_range]
    exact ⟨i, by omega, rfl⟩
  have hcov := foldl_insert_covers comparator_strictWeak (rotations (tokenize l)) s0 _ hr
  rw [← insertRotations_eq] at hcov
  obtain ⟨e, he, hre⟩ := hcov
  refine ⟨e, hsub e he, ?_⟩
  have hgr : equivUnder comparator (rotate (tokenize l) i) (rotate (tokenize l') i) = true := by
    rw [← Line.eqv_eq_equiv]
    exact Line.eqv_of_tokensVariant (rotate_tokensVariant htok i)
  exact equivUnder_trans comparator_strictWeak (equivUnder_symm hgr) hre

/-- C5: dedup is idempotent. Let the input consist of the texts `pre`, the line `L`, the
texts `mid` and the texts `post`, each on lines of its own. Adding after `mid` a further
line `L'` that is `L` itself or `L` with the letter case of some characters changed
leaves the output of `kwic` as it is. -/
theorem kwic_dedup_idempotent (pre mid post : List (List Char)) (L L' : List Char)
    (hL : '\n' ∉ L) (hLL' : caseVariant L L') :
    ∃ out, kwic (joinLines (pre ++ [L] ++ mid ++ [L'] ++ post)) = some out ∧
      kwic (joinLines (pre ++ [L] ++ mid ++ post)) = some out := by
  refine ⟨_, kwic_eq_processText _, ?_⟩
  rw [kwic_eq_processText, processText_joinLines, processText_joinLines]
  simp only [List.foldl_append, List.foldl_cons, List.foldl_nil]
  have hL' := caseVariant_no_newline hLL' hL
  rw [processText_of_line hL, processText_of_line hL']
  have hasc0 : ascending comparator (pre.foldl processText []) :=
    foldl_processText_ascending pre [] List.Pairwise.nil
  have hasc2 : ascending comparator
      (mid.foldl processText (processLine (pre.foldl processText []) L)) :=
    foldl_processText_ascending mid _ (processLine_ascending _ L hasc0)
  rw [processLine_of_variant hLL' (pre.foldl processText []) _ hasc2
    (fun y hy => foldl_processText_subset mid _ hy)]

/-- C5, at the input of test `kwic_duplicate_lines` and a variant of it in capitals:
`same line` followed by `same line`, or by `Same LINE`, gives the output of `same line`
alone. -/
theorem kwic_dedup_idempotent_witness :
    ('\n' ∉ "same line".toList ∧ caseVariant "same line".toList "same line".toList ∧
        ∃ out,
          kwic (joinLines ([] ++ ["same line".toList] ++ [] ++ ["same line".toList] ++ []))
            = some out ∧
          kwic (joinLines ([] ++ ["same line".toList] ++ [] ++ [])) = some out) ∧
      ('\n' ∉ "same line".toList ∧ caseVariant "same line".toList "Same LINE".toList ∧
        ∃ out,
          kwic (joinLines ([] ++ ["same line".toList] ++ [] ++ ["Same LINE".toList] ++ []))
            = some out ∧
          kwic (joinLines ([] ++ ["same line".toList] ++ [] ++ [])) = some out) :=
  ⟨⟨by decide, caseVariant_refl _,
      kwic_dedup_idempotent [] [] [] "same line".toList "same line".toList (by decide)
        (caseVariant_refl _)⟩,
    ⟨by decide,
      by unfold caseVariant; repeat (first | exact List.Forall₂.nil | refine List.Forall₂.cons (by decide) ?_),
      kwic_dedup_idempotent [] [] [] "same line".toList "Same LINE".toList (by decide)
        (by unfold caseVariant; repeat (first | exact List.Forall₂.nil | refine List.Forall₂.cons (by decide) ?_))⟩⟩

/-- C6: `kwic` returns on every input, and text without any alphabetic character
contributes nothing: with `B` free of alphabetic characters (an empty line, a line of
digits, punctuation or blanks), the input with `B` inserted between the texts `pre` and
`post` gives the same output as the input without it, and `B` alone as input gives the
empty output. -/
theorem kwic_ignores_non_alphabetic_lines (input : List Char) (pre post : List (List Char))
    (B : List Char) (hB : ∀ c ∈ B, isalpha c = false) :
    (∃ out, kwic input = some out) ∧
      (∃ out, kwic (joinLines (pre ++ [B] ++ post)) = some out ∧
        kwic (joinLines (pre ++ post)) = some out) ∧
      kwic B = some [] := by
  refine ⟨⟨_, kwic_eq_processText input⟩, ⟨_, kwic_eq_processText _, ?_⟩, ?_⟩
  · rw [kwic_eq_processText, processText_joinLines, processText_joinLines]
    simp only [List.foldl_append, List.foldl_cons, List.foldl_nil]
    rw [processText_of_no_alpha hB]
  · rw [kwic_eq_processText, processText_of_no_alpha hB]
    rfl

/-- C6, at the input of test `kwic_empty_lines_ignored`: the empty line between
`first line` and `second line` changes nothing, and the empty input gives no output. -/
theorem kwic_ignores_non_alphabetic_lines_witness :
    (∀ c ∈ ([] : List Char), isalpha c = false) ∧
      (∃ out, kwic "first line\n\nsecond line".toList = some out) ∧
      (∃ out,
        kwic (joinLines (["first line".toList] ++ [[]] ++ ["second line".toList])) = some out ∧
        kwic (joinLines (["first line".toList] ++ ["second line".toList])) = some out) ∧
      kwic [] = some [] :=
  ⟨by simp,
    kwic_ignores_non_alphabetic_lines "first line\n\nsecond line".toList
      ["first line".toList] ["second line".toList] [] (by simp)⟩

/-! ## `Word::read`: one scan -/

theorem read_skip_decomp :
    ∀ {buf : List Char} {c : Char} {rest : List Char}, Word.read.skip buf = some (c, rest) →
      ∃ pre, buf = pre ++ c :: rest ∧ (∀ d ∈ pre, isalpha d = false) ∧ isalpha c = true
  | [], _, _, h => by simp [Word.read.skip] at h
  | d :: ds, c, rest, h => by
    simp only [Word.read.skip] at h
    cases hd : isalpha d
    · simp only [hd, Bool.not_false, if_true] at h
      obtain ⟨pre, hbuf, hpre, hc⟩ := read_skip_decomp h
      refine ⟨d :: pre, by rw [hbuf]; rfl, ?_, hc⟩
      intro e he
      rcases List.mem_cons.1 he with rfl | he'
      · exact hd
      · exact hpre e he'
    · simp only [hd, Bool.not_true, Bool.false_eq_true, if_false, Option.some.injEq,
        Prod.mk.injEq] at h
      obtain ⟨rfl, rfl⟩ := h
      exact ⟨[], rfl, by simp, hd⟩

theorem read_run_spec (buf : List Char) :
    ∀ (acc : List Char),
      Word.read.run acc buf =
        (acc ++ buf.takeWhile isalpha,
          ⟨buf.dropWhile isalpha, (buf.dropWhile isalpha).isEmpty, false⟩) := by
  induction buf with
  | nil =>
    intro acc
    simp [Word.read.run]
  | cons c cs ih =>
    intro acc
    cases hc : isalpha c
    · simp [Word.read.run, hc, List.takeWhile_cons, List.dropWhile_cons]
    · simp [Word.read.run, hc, ih, List.takeWhile_cons, List.dropWhile_cons]

theorem dropWhile_head_not {p : Char → Bool} (l : List Char) :
    ∀ c, (l.dropWhile p).head? = some c → p c = false := by
  induction l with
  | nil => simp
  | cons d ds ih =>
    intro c hc
    cases hd : p d
    · simp only [List.dropWhile_cons, hd, Bool.false_eq_true, if_false, List.head?_cons,
        Option.some.injEq] at hc
      rw [← hc]
      exact hd
    · simp only [List.dropWhile_cons, hd, if_true] at hc
      exact ih c hc

theorem consistent_good_of_alpha {s : IStream} (hs : s.consistent = true)
    (hex : ∃ c ∈ s.buf, isalpha c = true) : s.good = true := by
  cases hg : s.good
  · obtain ⟨c, hc, _⟩ := hex
    simp only [IStream.consistent, hg, Bool.false_or, List.isEmpty_iff] at hs
    rw [hs] at hc
    cases hc
  · rfl

/-- C11: a scan on input whose unread remainder holds an alphabetic character succeeds.
The remainder splits as `skipped ++ run ++ rest` with `skipped` free of alphabetic
characters, `run` a non-empty stretch of alphabetic characters and `rest` empty or
starting with a non-alphabetic character; the scan sets the `Word` to `run` and leaves
exactly `rest` unread, its first character included. -/
theorem Word_read_scans_maximal_run (s : IStream) (w : Word)
    (hs : s.consistent = true) (hex : ∃ c ∈ s.buf, isalpha c = true) :
    ∃ skipped run rest, s.buf = skipped ++ run ++ rest ∧
      (∀ c ∈ skipped, isalpha c = false) ∧
      run ≠ [] ∧ (∀ c ∈ run, isalpha c = true) ∧
      (∀ c, rest.head? = some c → isalpha c = false) ∧
      (Word.read s w).1.ok = true ∧
      (Word.read s w).2 = ⟨run⟩ ∧
      (Word.read s w).1.buf = rest := by
  have hg := consistent_good_of_alpha hs hex
  cases hsk : Word.read.skip s.buf with
  | none =>
    obtain ⟨c, hc, hca⟩ := hex
    rw [(read_skip_none_iff s.buf).1 hsk c hc] at hca
    cases hca
  | some p =>
    obtain ⟨c, tail⟩ := p
    obtain ⟨pre, hbuf, hpre, hc⟩ := read_skip_decomp hsk
    refine ⟨pre, c :: tail.takeWhile isalpha, tail.dropWhile isalpha, ?_, hpre, by simp, ?_,
      dropWhile_head_not tail, ?_, ?_, ?_⟩
    · rw [hbuf]
      simp [List.takeWhile_append_dropWhile]
    · intro d hd
      rcases List.mem_cons.1 hd with rfl | hd'
      · exact hc
      · exact (List.mem_takeWhile_imp hd')
    · simp [Word.read, hg, hsk, read_run_spec, IStream.ok]
    · simp [Word.read, hg, hsk, read_run_spec]
    · simp [Word.read, hg, hsk, read_run_spec]

/-- C11, at the input of test `test_input_operator_stops_at_end_of_word`: scanning `VB6`
gives the word `VB` and leaves `6` unread for the next read. -/
theorem Word_read_scans_maximal_run_witness :
    (IStream.ofText "VB6".toList).consistent = true ∧
      (∃ c ∈ (IStream.ofText "VB6".toList).buf, isalpha c = true) ∧
      (Word.read (IStream.ofText "VB6".toList) Word.default).2 = ⟨"VB".toList⟩ ∧
      (Word.read (IStream.ofText "VB6".toList) Word.default).1.buf = "6".toList ∧
      ∃ skipped run rest, (IStream.ofText "VB6".toList).buf = skipped ++ run ++ rest ∧
        (∀ c ∈ skipped, isalpha c = false) ∧
        run ≠ [] ∧ (∀ c ∈ run, isalpha c = true) ∧
        (∀ c, rest.head? = some c → isalpha c = false) ∧
        (Word.read (IStream.ofText "VB6".toList) Word.default).1.ok = true ∧
        (Word.read (IStream.ofText "VB6".toList) Word.default).2 = ⟨run⟩ ∧
        (Word.read (IStream.ofText "VB6".toList) Word.default).1.buf = rest :=
  ⟨by decide, ⟨'V', by decide, by decide⟩, by decide, by decide,
    Word_read_scans_maximal_run (IStream.ofText "VB6".toList) Word.default (by decide)
      ⟨'V', by decide, by decide⟩⟩

theorem read_consistent (s : IStream) (w : Word) (hs : s.consistent = true) :
    (Word.read s w).1.consistent = true := by
  unfold Word.read
  cases hg : s.good
  · simp only [IStream.consistent, hg, Bool.false_or, List.isEmpty_iff] at hs
    simp [IStream.consistent, IStream.good, hs]
  · simp only [Bool.not_true, Bool.false_eq_true, if_false]
    cases hsk : Word.read.skip s.buf with
    | none => simp [IStream.consistent]
    | some p =>
      obtain ⟨c, tail⟩ := p
      simp only [read_run_spec, IStream.consistent, IStream.good]
      cases h : (List.dropWhile isalpha tail).isEmpty <;> simp [h]

/-- C12: a scan fails, setting `failbit`, exactly when the unread remainder of the input
holds no alphabetic character; a failing scan leaves the `Word` as it was. The stream is
one as scans find it: fresh, or left by earlier scans (the state after a scan is again
of that kind). -/
theorem Word_read_fails_iff_no_alpha (s : IStream) (w : Word) (hs : s.consistent = true) :
    ((Word.read s w).1.failbit = true ↔ ∀ c ∈ s.buf, isalpha c = false) ∧
      ((Word.read s w).1.ok = false ↔ ∀ c ∈ s.buf, isalpha c = false) ∧
      ((Word.read s w).1.failbit = true → (Word.read s w).2 = w) ∧
      (Word.read s w).1.consistent = true := by
  have hmain : (Word.read s w).1.failbit = true ↔ ∀ c ∈ s.buf, isalpha c = false := by
    cases hg : s.good
    · simp only [IStream.consistent, hg, Bool.false_or, List.isEmpty_iff] at hs
      simp [Word.read, hg, hs]
    · rw [← read_skip_none_iff]
      cases hsk : Word.read.skip s.buf with
      | none => simp [Word.read, hg, hsk]
      | some p => simp [Word.read, hg, hsk, read_run_spec]
  refine ⟨hmain, ?_, ?_, read_consistent s w hs⟩
  · rw [← hmain]
    simp [IStream.ok]
  · intro hf
    unfold Word.read at hf ⊢
    cases hg : s.good
    · simp [hg]
    · cases hsk : Word.read.skip s.buf with
      | none => simp [hg, hsk]
      | some p => simp [hg, hsk, read_run_spec] at hf

/-- C12, at the inputs of the tests: on the empty input and on `1337` the scan fails
and the word, `Eiffel` before the scan, is still `Eiffel`; on `Elixir` it does not
fail. -/
theorem Word_read_fails_iff_no_alpha_witness :
    (IStream.ofText []).consistent = true ∧
      (Word.read (IStream.ofText []) ⟨"Eiffel".toList⟩).1.failbit = true ∧
      (Word.read (IStream.ofText []) ⟨"Eiffel".toList⟩).2 = ⟨"Eiffel".toList⟩ ∧
      (Word.read (IStream.ofText "1337".toList) ⟨"Eiffel".toList⟩).1.failbit = true ∧
      (Word.read (IStream.ofText "1337".toList) ⟨"Eiffel".toList⟩).2 = ⟨"Eiffel".toList⟩ ∧
      (Word.read (IStream.ofText "Elixir".toList) ⟨"Eiffel".toList⟩).1.failbit = false :=
  ⟨by decide,
    (Word_read_fails_iff_no_alpha (IStream.ofText []) ⟨"Eiffel".toList⟩ (by decide)).1.2
      (by decide),
    (Word_read_fails_iff_no_alpha (IStream.ofText []) ⟨"Eiffel".toList⟩ (by decide)).2.2.1
      (by decide),
    (Word_read_fails_iff_no_alpha (IStream.ofText "1337".toList) ⟨"Eiffel".toList⟩
      (by decide)).1.2 (by decide),
    (Word_read_fails_iff_no_alpha (IStream.ofText "1337".toList) ⟨"Eiffel".toList⟩
      (by decide)).2.2.1 (by decide),
    by decide⟩

/-! ## Scanning a whole line -/

theorem alphaRuns_nil : alphaRuns [] = [] := by
  simp [alphaRuns, List.splitOnP_nil]

theorem alphaRuns_sep_cons {c : Char} (hc : isalpha c = false) (cs : List Char) :
    alphaRuns (c :: cs) = alphaRuns cs := by
  simp [alphaRuns, List.splitOnP_cons, hc]

theorem alphaRuns_skip {skipped : List Char} (h : ∀ d ∈ skipped, isalpha d = false)
    (l : List Char) : alphaRuns (skipped ++ l) = alphaRuns l := by
  induction skipped with
  | nil => rfl
  | cons d ds ih =>
    rw [List.cons_append, alphaRuns_sep_cons (h d (List.mem_cons_self _ _))]
    exact ih (fun e he => h e (List.mem_cons_of_mem _ he))

theorem alphaRuns_run_end {run : List Char} (hne : run ≠ [])
    (h : ∀ c ∈ run, isalpha c = true) : alphaRuns run = [run] := by
  have hs : run.splitOnP (fun c => !isalpha c) = [run] :=
    List.splitOnP_eq_single _ _ (fun x hx => by simp [h x hx])
  cases run with
  | nil => exact absurd rfl hne
  | cons c cs => simp [alphaRuns, hs]

theorem alphaRuns_run_sep {run : List Char} (hne : run ≠ [])
    (h : ∀ c ∈ run, isalpha c = true) {sep : Char} (hsep : isalpha sep = false)
    (rest : List Char) : alphaRuns (run ++ sep :: rest) = run :: alphaRuns rest := by
  have hs : (run ++ sep :: rest).splitOnP (fun c => !isalpha c) =
      run :: rest.splitOnP (fun c => !isalpha c) :=
    List.splitOnP_first _ _ (fun x hx => by simp [h x hx]) sep (by simp [hsep]) rest
  cases run with
  | nil => exact absurd rfl hne
  | cons c cs =>
    rw [alphaRuns, hs]
    simp [alphaRuns]

theorem readWords_eq_alphaRuns :
    ∀ (fuel : Nat) (buf : List Char) (w : Word) (acc : Line), buf.length < fuel →
      kwic.readWords fuel ⟨buf, false, false⟩ w acc =
        some (acc ++ (alphaRuns buf).map Word.mk)
  | 0, _, _, _ => by intro h; exact absurd h (Nat.not_lt_zero _)
  | fuel + 1, buf, w, acc => by
    intro hlen
    cases hsk : Word.read.skip buf with
    | none =>
      have hno := (read_skip_none_iff buf).1 hsk
      have hr : alphaRuns buf = [] := by
        have := alphaRuns_skip hno []
        rwa [List.append_nil, alphaRuns_nil] at this
      simp [kwic.readWords, Word.read, IStream.good, hsk, IStream.ok, hr]
    | some p =>
      obtain ⟨c, tail⟩ := p
      obtain ⟨pre, hbuf, hpre, hc⟩ := read_skip_decomp hsk
      have htw : ∀ d ∈ c :: tail.takeWhile isalpha, isalpha d = true := by
        intro d hd
        rcases List.mem_cons.1 hd with rfl | hd'
        · exact hc
        · exact List.mem_takeWhile_imp hd'
      have hread : Word.read ⟨buf, false, false⟩ w =
          (⟨tail.dropWhile isalpha, (tail.dropWhile isalpha).isEmpty, false⟩,
            ⟨c :: tail.takeWhile isalpha⟩) := by
        simp [Word.read, IStream.good, hsk, read_run_spec]
      have hsplit : buf = pre ++ ((c :: tail.takeWhile isalpha) ++ tail.dropWhile isalpha) := by
        rw [hbuf]
        simp [List.takeWhile_append_dropWhile]
      simp only [kwic.readWords, hread, IStream.ok, Bool.not_false, if_true]
      cases hdw : tail.dropWhile isalpha with
      | nil =>
        have hr : alphaRuns buf = [c :: tail.takeWhile isalpha] := by
          rw [hsplit, alphaRuns_skip hpre, hdw, List.append_nil]
          exact alphaRuns_run_end (by simp) htw
        cases fuel with
        | zero =>
          rw [hbuf] at hlen
          simp at hlen
        | succ fuel =>
          simp [kwic.readWords, Word.read, IStream.good, IStream.ok, hr]
      | cons sep rest =>
        have hsep : isalpha sep = false :=
          dropWhile_head_not tail sep (by rw [hdw]; rfl)
        have hr : alphaRuns buf = (c :: tail.takeWhile isalpha) :: alphaRuns rest := by
          rw [hsplit, alphaRuns_skip hpre, hdw]
          exact alphaRuns_run_sep (by simp) htw hsep rest
        have hlen' : (sep :: rest).length < fuel := by
          have h1 : buf.length = pre.length + (1 + (tail.takeWhile isalpha).length +
              (sep :: rest).length) := by
            rw [hsplit, hdw]
            simp only [List.length_append, List.length_cons]
            omega
          omega
        have ih := readWords_eq_alphaRuns fuel (sep :: rest) ⟨c :: tail.takeWhile isalpha⟩
          (acc ++ [⟨c :: tail.takeWhile isalpha⟩]) hlen'
        simp only [List.isEmpty_cons]
        rw [ih, hr, alphaRuns_sep_cons hsep]
        simp

/-- C13: scanning `Word`s from a line until the first scan fails, as the tokenizing loop
of `kwic` does, yields exactly the maximal runs of alphabetic characters of the line,
from left to right and with their letter case; every other character only separates. -/
theorem scanning_yields_alphabetic_runs (line : List Char) (w : Word) :
    ∃ words, kwic.readWords (line.length + 1) (IStream.ofText line) w [] = some words ∧
      words.map Word.value = alphaRuns line ∧
      tokenize line = words := by
  have h := readWords_eq_alphaRuns (line.length + 1) line w [] (Nat.lt_succ_self _)
  have h' := readWords_eq_alphaRuns (line.length + 1) line Word.default []
    (Nat.lt_succ_self _)
  refine ⟨(alphaRuns line).map Word.mk, by simpa [IStream.ofText] using h, ?_, ?_⟩
  · rw [List.map_map]
    exact List.map_id _
  · have ht := tokenize_spec line
    rw [IStream.ofText, h'] at ht
    simpa using ht.symm

/-- C13, at the line of test `test_exercise_example`: the scans yield `compl`, `tely`,
`weird`, `matted`, `in`, `put`, and the next scan fails. -/
theorem scanning_yields_alphabetic_runs_witness :
    ∃ words,
      kwic.readWords ("compl33tely ~ weird !!?!! 4matted in_put".toList.length + 1)
        (IStream.ofText "compl33tely ~ weird !!?!! 4matted in_put".toList) Word.default []
        = some words ∧
      words.map Word.value = ["compl".toList, "tely".toList, "weird".toList,
        "matted".toList, "in".toList, "put".toList] := by
  obtain ⟨words, h1, h2, _⟩ := scanning_yields_alphabetic_runs
    "compl33tely ~ weird !!?!! 4matted in_put".toList Word.default
  exact ⟨words, h1, h2.trans (by decide)⟩

/-! ## The invariant of `Word` -/

theorem new_ok_alphabetic {text : List Char} {w : Word} (h : Word.new text = .ok w) :
    alphabetic w.value = true := by
  cases ha : alphabetic text
  · obtain ⟨what, hw⟩ := Word.new_of_not_alphabetic ha
    rw [hw] at h
    cases h
  · rw [Word.new_of_alphabetic ha] at h
    cases h
    exact ha

theorem read_keeps_alphabetic (s : IStream) (w : Word) (hw : alphabetic w.value = true) :
    alphabetic (Word.read s w).2.value = true := by
  cases hok : (Word.read s w).1.ok
  · have : (Word.read s w).2 = w := by
      unfold Word.read at hok ⊢
      cases hg : s.good
      · simp [hg]
      · cases hsk : Word.read.skip s.buf with
        | none => simp [hg, hsk]
        | some p => simp [hg, hsk, read_run_spec, IStream.ok] at hok
    rw [this]
    exact hw
  · exact read_ok_alphabetic s w hok

/-- C14: every `Word` value that can exist, be it default-constructed, returned by the
validating constructor or left by any sequence of successful and failed scans, holds a
non-empty string of alphabetic characters only, so the validating constructor accepts
its content. -/
theorem Word_value_always_alphabetic (w : Word) (h : Word.Reachable w) :
    w.value ≠ [] ∧ (∀ c ∈ w.value, isalpha c = true) ∧ Word.new w.value = .ok w := by
  have ha : alphabetic w.value = true := by
    induction h with
    | default => decide
    | new text w h => exact new_ok_alphabetic h
    | read s w _ ih => exact read_keeps_alphabetic s w ih
  refine ⟨?_, ?_, Word.new_of_alphabetic ha⟩
  · simp only [alphabetic, Bool.and_eq_true, Bool.not_eq_true', List.isEmpty_eq_false] at ha
    exact ha.1
  · simp only [alphabetic, Bool.and_eq_true, List.all_eq_true] at ha
    exact ha.2

/-- C14, at a concrete word: the word left by a successful scan of `3switchBF` followed
by a failed scan of the then exhausted stream is `switchBF`, which is not empty,
alphabetic, and accepted by the validating constructor. -/
theorem Word_value_always_alphabetic_witness :
    Word.Reachable
        (Word.read (Word.read (IStream.ofText "3switchBF".toList) Word.default).1
          (Word.read (IStream.ofText "3switchBF".toList) Word.default).2).2 ∧
      (Word.read (Word.read (IStream.ofText "3switchBF".toList) Word.default).1
          (Word.read (IStream.ofText "3switchBF".toList) Word.default).2).2
        = ⟨"switchBF".toList⟩ ∧
      (Word.read (Word.read (IStream.ofText "3switchBF".toList) Word.default).1
          (Word.read (IStream.ofText "3switchBF".toList) Word.default).2).1.failbit = true ∧
      ((Word.read (Word.read (IStream.ofText "3switchBF".toList) Word.default).1
          (Word.read (IStream.ofText "3switchBF".toList) Word.default).2).2.value ≠ [] ∧
        (∀ c ∈ (Word.read (Word.read (IStream.ofText "3switchBF".toList) Word.default).1
          (Word.read (IStream.ofText "3switchBF".toList) Word.default).2).2.value,
          isalpha c = true) ∧
        Word.new (Word.read (Word.read (IStream.ofText "3switchBF".toList) Word.default).1
          (Word.read (IStream.ofText "3switchBF".toList) Word.default).2).2.value
          = .ok (Word.read (Word.read (IStream.ofText "3switchBF".toList) Word.default).1
          (Word.read (IStream.ofText "3switchBF".toList) Word.default).2).2) :=
  ⟨Word.Reachable.read _ _ (Word.Reachable.read _ _ Word.Reachable.default),
    by decide, by decide,
    Word_value_always_alphabetic _
      (Word.Reachable.read _ _ (Word.Reachable.read _ _ Word.Reachable.default))⟩

/-! ## The rotation step -/

theorem rotate_getElem? {α : Type} (v : List α) (i j : Nat) (hi : i < v.length)
    (hj : j < v.length) : (rotate v i)[j]? = v[(i + j) % v.length]? := by
  unfold rotate
  by_cases h : i + j < v.length
  · rw [List.getElem?_append_left (by rw [List.length_drop]; omega), List.getElem?_drop,
      Nat.mod_eq_of_lt h]
  · have hmod : (i + j) % v.length = i + j - v.length := by
      rw [Nat.mod_eq_sub_mod (by omega), Nat.mod_eq_of_lt (by omega)]
    rw [List.getElem?_append_right (by rw [List.length_drop]; omega), List.length_drop,
      List.getElem?_take_of_lt (by omega), hmod]
    congr 1
    omega

/-- C15: the rotation loop of `kwic` inserts, for a tokenized line of `n` tokens, exactly
the `n` rotations with the offsets `0 .. n-1`, in that order. Each has `n` tokens; the
one with offset `i` is the tokens from position `i` on followed by the first `i` tokens,
so that its token at position `j` is the original token at position `(i + j) mod n`
and its first token the original token at position `i`; offset `0` gives the line. -/
theorem rotation_step_generates_all_rotations (words : Line) (hn : 1 ≤ words.length) :
    (∀ s, kwic.insertRotations words s =
        (rotations words).foldl (fun set x => StdSet.insert comparator x set) s) ∧
      (rotations words).length = words.length ∧
      (∀ i, i < words.length →
        (rotations words)[i]? = some (rotate words i) ∧
        (rotate words i).length = words.length ∧
        rotate words i = words.drop i ++ words.take i ∧
        (∀ j, j < words.length → (rotate words i)[j]? = words[(i + j) % words.length]?) ∧
        (rotate words i).head? = words[i]?) ∧
      rotate words 0 = words := by
  refine ⟨insertRotations_eq words, by simp [rotations], ?_, by simp [rotate]⟩
  intro i hi
  refine ⟨?_, ?_, rfl, fun j hj => rotate_getElem? words i j hi hj, ?_⟩
  · simp [rotations, List.getElem?_map, List.getElem?_range hi]
  · simp only [rotate, List.length_append, List.length_drop, List.length_take]
    omega
  · have h0 := rotate_getElem? words i 0 hi (by omega)
    rw [Nat.add_zero, Nat.mod_eq_of_lt hi] at h0
    rw [← h0]
    cases rotate words i <;> simp

/-- C15, at the tokens of test `kwic_multiple_spaces`: `one two three` has the three
rotations `one two three`, `two three one`, `three one two`. -/
theorem rotation_step_generates_all_rotations_witness :
    1 ≤ (tokenize "one  two   three".toList).length ∧
      rotations (tokenize "one  two   three".toList) =
        [[⟨"one".toList⟩, ⟨"two".toList⟩, ⟨"three".toList⟩],
          [⟨"two".toList⟩, ⟨"three".toList⟩, ⟨"one".toList⟩],
          [⟨"three".toList⟩, ⟨"one".toList⟩, ⟨"two".toList⟩]] ∧
      (rotations (tokenize "one  two   three".toList)).length =
        (tokenize "one  two   three".toList).length :=
  ⟨by decide, by decide,
    (rotation_step_generates_all_rotations (tokenize "one  two   three".toList)
      (by decide)).2.1⟩

/-! ## `IndexableSet`: access by rank -/

section IndexableSetLemmas
variable {α : Type}

theorem IndexableSet.at_nonneg (s : StdSet α) (rank : Nat) (h : rank < s.length) :
    IndexableSet.at s rank = .ok (s.get ⟨rank, h⟩) := by
  unfold IndexableSet.at
  have h1 : ¬ ((rank : Int) < 0) := by omega
  simp only [h1, if_false]
  split
  · next hh =>
    rcases hh with hh | hh
    · exact hh.elim
    · omega
  · simp

theorem IndexableSet.at_neg (s : StdSet α) (rank : Nat) (h : rank < s.length) :
    IndexableSet.at s ((rank : Int) - s.length) = .ok (s.get ⟨rank, h⟩) := by
  unfold IndexableSet.at
  have h1 : (rank : Int) - s.length < 0 := by omega
  simp only [h1, if_true]
  split
  · next hh => exact absurd hh (by omega)
  · simp

theorem IndexableSet.at_error (s : StdSet α) (index : Int)
    (h : index < -(s.length : Int) ∨ (s.length : Int) - 1 < index) :
    IndexableSet.at s index = .error (.out_of_range "index out of range") := by
  unfold IndexableSet.at
  by_cases h1 : index < 0
  · simp only [h1, if_true]
    split
    · rfl
    · next hh => exact absurd (by omega) hh
  · simp only [h1, if_false]
    split
    · rfl
    · next hh => exact absurd (by omega) hh

theorem ascending_get_lt {comp : α → α → Bool} {s : List α} (hs : ascending comp s)
    (i j : Nat) (hi : i < j) (hj : j < s.length) :
    comp (s.get ⟨i, Nat.lt_trans hi hj⟩) (s.get ⟨j, hj⟩) = true :=
  List.pairwise_iff_get.1 hs ⟨i, Nat.lt_trans hi hj⟩ ⟨j, hj⟩ hi

theorem filter_smaller_eq_take {comp : α → α → Bool} (hc : StrictWeak comp) {s : List α}
    (hs : ascending comp s) (rank : Nat) (h : rank < s.length) :
    s.filter (fun y => comp y (s.get ⟨rank, h⟩)) = s.take rank := by
  have hsplit : s = s.take rank ++ s.drop rank := (List.take_append_drop rank s).symm
  have htake : ∀ y ∈ s.take rank, comp y (s.get ⟨rank, h⟩) = true := by
    intro y hy
    obtain ⟨i, hi, rfl⟩ := List.mem_iff_get.1 hy
    have hi' : (i : Nat) < rank := by
      have := i.isLt
      simp only [List.length_take] at this
      omega
    have := ascending_get_lt hs i rank hi' h
    simpa [List.getElem_take] using this
  have hdrop : ∀ y ∈ s.drop rank, comp y (s.get ⟨rank, h⟩) = false := by
    intro y hy
    obtain ⟨i, hi, rfl⟩ := List.mem_iff_get.1 hy
    have hlen : rank + (i : Nat) < s.length := by
      have := i.isLt
      simp only [List.length_drop] at this
      omega
    have hget : (s.drop rank).get i = s.get ⟨rank + i, hlen⟩ := by
      simp [List.getElem_drop]
    rw [hget]
    by_cases h0 : (i : Nat) = 0
    · have : s.get ⟨rank + i, hlen⟩ = s.get ⟨rank, h⟩ := by
        congr 1
        simp [h0]
      rw [this]
      exact hc.irrefl _
    · exact hc.asymm _ _ (ascending_get_lt hs rank (rank + i) (by omega) hlen)
  generalize s.get ⟨rank, h⟩ = x at htake hdrop
  conv_lhs => rw [hsplit]
  rw [List.filter_append, List.filter_eq_self.2 htake, List.filter_eq_nil_iff.2
    (fun y hy => by simp [hdrop y hy]), List.append_nil]

end IndexableSetLemmas

/-! ## `IndexableSet`: the comparators of the tests -/

theorem lessInt_strictWeak : StrictWeak lessInt := by
  constructor
  · intro a b h
    simp only [lessInt, decide_eq_true_eq, decide_eq_false_iff_not] at *
    omega
  · intro a b c h1 h2
    simp only [lessInt, decide_eq_false_iff_not] at *
    omega

theorem strictWeak_comap {α β : Type} {lt : β → β → Bool} (h : StrictWeak lt) (f : α → β) :
    StrictWeak (fun a b => lt (f a) (f b)) :=
  ⟨fun a b => h.asymm (f a) (f b), fun a b c => h.negtrans (f a) (f b) (f c)⟩

theorem caselessCompare_strictWeak : StrictWeak caselessCompare := by
  have hchar : StrictWeak (fun c d : Char => decide (c < d)) := by
    constructor
    · intro a b h
      simp only [decide_eq_true_eq, decide_eq_false_iff_not] at *
      exact lt_asymm h
    · intro a b c h1 h2
      simp only [decide_eq_false_iff_not, not_lt] at *
      exact le_trans h2 h1
  exact strictWeak_comap (lex_strictWeak hchar) (fun a : List Char => a.map tolower)

/-! ## `IndexableSet`: the claims on access by rank -/

/-- C16: on an `IndexableSet` of size `n` (a strictly ascending iteration under a strict
weak ordering) and for `0 ≤ rank < n`, `at(rank)` and `operator[](rank)` return the
element at position `rank` of the ascending iteration, and the elements of the set
smaller than it are exactly the `rank` elements before it. -/
theorem IndexableSet_at_returns_rank_th_smallest {α : Type} (comp : α → α → Bool)
    (hc : StrictWeak comp) (s : StdSet α) (hs : ascending comp s) (rank : Nat)
    (hr : rank < s.length) :
    ∃ x, IndexableSet.at s rank = .ok x ∧ IndexableSet.subscript s rank = .ok x ∧
      s[rank]? = some x ∧
      s.filter (fun y => comp y x) = s.take rank ∧
      countSmaller comp s x = rank := by
  refine ⟨s.get ⟨rank, hr⟩, IndexableSet.at_nonneg s rank hr,
    IndexableSet.at_nonneg s rank hr, by simp [List.getElem?_eq_getElem hr],
    filter_smaller_eq_take hc hs rank hr, ?_⟩
  rw [countSmaller, filter_smaller_eq_take hc hs rank hr, List.length_take]
  omega

/-- C16, at the sets of the tests: in `IndexableSet<int>` built from 1, 2, 3 the ranks
0, 1, 2 give 1, 2, 3; in the set with `caselessCompare` built by inserting `Apple`,
`banana`, `Cherry` rank 1 gives `banana`. -/
theorem IndexableSet_at_returns_rank_th_smallest_witness :
    (ascending lessInt (StdSet.ofRange lessInt [1, 2, 3]) ∧
        IndexableSet.at (StdSet.ofRange lessInt [1, 2, 3]) 0 = .ok 1 ∧
        IndexableSet.at (StdSet.ofRange lessInt [1, 2, 3]) 1 = .ok 2 ∧
        IndexableSet.subscript (StdSet.ofRange lessInt [1, 2, 3]) 2 = .ok 3 ∧
        ∃ x, IndexableSet.at (StdSet.ofRange lessInt [1, 2, 3]) (2 : Nat) = .ok x ∧
          IndexableSet.subscript (StdSet.ofRange lessInt [1, 2, 3]) (2 : Nat) = .ok x ∧
          (StdSet.ofRange lessInt [1, 2, 3])[2]? = some x ∧
          (StdSet.ofRange lessInt [1, 2, 3]).filter (fun y => lessInt y x) =
            (StdSet.ofRange lessInt [1, 2, 3]).take 2 ∧
          countSmaller lessInt (StdSet.ofRange lessInt [1, 2, 3]) x = 2) ∧
      IndexableSet.subscript
        (StdSet.insert caselessCompare "Cherry".toList
          (StdSet.insert caselessCompare "banana".toList
            (StdSet.insert caselessCompare "Apple".toList []))) 1 = .ok "banana".toList :=
  ⟨⟨by unfold ascending; decide, rfl, rfl, rfl,
      IndexableSet_at_returns_rank_th_smallest lessInt lessInt_strictWeak
        (StdSet.ofRange lessInt [1, 2, 3]) (by unfold ascending; decide) 2 (by decide)⟩,
    rfl⟩

theorem ascending_head_min {α : Type} {comp : α → α → Bool} (hc : StrictWeak comp)
    {s : List α} (hs : ascending comp s) (hne : s ≠ []) :
    ∀ z ∈ s, comp z (s.head hne) = false := by
  cases s with
  | nil => exact absurd rfl hne
  | cons x xs =>
    intro z hz
    rcases List.mem_cons.1 hz with rfl | hz'
    · exact hc.irrefl _
    · exact hc.asymm _ _ ((List.pairwise_cons.1 hs).1 z hz')

theorem ascending_getLast_max {α : Type} {comp : α → α → Bool}
    {s : List α} (hs : ascending comp s) (hne : s ≠ []) :
    ∀ z ∈ s, z = s.getLast hne ∨ comp z (s.getLast hne) = true := by
  obtain ⟨ys, hys⟩ := List.getLast?_eq_some_iff.1 (List.getLast?_eq_getLast s hne)
  intro z hz
  have hs' : ascending comp (ys ++ [s.getLast hne]) := by rw [← hys]; exact hs
  rw [ascending, List.pairwise_append] at hs'
  rw [hys] at hz
  rcases List.mem_append.1 hz with h | h
  · exact Or.inr (hs'.2.2 z h _ (List.mem_singleton_self _))
  · exact Or.inl (List.mem_singleton.1 h)

theorem ascending_getLast_no_greater {α : Type} {comp : α → α → Bool} (hc : StrictWeak comp)
    {s : List α} (hs : ascending comp s) (hne : s ≠ []) :
    ∀ z ∈ s, comp (s.getLast hne) z = false := by
  intro z hz
  rcases ascending_getLast_max hs hne z hz with h | h
  · rw [h]
    exact hc.irrefl _
  · exact hc.asymm _ _ h

theorem IndexableSet.front_eq {α : Type} (s : StdSet α) (hne : s ≠ []) :
    IndexableSet.front s = .ok (s.head hne) := by
  unfold IndexableSet.front
  have : ¬ s.isEmpty = true := by simpa [List.isEmpty_iff] using hne
  rw [dif_neg this]

theorem IndexableSet.back_eq {α : Type} (s : StdSet α) (hne : s ≠ []) :
    IndexableSet.back s = .ok (s.getLast hne) := by
  unfold IndexableSet.back
  have : ¬ s.isEmpty = true := by simpa [List.isEmpty_iff] using hne
  rw [dif_neg this]

/-- C17: positive and negative ranks are equivalent: on a set of size `n` and for
`0 ≤ rank < n`, `at(rank)` and `at(rank - n)` return the same element; `at(-1)` is the
largest element of the set (none is greater) and `at(-n)` the smallest (none is
smaller). -/
theorem IndexableSet_negative_rank_equivalence {α : Type} (comp : α → α → Bool)
    (hc : StrictWeak comp) (s : StdSet α) (hs : ascending comp s) (rank : Nat)
    (hr : rank < s.length) :
    (∃ x, IndexableSet.at s rank = .ok x ∧
        IndexableSet.at s ((rank : Int) - s.length) = .ok x) ∧
      (∃ x, IndexableSet.at s (-1) = .ok x ∧ x ∈ s ∧ ∀ z ∈ s, comp x z = false) ∧
      (∃ x, IndexableSet.at s (-(s.length : Int)) = .ok x ∧ x ∈ s ∧
        ∀ z ∈ s, comp z x = false) := by
  have hne : s ≠ [] := by
    intro h
    rw [h] at hr
    exact Nat.not_lt_zero _ hr
  have hpos : 0 < s.length := Nat.lt_of_le_of_lt (Nat.zero_le _) hr
  refine ⟨⟨_, IndexableSet.at_nonneg s rank hr, IndexableSet.at_neg s rank hr⟩, ?_, ?_⟩
  · refine ⟨s.getLast hne, ?_, List.getLast_mem hne, ascending_getLast_no_greater hc hs hne⟩
    have h := IndexableSet.at_neg s (s.length - 1) (by omega)
    have hidx : ((s.length - 1 : Nat) : Int) - s.length = -1 := by omega
    rw [← hidx, h, List.getLast_eq_getElem]
    rfl
  · refine ⟨s.head hne, ?_, List.head_mem hne, ascending_head_min hc hs hne⟩
    have h := IndexableSet.at_neg s 0 hpos
    have hidx : ((0 : Nat) : Int) - s.length = -(s.length : Int) := by omega
    rw [← hidx, h, List.head_eq_getElem]
    rfl

/-- C17, at the set of the tests: in `IndexableSet<int>` built from 1, 2, 3 the ranks
-1, -2, -3 give 3, 2, 1, the same as the ranks 2, 1, 0. -/
theorem IndexableSet_negative_rank_equivalence_witness :
    ascending lessInt (StdSet.ofRange lessInt [1, 2, 3]) ∧
      IndexableSet.at (StdSet.ofRange lessInt [1, 2, 3]) (-1) = .ok 3 ∧
      IndexableSet.at (StdSet.ofRange lessInt [1, 2, 3]) (-2) = .ok 2 ∧
      IndexableSet.at (StdSet.ofRange lessInt [1, 2, 3]) (-3) = .ok 1 ∧
      ∃ x, IndexableSet.at (StdSet.ofRange lessInt [1, 2, 3]) (1 : Nat) = .ok x ∧
        IndexableSet.at (StdSet.ofRange lessInt [1, 2, 3])
          (((1 : Nat) : Int) - (StdSet.ofRange lessInt [1, 2, 3]).length) = .ok x :=
  ⟨by unfold ascending; decide, rfl, rfl, rfl,
    (IndexableSet_negative_rank_equivalence lessInt lessInt_strictWeak
      (StdSet.ofRange lessInt [1, 2, 3]) (by unfold ascending; decide) 1 (by decide)).1⟩

/-- C18: `at(rank)` and `operator[](rank)` throw `out_of_range` exactly when `rank` lies
outside `[-n, n-1]`, `n` being the size, and return an element otherwise; so every rank
fails on the empty set, and the ranks `n` and `-n-1` fail on every set. -/
theorem IndexableSet_at_out_of_range_iff {α : Type} (s : StdSet α) (rank : Int) :
    ((∃ what, IndexableSet.at s rank = .error (.out_of_range what)) ↔
        (rank < -(s.length : Int) ∨ (s.length : Int) - 1 < rank)) ∧
      ((∃ what, IndexableSet.subscript s rank = .error (.out_of_range what)) ↔
        (rank < -(s.length : Int) ∨ (s.length : Int) - 1 < rank)) ∧
      ((∃ x, IndexableSet.at s rank = .ok x) ↔
        (-(s.length : Int) ≤ rank ∧ rank ≤ (s.length : Int) - 1)) ∧
      (∃ what, IndexableSet.at ([] : StdSet α) rank = .error (.out_of_range what)) ∧
      (∃ what, IndexableSet.at s (s.length : Int) = .error (.out_of_range what)) ∧
      (∃ what, IndexableSet.at s (-(s.length : Int) - 1) = .error (.out_of_range what)) := by
  have hok : (-(s.length : Int) ≤ rank ∧ rank ≤ (s.length : Int) - 1) →
      ∃ x, IndexableSet.at s rank = .ok x := by
    intro h
    by_cases h0 : 0 ≤ rank
    · obtain ⟨n, hn⟩ : ∃ n : Nat, rank = n := ⟨rank.toNat, (Int.toNat_of_nonneg h0).symm⟩
      subst hn
      exact ⟨_, IndexableSet.at_nonneg s n (by omega)⟩
    · obtain ⟨n, hn⟩ : ∃ n : Nat, rank = (n : Int) - s.length :=
        ⟨(rank + s.length).toNat, by omega⟩
      subst hn
      exact ⟨_, IndexableSet.at_neg s n (by omega)⟩
  have hiff : (∃ what, IndexableSet.at s rank = .error (.out_of_range what)) ↔
      (rank < -(s.length : Int) ∨ (s.length : Int) - 1 < rank) := by
    constructor
    · rintro ⟨what, hw⟩
      by_contra hcon
      obtain ⟨x, hx⟩ := hok (by omega)
      rw [hx] at hw
      cases hw
    · intro h
      exact ⟨_, IndexableSet.at_error s rank h⟩
  refine ⟨hiff, hiff, ⟨?_, hok⟩, ⟨_, IndexableSet.at_error [] rank (by simp; omega)⟩,
    ⟨_, IndexableSet.at_error s _ (by omega)⟩, ⟨_, IndexableSet.at_error s _ (by omega)⟩⟩
  rintro ⟨x, hx⟩
  by_contra hcon
  have : rank < -(s.length : Int) ∨ (s.length : Int) - 1 < rank := by omega
  rw [IndexableSet.at_error s rank this] at hx
  cases hx

/-- C18, at the sets of the tests: on the set built from 1, 2, 3 the ranks 3 and -4
fail, and rank 0 fails on the empty set. -/
theorem IndexableSet_at_out_of_range_iff_witness :
    (∃ what, IndexableSet.at (StdSet.ofRange lessInt [1, 2, 3]) 3 =
        .error (.out_of_range what)) ∧
      (∃ what, IndexableSet.subscript (StdSet.ofRange lessInt [1, 2, 3]) (-4) =
        .error (.out_of_range what)) ∧
      (∃ what, IndexableSet.at (StdSet.ofRange lessInt []) 0 =
        .error (.out_of_range what)) :=
  ⟨(IndexableSet_at_out_of_range_iff (StdSet.ofRange lessInt [1, 2, 3]) 3).1.2 (by decide),
    (IndexableSet_at_out_of_range_iff (StdSet.ofRange lessInt [1, 2, 3]) (-4)).2.1.2
      (by decide),
    (IndexableSet_at_out_of_range_iff (StdSet.ofRange lessInt []) 0).1.2 (by decide)⟩

/-! ## `IndexableSet`: `front` and `back` -/

/-- C19: `front()` and `back()` throw `out_of_range` exactly on the empty set. On a
non-empty set `front()` returns the minimum (an element that no element is smaller
than) and `back()` the maximum (an element smaller than no element), and they agree
with `at(0)` and `at(-1)`. -/
theorem IndexableSet_front_back {α : Type} (comp : α → α → Bool) (hc : StrictWeak comp)
    (s : StdSet α) (hs : ascending comp s) :
    ((∃ what, IndexableSet.front s = .error (.out_of_range what)) ↔ s = []) ∧
      ((∃ what, IndexableSet.back s = .error (.out_of_range what)) ↔ s = []) ∧
      (s ≠ [] → ∃ x y, IndexableSet.front s = .ok x ∧ IndexableSet.back s = .ok y ∧
        x ∈ s ∧ y ∈ s ∧
        (∀ z ∈ s, comp z x = false) ∧ (∀ z ∈ s, comp y z = false) ∧
        IndexableSet.at s 0 = .ok x ∧ IndexableSet.at s (-1) = .ok y) := by
  refine ⟨?_, ?_, ?_⟩
  · constructor
    · rintro ⟨what, hw⟩
      by_contra hne
      rw [IndexableSet.front_eq s hne] at hw
      cases hw
    · intro h
      subst h
      exact ⟨_, rfl⟩
  · constructor
    · rintro ⟨what, hw⟩
      by_contra hne
      rw [IndexableSet.back_eq s hne] at hw
      cases hw
    · intro h
      subst h
      exact ⟨_, rfl⟩
  · intro hne
    have hpos : 0 < s.length := List.length_pos.2 hne
    refine ⟨s.head hne, s.getLast hne, IndexableSet.front_eq s hne,
      IndexableSet.back_eq s hne, List.head_mem hne, List.getLast_mem hne,
      ascending_head_min hc hs hne, ascending_getLast_no_greater hc hs hne, ?_, ?_⟩
    · have h := IndexableSet.at_nonneg s 0 hpos
      rw [List.head_eq_getElem]
      exact h
    · have h := IndexableSet.at_neg s (s.length - 1) (by omega)
      have hidx : ((s.length - 1 : Nat) : Int) - s.length = -1 := by omega
      rw [← hidx, h, List.getLast_eq_getElem]
      rfl

/-- C19, at the sets of the tests: after inserting 3, 1, 2 `front()` is 1 and `back()`
is 3; on the empty set both throw. -/
theorem IndexableSet_front_back_witness :
    ascending lessInt
        (StdSet.insert lessInt 2 (StdSet.insert lessInt 1 (StdSet.insert lessInt 3 []))) ∧
      IndexableSet.front
        (StdSet.insert lessInt 2 (StdSet.insert lessInt 1 (StdSet.insert lessInt 3 [])))
        = .ok 1 ∧
      IndexableSet.back
        (StdSet.insert lessInt 2 (StdSet.insert lessInt 1 (StdSet.insert lessInt 3 [])))
        = .ok 3 ∧
      (∃ what, IndexableSet.front ([] : StdSet Int) = .error (.out_of_range what)) ∧
      (∃ what, IndexableSet.back ([] : StdSet Int) = .error (.out_of_range what)) :=
  ⟨by unfold ascending; decide, rfl, rfl,
    (IndexableSet_front_back lessInt lessInt_strictWeak [] List.Pairwise.nil).1.2 rfl,
    (IndexableSet_front_back lessInt lessInt_strictWeak [] List.Pairwise.nil).2.1.2 rfl⟩

/-! ## `IndexableSet`: construction and `insert` -/

theorem StdSet.insert_of_all_lt {α : Type} {comp : α → α → Bool} (hc : StrictWeak comp)
    (x : α) (s : StdSet α) (h : ∀ y ∈ s, comp y x = true) :
    StdSet.insert comp x s = s ++ [x] := by
  induction s with
  | nil => rfl
  | cons y ys ih =>
    have hy := h y (List.mem_cons_self _ _)
    have hxy := hc.asymm y x hy
    simp only [StdSet.insert, hxy, hy, Bool.false_eq_true, if_false, if_true,
      List.cons_append]
    rw [ih (fun z hz => h z (List.mem_cons_of_mem _ hz))]

theorem StdSet.insertAtEnd_eq {α : Type} {comp : α → α → Bool} (hc : StrictWeak comp)
    (x : α) (s : StdSet α) (hs : ascending comp s) :
    StdSet.insertAtEnd comp x s = StdSet.insert comp x s := by
  unfold StdSet.insertAtEnd
  cases hl : s.getLast? with
  | none => rfl
  | some m =>
    simp only
    split_ifs with hm
    · have hne : s ≠ [] := by
        intro h
        rw [h] at hl
        cases hl
      have hlast : s.getLast hne = m := by
        have := List.getLast?_eq_getLast s hne
        rw [hl] at this
        exact (Option.some.inj this).symm
      rw [StdSet.insert_of_all_lt hc x s]
      intro y hy
      rcases ascending_getLast_max hs hne y hy with h | h
      · rw [h, hlast]
        exact hm
      · rw [hlast] at h
        exact hc.trans h hm
    · rfl

theorem StdSet.foldl_insertAtEnd_eq {α : Type} {comp : α → α → Bool} (hc : StrictWeak comp)
    (values : List α) :
    ∀ (s : StdSet α), ascending comp s →
      values.foldl (fun set x => StdSet.insertAtEnd comp x set) s =
        values.foldl (fun set x => StdSet.insert comp x set) s := by
  induction values with
  | nil =>
    intro s _
    rfl
  | cons v vs ih =>
    intro s hs
    rw [List.foldl_cons, List.foldl_cons, StdSet.insertAtEnd_eq hc v s hs]
    exact ih _ (StdSet.insert_ascending hc v s hs)

theorem StdSet.ofRange_eq {α : Type} {comp : α → α → Bool} (hc : StrictWeak comp)
    (values : List α) :
    StdSet.ofRange comp values = values.foldl (fun set x => StdSet.insert comp x set) [] :=
  StdSet.foldl_insertAtEnd_eq hc values [] List.Pairwise.nil

theorem StdSet.insert_perm {α : Type} {comp : α → α → Bool} (x : α) (s : StdSet α)
    (h : ∀ z ∈ s, equivUnder comp x z = false) :
    (StdSet.insert comp x s).Perm (x :: s) := by
  induction s with
  | nil => exact List.Perm.refl _
  | cons y ys ih =>
    simp only [StdSet.insert]
    split_ifs with h1 h2
    · exact List.Perm.refl _
    · exact ((ih (fun z hz => h z (List.mem_cons_of_mem _ hz))).cons y).trans
        (List.Perm.swap x y ys)
    · exfalso
      have := h y (List.mem_cons_self _ _)
      simp only [Bool.not_eq_true] at h1 h2
      simp [equivUnder, h1, h2] at this

/-- C20: an `IndexableSet` constructed from any collection of values and changed by any
sequence of `insert` calls iterates in strictly ascending order under the comparator.
On such a set `insert(x)` changes nothing when an element equivalent to `x` is present,
and otherwise the new set is strictly ascending and consists of the old elements and
`x`, each once. Construction from a collection gives the same set as inserting its
values one by one into the empty set. -/
theorem IndexableSet_sorted_unique_and_insert {α : Type} (comp : α → α → Bool)
    (hc : StrictWeak comp) (values inserts : List α) (x : α) :
    ascending comp (StdSet.ofRange comp values) ∧
      ascending comp
        (inserts.foldl (fun set v => StdSet.insert comp v set) (StdSet.ofRange comp values)) ∧
      (inserts.foldl (fun set v => StdSet.insert comp v set)
        (StdSet.ofRange comp values)).Pairwise (fun a b => equivUnder comp a b = false) ∧
      ((∃ z ∈ inserts.foldl (fun set v => StdSet.insert comp v set)
            (StdSet.ofRange comp values), equivUnder comp x z = true) →
        StdSet.insert comp x
            (inserts.foldl (fun set v => StdSet.insert comp v set)
              (StdSet.ofRange comp values)) =
          inserts.foldl (fun set v => StdSet.insert comp v set)
            (StdSet.ofRange comp values)) ∧
      ((∀ z ∈ inserts.foldl (fun set v => StdSet.insert comp v set)
            (StdSet.ofRange comp values), equivUnder comp x z = false) →
        (StdSet.insert comp x
            (inserts.foldl (fun set v => StdSet.insert comp v set)
              (StdSet.ofRange comp values))).Perm
          (x :: inserts.foldl (fun set v => StdSet.insert comp v set)
            (StdSet.ofRange comp values)) ∧
        ascending comp (StdSet.insert comp x
            (inserts.foldl (fun set v => StdSet.insert comp v set)
              (StdSet.ofRange comp values)))) ∧
      StdSet.ofRange comp values =
        values.foldl (fun set v => StdSet.insert comp v set) [] := by
  have h0 : ascending comp (StdSet.ofRange comp values) := by
    rw [StdSet.ofRange_eq hc]
    exact foldl_insert_ascending hc values [] List.Pairwise.nil
  have h1 := foldl_insert_ascending hc inserts _ h0
  refine ⟨h0, h1, ?_, fun hz => StdSet.insert_of_equiv hc x _ h1 hz,
    fun hz => ⟨StdSet.insert_perm x _ hz, StdSet.insert_ascending hc x _ h1⟩,
    StdSet.ofRange_eq hc values⟩
  refine List.Pairwise.imp ?_ h1
  intro a b hab
  simp [equivUnder, hab]

/-- C20, at the sets of the tests: the set constructed from 1, 2, 3 has the three
elements in order and equals the set obtained by inserting 3, 1, 2 one by one; inserting
2 once more changes nothing; with `caselessCompare`, inserting `APPLE` into a set that
holds `Apple` changes nothing. -/
theorem IndexableSet_sorted_unique_and_insert_witness :
    StdSet.ofRange lessInt [1, 2, 3] = [1, 2, 3] ∧
      StdSet.insert lessInt 2 (StdSet.insert lessInt 1 (StdSet.insert lessInt 3 [])) =
        [1, 2, 3] ∧
      StdSet.insert lessInt 2 (StdSet.ofRange lessInt [1, 2, 3]) = [1, 2, 3] ∧
      StdSet.ofRange lessInt [3, 1, 2, 1] =
        [3, 1, 2, 1].foldl (fun set v => StdSet.insert lessInt v set) [] ∧
      StdSet.insert caselessCompare "APPLE".toList
          (StdSet.ofRange caselessCompare ["banana".toList, "Apple".toList]) =
        ["Apple".toList, "banana".toList] :=
  ⟨by decide, by decide, by decide,
    (IndexableSet_sorted_unique_and_insert lessInt lessInt_strictWeak [3, 1, 2, 1] [] 0).2.2.2.2.2,
    by decide⟩

/-! ## `kwic`: the end-to-end example and closure under rotation -/

/-- C21: the code at the input of test `kwic_case_insensitive_sorting`. The four
rotations of `Apple banana` and `Banana apple` collapse to the two entries
`Apple banana` and `banana Apple`, each with the casing of the rotation seen first, but
the text written is `Apple banana \nbanana Apple \n`, with a space before each line
break, not the `Apple banana\nbanana Apple\n` that the test and the specification
require. -/
theorem kwic_case_insensitive_sorting_trailing_space :
    kwic.index "Apple banana\nBanana apple".toList =
        some [[⟨"Apple".toList⟩, ⟨"banana".toList⟩], [⟨"banana".toList⟩, ⟨"Apple".toList⟩]] ∧
      kwic "Apple banana\nBanana apple".toList =
        some "Apple banana \nbanana Apple \n".toList ∧
      kwic "Apple banana\nBanana apple".toList ≠
        some "Apple banana\nbanana Apple\n".toList := by
  refine ⟨by decide, by decide, by decide⟩

theorem rotate_length {α : Type} (v : List α) (i : Nat) : (rotate v i).length = v.length := by
  simp only [rotate, List.length_append, List.length_drop, List.length_take]
  omega

theorem rotate_of_length_le {α : Type} (v : List α) (j : Nat) (h : v.length ≤ j) :
    rotate v j = v := by
  simp [rotate, List.drop_eq_nil_of_le h, List.take_of_length_le h]

theorem rotate_rotate {α : Type} (v : List α) (i j : Nat) (hi : i < v.length)
    (hj : j < v.length) : rotate (rotate v i) j = rotate v ((i + j) % v.length) := by
  have hpos : 0 < v.length := Nat.lt_of_le_of_lt (Nat.zero_le _) hi
  have hm : (i + j) % v.length < v.length := Nat.mod_lt _ hpos
  apply List.ext_getElem?
  intro k
  by_cases hk : k < v.length
  · rw [rotate_getElem? (rotate v i) j k (by rw [rotate_length]; exact hj)
        (by rw [rotate_length]; exact hk), rotate_length,
      rotate_getElem? v i _ hi (Nat.mod_lt _ hpos),
      rotate_getElem? v _ k hm hk, Nat.add_mod_mod, Nat.mod_add_mod, Nat.add_assoc]
  · rw [List.getElem?_eq_none (by rw [rotate_length, rotate_length]; omega),
      List.getElem?_eq_none (by rw [rotate_length]; omega)]

theorem StdSet.insert_length_le {α : Type} (comp : α → α → Bool) (x : α) (s : StdSet α) :
    (StdSet.insert comp x s).length ≤ s.length + 1 := by
  induction s with
  | nil => simp [StdSet.insert]
  | cons y ys ih =>
    simp only [StdSet.insert]
    split_ifs
    · simp
    · simp only [List.length_cons]
      omega
    · simp

theorem foldl_insert_length_le {α : Type} (comp : α → α → Bool) (gen : List α) :
    ∀ s : StdSet α,
      (gen.foldl (fun set x => StdSet.insert comp x set) s).length ≤ s.length + gen.length := by
  induction gen with
  | nil =>
    intro s
    simp
  | cons x xs ih =>
    intro s
    have h1 := ih (StdSet.insert comp x s)
    have h2 := StdSet.insert_length_le comp x s
    simp only [List.foldl_cons, List.length_cons]
    omega

theorem generated_length (input : List Char) :
    (generated input).length =
      ((inputLines input).map (fun line => (tokenize line).length)).sum := by
  unfold generated
  generalize inputLines input = lines
  induction lines with
  | nil => rfl
  | cons l ls ih =>
    rw [List.flatMap_cons, List.length_append, ih]
    simp [rotations]

/-- C23: the entries `kwic` writes are closed under cyclic rotation up to letter case:
every rotation of a written entry, by any offset, is case-insensitively equivalent to a
written entry; and the number of entries written is at most the number of tokens of
the input, summed over its lines. -/
theorem kwic_lines_closed_under_rotation (input : List Char) :
    ∃ idx : StdSet Line, kwic.index input = some idx ∧
      kwic input = some (idx.map (kwic.writeLine [])).flatten ∧
      (∀ e ∈ idx, ∀ j, ∃ e' ∈ idx, Line.eqv (rotate e j) e' = true) ∧
      idx.length ≤ ((inputLines input).map (fun line => (tokenize line).length)).sum ∧
      (idx.map (kwic.writeLine [])).length ≤
        ((inputLines input).map (fun line => (tokenize line).length)).sum := by
  obtain ⟨-, hfirst, hcov⟩ := index_invariant input
  have hlen : ((generated input).foldl
      (fun set x => StdSet.insert comparator x set) []).length ≤
      ((inputLines input).map (fun line => (tokenize line).length)).sum := by
    have := foldl_insert_length_le comparator (generated input) []
    rw [← generated_length]
    simpa using this
  refine ⟨_, index_eq input, by rw [kwic_eq, write_eq_map], ?_, hlen,
    by rw [List.length_map]; exact hlen⟩
  intro e he j
  obtain ⟨line, hline, i, hi, rfl⟩ :=
    mem_generated.1 (List.mem_of_find?_eq_some (hfirst e he))
  by_cases hj : j < (tokenize line).length
  · rw [rotate_rotate _ i j hi hj]
    exact hcov _ (mem_generated.2 ⟨line, hline, _,
      Nat.mod_lt _ (Nat.lt_of_le_of_lt (Nat.zero_le _) hi), rfl⟩)
  · rw [rotate_of_length_le _ j (by rw [rotate_length]; omega)]
    exact ⟨_, he, Line.eqv_refl _⟩

/-! ## `std::to_string`: the decimal text of a number -/

theorem digits_eq_natText (n : Nat) :
    ∀ (fuel : Nat) (acc : List Char), n < fuel →
      to_string.digits fuel n acc = to_string.natText n ++ acc := by
  induction n using Nat.strong_induction_on with
  | _ n ih =>
    intro fuel acc hlt
    cases fuel with
    | zero => exact absurd hlt (Nat.not_lt_zero _)
    | succ fuel =>
      by_cases h0 : n / 10 = 0
      · simp [to_string.natText, to_string.digits, h0]
      · have hdiv : n / 10 < n := Nat.div_lt_self (by omega) (by omega)
        have h1 := ih (n / 10) hdiv fuel (Char.ofNat (48 + n % 10) :: acc) (by omega)
        have h2 := ih (n / 10) hdiv n [Char.ofNat (48 + n % 10)] hdiv
        simp only [to_string.natText, to_string.digits, h0, if_false] at h1 h2 ⊢
        rw [h1, h2]
        simp [to_string.natText]

theorem natText_lt_ten {n : Nat} (h : n < 10) :
    to_string.natText n = [Char.ofNat (48 + n)] := by
  have h0 : n / 10 = 0 := Nat.div_eq_of_lt h
  simp [to_string.natText, to_string.digits, h0, Nat.mod_eq_of_lt h]

theorem natText_ge_ten {n : Nat} (h : 10 ≤ n) :
    to_string.natText n = to_string.natText (n / 10) ++ [Char.ofNat (48 + n % 10)] := by
  have h0 : n / 10 ≠ 0 := by omega
  have hdiv : n / 10 < n := Nat.div_lt_self (by omega) (by omega)
  conv_lhs => rw [to_string.natText]
  simp only [to_string.digits, h0, if_false]
  exact digits_eq_natText (n / 10) n _ hdiv

theorem digitChar_toNat {d : Nat} (h : d < 10) : (Char.ofNat (48 + d)).toNat = 48 + d :=
  toNat_ofNat_small _ (by omega)

theorem digitChar_isdigit {d : Nat} (h : d < 10) : isdigit (Char.ofNat (48 + d)) = true := by
  simp only [isdigit, digitChar_toNat h, Bool.and_eq_true, decide_eq_true_eq]
  omega

theorem natText_isdigit (n : Nat) : ∀ c ∈ to_string.natText n, isdigit c = true := by
  induction n using Nat.strong_induction_on with
  | _ n ih =>
    intro c hc
    by_cases h : n < 10
    · rw [natText_lt_ten h, List.mem_singleton] at hc
      rw [hc]
      exact digitChar_isdigit h
    · rw [natText_ge_ten (by omega)] at hc
      rcases List.mem_append.1 hc with hc' | hc'
      · exact ih (n / 10) (Nat.div_lt_self (by omega) (by omega)) c hc'
      · rw [List.mem_singleton] at hc'
        rw [hc']
        exact digitChar_isdigit (Nat.mod_lt _ (by omega))

theorem natText_ne_nil (n : Nat) : to_string.natText n ≠ [] := by
  by_cases h : n < 10
  · rw [natText_lt_ten h]
    simp
  · rw [natText_ge_ten (by omega)]
    simp

theorem digitsValue_append (v : Nat) (ds : List Char) (c : Char) :
    digitsValue v (ds ++ [c]) = 10 * digitsValue v ds + (c.toNat - 48) := by
  simp [digitsValue, List.foldl_append]

theorem digitsValue_natText (n : Nat) : digitsValue 0 (to_string.natText n) = n := by
  induction n using Nat.strong_induction_on with
  | _ n ih =>
    by_cases h : n < 10
    · rw [natText_lt_ten h]
      simp [digitsValue, digitChar_toNat h]
    · rw [natText_ge_ten (by omega), digitsValue_append,
        ih (n / 10) (Nat.div_lt_self (by omega) (by omega)),
        digitChar_toNat (Nat.mod_lt _ (by omega))]
      omega

theorem natText_length_le_iff (n : Nat) :
    ∀ k, 1 ≤ k → ((to_string.natText n).length ≤ k ↔ n < 10 ^ k) := by
  induction n using Nat.strong_induction_on with
  | _ n ih =>
    intro k hk
    by_cases h : n < 10
    · rw [natText_lt_ten h]
      have : 10 ^ 1 ≤ 10 ^ k := Nat.pow_le_pow_right (by omega) hk
      simp only [List.length_singleton]
      constructor
      · intro _
        omega
      · intro _
        exact hk
    · rw [natText_ge_ten (by omega), List.length_append, List.length_singleton]
      have hne := natText_ne_nil (n / 10)
      have hlen : 1 ≤ (to_string.natText (n / 10)).length :=
        List.length_pos.2 hne
      by_cases hk1 : k = 1
      · subst hk1
        constructor
        · intro hl
          omega
        · intro hl
          omega
      · obtain ⟨k', rfl⟩ : ∃ k', k = k' + 1 := ⟨k - 1, by omega⟩
        have := ih (n / 10) (Nat.div_lt_self (by omega) (by omega)) k' (by omega)
        rw [Nat.add_le_add_iff_right, this, Nat.pow_succ, Nat.div_lt_iff_lt_mul (by omega)]

/-- The decimal text of an `int` has at most 8 characters, a leading `-` counted,
exactly for the values from `-9999999` to `99999999`. -/
theorem printed_width_le_eight_iff (v : Int) :
    printed_width v ≤ 8 ↔ (-9999999 ≤ v ∧ v ≤ 99999999) := by
  unfold printed_width to_string
  by_cases hneg : v < 0
  · simp only [hneg, if_true, List.length_cons]
    have h := natText_length_le_iff v.natAbs 7 (by omega)
    have : (to_string.natText v.natAbs).length + 1 ≤ 8 ↔
        (to_string.natText v.natAbs).length ≤ 7 := by omega
    rw [this, h]
    omega
  · simp only [hneg, if_false]
    rw [natText_length_le_iff v.natAbs 8 (by omega)]
    omega

/-! ## The extraction operators on the text of an expression -/

theorem span_append_stop {p : Char → Bool} :
    ∀ (l rest : List Char), (∀ c ∈ l, p c = true) →
      (∀ c, rest.head? = some c → p c = false) →
      (l ++ rest).takeWhile p = l ∧ (l ++ rest).dropWhile p = rest
  | [], [], _, _ => by simp
  | [], r :: rs, _, hr => by
    have := hr r rfl
    simp [List.takeWhile_cons, List.dropWhile_cons, this]
  | c :: cs, rest, hl, hr => by
    have hc := hl c (List.mem_cons_self _ _)
    have ih := span_append_stop cs rest (fun d hd => hl d (List.mem_cons_of_mem _ hd)) hr
    simp [List.takeWhile_cons, List.dropWhile_cons, hc, ih.1, ih.2]

theorem isdigit_not_space {c : Char} (h : isdigit c = true) : isspace c = false := by
  simp only [isdigit, Bool.and_eq_true, decide_eq_true_eq] at h
  simp only [isspace, Bool.or_eq_false_iff, decide_eq_false_iff_not, Bool.and_eq_false_iff]
  omega

theorem isspace_not_digit {c : Char} (h : isspace c = true) : isdigit c = false := by
  cases hd : isdigit c
  · rfl
  · rw [isdigit_not_space hd] at h
    cases h

theorem isdigit_not_sign {c : Char} (h : isdigit c = true) : c ≠ '-' ∧ c ≠ '+' := by
  constructor
  · intro hc
    rw [hc] at h
    revert h
    decide
  · intro hc
    rw [hc] at h
    revert h
    decide

theorem natText_cons (n : Nat) :
    ∃ d ds, to_string.natText n = d :: ds ∧ isdigit d = true := by
  cases h : to_string.natText n with
  | nil => exact absurd h (natText_ne_nil n)
  | cons d ds =>
    refine ⟨d, ds, rfl, natText_isdigit n d ?_⟩
    rw [h]
    exact List.mem_cons_self _ _

theorem extractInt_text (a : Int) (ha : inIntRange a) (w rest : List Char) (old : Int)
    (hw : ∀ c ∈ w, isspace c = true)
    (hrest : ∀ c, rest.head? = some c → isdigit c = false) :
    extractInt ⟨w ++ to_string a ++ rest, false, false⟩ old =
      (⟨rest, rest.isEmpty, false⟩, a) := by
  obtain ⟨d, ds, hnat, hd⟩ := natText_cons a.natAbs
  have hspan := span_append_stop (to_string.natText a.natAbs) rest (natText_isdigit _) hrest
  have hval := digitsValue_natText a.natAbs
  have hne : (to_string.natText a.natAbs).isEmpty = false := by rw [hnat]; rfl
  unfold inIntRange INT_MIN INT_MAX at ha
  by_cases hneg : a < 0
  · have htext : to_string a = '-' :: to_string.natText a.natAbs := by simp [to_string, hneg]
    have hdrop : (w ++ to_string a ++ rest).dropWhile isspace =
        '-' :: (to_string.natText a.natAbs ++ rest) := by
      rw [htext, List.append_assoc]
      exact (span_append_stop w _ hw (fun c hc => by
        simp only [List.cons_append, List.head?_cons, Option.some.injEq] at hc
        rw [← hc]
        decide)).2
    have hv : -(a.natAbs : Int) = a := by omega
    simp only [extractInt, IStream.good, Bool.not_false, Bool.and_self, Bool.not_true,
      Bool.false_eq_true, if_false, hdrop, true_or, if_true, hspan.1, hspan.2, hne, hval,
      decide_True, INT_MIN, INT_MAX, hv]
    rw [if_neg (by omega), if_neg (by omega)]
  · have htext : to_string a = to_string.natText a.natAbs := by simp [to_string, hneg]
    have hdrop : (w ++ to_string a ++ rest).dropWhile isspace =
        d :: (ds ++ rest) := by
      rw [htext, List.append_assoc, hnat]
      exact (span_append_stop w _ hw (fun c hc => by
        simp only [List.cons_append, List.head?_cons, Option.some.injEq] at hc
        rw [← hc]
        exact isdigit_not_space hd)).2
    have hsign := isdigit_not_sign hd
    have hbody : d :: (ds ++ rest) = to_string.natText a.natAbs ++ rest := by rw [hnat]; rfl
    have hv : (a.natAbs : Int) = a := by omega
    simp only [extractInt, IStream.good, Bool.not_false, Bool.and_self, Bool.not_true,
      Bool.false_eq_true, if_false, hdrop, hsign.1, hsign.2, or_self, decide_False]
    simp only [hbody, hspan.1, hspan.2, hne, hval, INT_MIN, INT_MAX, hv, Bool.false_eq_true,
      if_false]
    rw [if_neg (by omega), if_neg (by omega)]

theorem extractChar_text (op : Char) (hop : isspace op = false) (w rest : List Char)
    (old : Char) (hw : ∀ c ∈ w, isspace c = true) :
    extractChar ⟨w ++ op :: rest, false, false⟩ old = (⟨rest, false, false⟩, op) := by
  have hdrop : (w ++ op :: rest).dropWhile isspace = op :: rest :=
    (span_append_stop w (op :: rest) hw (fun c hc => by
      simp only [List.head?_cons, Option.some.injEq] at hc
      rw [← hc]
      exact hop)).2
  simp [extractChar, IStream.good, hdrop]

theorem operator_facts {op : Char}
    (hop : op = '+' ∨ op = '-' ∨ op = '*' ∨ op = '/' ∨ op = '%') :
    isspace op = false ∧ isdigit op = false ∧ op ≠ '\n' := by
  rcases hop with h | h | h | h | h <;> subst h <;> decide

theorem wrapInt_of_inIntRange {z : Int} (h : inIntRange z) : wrapInt z = z := by
  unfold inIntRange INT_MIN INT_MAX at h
  unfold wrapInt
  omega

theorem tdiv_INT_MIN_neg_one : ¬ inIntRange (Int.tdiv INT_MIN (-1)) := by
  unfold inIntRange INT_MIN INT_MAX
  decide

theorem calc_eq_exactResult (a b : Int) {op : Char}
    (hop : op = '+' ∨ op = '-' ∨ op = '*' ∨ op = '/' ∨ op = '%')
    (hb0 : (op = '/' ∨ op = '%') → b ≠ 0)
    (hq : (op = '/' ∨ op = '%') → inIntRange (Int.tdiv a b)) :
    Calc.calc a b op = .returned (.ok (wrapInt (exactResult a b op))) := by
  have hno : (op = '/' ∨ op = '%') → ¬ (a = INT_MIN ∧ b = -1) := by
    intro h hab
    have := hq h
    rw [hab.1, hab.2] at this
    exact tdiv_INT_MIN_neg_one this
  rcases hop with h | h | h | h | h <;> subst h
  · simp [Calc.calc, exactResult]
  · simp [Calc.calc, exactResult]
  · simp [Calc.calc, exactResult]
  · have h0 := hb0 (Or.inl rfl)
    have h1 := hno (Or.inl rfl)
    simp [Calc.calc, exactResult, h0, h1]
  · have h0 := hb0 (Or.inr rfl)
    have h1 := hno (Or.inr rfl)
    simp [Calc.calc, exactResult, h0, h1]

theorem evaluate_expressionLine (a b : Int) (op : Char) (w1 w2 w3 w4 : List Char)
    (ha : inIntRange a) (hb : inIntRange b)
    (hop : op = '+' ∨ op = '-' ∨ op = '*' ∨ op = '/' ∨ op = '%')
    (hw1 : ∀ c ∈ w1, isspace c = true) (hw2 : ∀ c ∈ w2, isspace c = true)
    (hw3 : ∀ c ∈ w3, isspace c = true) (hw4 : ∀ c ∈ w4, isspace c = true) :
    pocketcalculator.evaluate (expressionLine w1 a w2 op w3 b w4) = Calc.calc a b op := by
  obtain ⟨hops, hopd, -⟩ := operator_facts hop
  have hhead : ∀ (w tail : List Char), (∀ c ∈ w, isspace c = true) →
      (∀ c, tail.head? = some c → isdigit c = false) →
      ∀ c, (w ++ tail).head? = some c → isdigit c = false := by
    intro w tail hw ht c hc
    cases w with
    | nil => exact ht c hc
    | cons x xs =>
      simp only [List.cons_append, List.head?_cons, Option.some.injEq] at hc
      rw [← hc]
      exact isspace_not_digit (hw x (List.mem_cons_self _ _))
  have h1 := extractInt_text a ha w1 (w2 ++ op :: (w3 ++ to_string b ++ w4)) 0 hw1
    (hhead w2 _ hw2 (fun c hc => by
      simp only [List.head?_cons, Option.some.injEq] at hc
      rw [← hc]
      exact hopd))
  have hne : (w2 ++ op :: (w3 ++ to_string b ++ w4)).isEmpty = false := by
    cases w2 <;> rfl
  rw [hne] at h1
  have h2 := extractChar_text op hops w2 (w3 ++ to_string b ++ w4) (Char.ofNat 0) hw2
  have h3 := extractInt_text b hb w3 w4 0 hw3 (fun c hc =>
    hhead w4 [] hw4 (by simp) c (by simpa using hc))
  have hline : expressionLine w1 a w2 op w3 b w4 =
      w1 ++ to_string a ++ (w2 ++ op :: (w3 ++ to_string b ++ w4)) := by
    simp [expressionLine, List.append_assoc]
  have hpeek : (IStream.ws ⟨w4, w4.isEmpty, false⟩).peek = none := by
    cases w4 with
    | nil => simp [IStream.ws, IStream.peek, IStream.good]
    | cons x xs =>
      have hd : (x :: xs).dropWhile isspace = [] := by
        have := (span_append_stop (x :: xs) [] hw4 (by simp)).2
        simpa using this
      simp [IStream.ws, IStream.peek, IStream.good, hd]
  simp only [pocketcalculator.evaluate, IStream.ofText, hline, h1, h2, h3, IStream.ok,
    Bool.not_false, Bool.not_true, Bool.false_eq_true, if_false, hpeek, ne_eq,
    not_true_eq_false]

/-! ## The seven-segment output: a number never looks like the error word -/

theorem foldl_append_flatMap (f : Char → List Char) (text : List Char) :
    ∀ out : List Char, text.foldl (fun o c => o ++ f c) out = out ++ text.flatMap f := by
  induction text with
  | nil =>
    intro out
    simp
  | cons c cs ih =>
    intro out
    rw [List.foldl_cons, ih, List.flatMap_cons, List.append_assoc]

theorem printLargeNumber_rows (i : Int) :
    printLargeNumber i [] =
      (to_string i).flatMap (fun c => (glyphFor c).getD 0 []) ++ '\n' ::
      ((to_string i).flatMap (fun c => (glyphFor c).getD 1 []) ++ '\n' ::
      ((to_string i).flatMap (fun c => (glyphFor c).getD 2 []) ++ '\n' ::
      ((to_string i).flatMap (fun c => (glyphFor c).getD 3 []) ++ '\n' ::
      ((to_string i).flatMap (fun c => (glyphFor c).getD 4 []) ++ ['\n'])))) := by
  have hr : List.range 5 = [0, 1, 2, 3, 4] := by decide
  simp only [printLargeNumber, hr, List.foldl_cons, List.foldl_nil, foldl_append_flatMap,
    List.nil_append, List.append_assoc, List.singleton_append, List.cons_append]

theorem printLargeError_rows :
    printLargeError [] =
      " -             ".toList ++ '\n' ::
      ("|              ".toList ++ '\n' ::
      (" -  -  -  -  - ".toList ++ '\n' ::
      ("|  |  |  | ||  ".toList ++ '\n' ::
      (" -        -    ".toList ++ ['\n'])))) := by
  decide

theorem append_sep_inj (sep : Char) :
    ∀ (w w' x x' : List Char), sep ∉ w → sep ∉ w' →
      w ++ sep :: x = w' ++ sep :: x' → w = w' ∧ x = x'
  | [], [], _, _ => by
    intro _ _ h
    simpa using h
  | [], c :: cs, _, _ => by
    intro _ hw' h
    simp only [List.nil_append, List.cons_append, List.cons.injEq] at h
    exact absurd (by simp [← h.1]) hw'
  | c :: cs, [], _, _ => by
    intro hw _ h
    simp only [List.nil_append, List.cons_append, List.cons.injEq] at h
    exact absurd (by simp [h.1]) hw
  | c :: cs, d :: ds, x, x' => by
    intro hw hw' h
    simp only [List.cons_append, List.cons.injEq] at h
    have := append_sep_inj sep cs ds x x' (fun hm => hw (List.mem_cons_of_mem _ hm))
      (fun hm => hw' (List.mem_cons_of_mem _ hm)) h.2
    exact ⟨by rw [h.1, this.1], this.2⟩

theorem getD_mem_or_nil {α : Type} (l : List (List α)) (i : Nat) :
    l.getD i [] ∈ l ∨ l.getD i [] = [] := by
  by_cases h : i < l.length
  · left
    rw [List.getD_eq_getElem _ _ h]
    exact List.getElem_mem h
  · right
    rw [List.getD_eq_default _ _ (by omega)]

theorem glyphFor_mem_or_nil (c : Char) : glyphFor c ∈ minus :: digits ∨ glyphFor c = [] := by
  unfold glyphFor
  split_ifs
  · exact Or.inl (List.mem_cons_self _ _)
  · rcases getD_mem_or_nil digits (c.toNat - 48) with h | h
    · exact Or.inl (List.mem_cons_of_mem _ h)
    · exact Or.inr h

theorem glyph_row_no_newline (c : Char) (row : Nat) : '\n' ∉ (glyphFor c).getD row [] := by
  have hall : ∀ g ∈ minus :: digits, ∀ r ∈ g, '\n' ∉ r := by decide
  rcases glyphFor_mem_or_nil c with hg | hg
  · rcases getD_mem_or_nil (glyphFor c) row with hr | hr
    · exact hall _ hg _ hr
    · rw [hr]
      simp
  · rw [hg]
    simp

theorem number_row_no_newline (text : List Char) (row : Nat) :
    '\n' ∉ text.flatMap (fun c => (glyphFor c).getD row []) := by
  intro h
  obtain ⟨c, _, hc⟩ := List.mem_flatMap.1 h
  exact glyph_row_no_newline c row hc

theorem to_string_cons (i : Int) :
    ∃ c cs, to_string i = c :: cs ∧ glyphFor c ∈ minus :: digits := by
  by_cases hneg : i < 0
  · exact ⟨'-', to_string.natText i.natAbs, by simp [to_string, hneg], by decide⟩
  · obtain ⟨d, ds, hnat, hd⟩ := natText_cons i.natAbs
    refine ⟨d, ds, by simp [to_string, hneg, hnat], ?_⟩
    have hne := (isdigit_not_sign hd).1
    simp only [isdigit, Bool.and_eq_true, decide_eq_true_eq] at hd
    have hlt : d.toNat - 48 < digits.length := by
      have : digits.length = 10 := by decide
      omega
    simp only [glyphFor, hne, if_false]
    rw [List.getD_eq_getElem _ _ hlt]
    exact List.mem_cons_of_mem _ (List.getElem_mem hlt)

theorem printLargeNumber_ne_printLargeError (i : Int) :
    printLargeNumber i [] ≠ printLargeError [] := by
  intro heq
  rw [printLargeNumber_rows, printLargeError_rows] at heq
  obtain ⟨-, heq⟩ := append_sep_inj '\n' _ _ _ _ (number_row_no_newline _ 0) (by decide) heq
  obtain ⟨h1, heq⟩ := append_sep_inj '\n' _ _ _ _ (number_row_no_newline _ 1) (by decide) heq
  obtain ⟨-, heq⟩ := append_sep_inj '\n' _ _ _ _ (number_row_no_newline _ 2) (by decide) heq
  obtain ⟨h3, -⟩ := append_sep_inj '\n' _ _ _ _ (number_row_no_newline _ 3) (by decide) heq
  obtain ⟨c, cs, htext, hg⟩ := to_string_cons i
  have hall : ∀ g ∈ minus :: digits,
      (g.getD 1 []).length = 3 ∧ (g.getD 3 []).length = 3 ∧
        ¬ (g.getD 1 [] = "|  ".toList ∧ g.getD 3 [] = "|  ".toList) := by decide
  obtain ⟨hl1, hl3, hno⟩ := hall _ hg
  rw [htext, List.flatMap_cons] at h1 h3
  apply hno
  constructor
  · have := congrArg (List.take 3) h1
    rw [List.take_left' hl1] at this
    rw [this]
    decide
  · have := congrArg (List.take 3) h3
    rw [List.take_left' hl3] at this
    rw [this]
    decide

/-! ## The loop of `pocketcalculator` -/

theorem pocketcalculator_readLines_eq :
    ∀ (fuel : Nat) (buf : List Char) (out : List Char), buf.length < fuel →
      pocketcalculator.readLines fuel ⟨buf, false, false⟩ out =
        some (pocketcalculator.processLines out (inputLines buf))
  | 0, _, _ => by intro h; exact absurd h (Nat.not_lt_zero _)
  | fuel + 1, [], out => by
    intro _
    simp [pocketcalculator.readLines, getline, IStream.good, IStream.ok, inputLines,
      inputLines.go, pocketcalculator.processLines]
  | fuel + 1, c :: cs, out => by
    intro hlen
    have hgl : getline ⟨c :: cs, false, false⟩ =
        ((getline.extract [] (c :: cs)).2, (getline.extract [] (c :: cs)).1) := by
      simp [getline, IStream.good]
    rcases getline_extract_spec (c :: cs) [] with ⟨line, rest, h1, h2, h3⟩ | ⟨h1, h2⟩
    · have hg : getline ⟨c :: cs, false, false⟩ = (⟨rest, false, false⟩, line) := by
        rw [hgl, h1]
      simp only [pocketcalculator.readLines, hg, IStream.ok, Bool.not_false, if_true,
        inputLines, h2, pocketcalculator.processLines]
      cases pocketcalculator.processLine out line with
      | killed => rfl
      | returned out' =>
        simp only
        exact pocketcalculator_readLines_eq fuel rest out' (by simp at hlen h3; omega)
    · have hg : getline ⟨c :: cs, false, false⟩ = (⟨[], true, false⟩, c :: cs) := by
        rw [hgl, h1]
        simp
      simp only [List.nil_append, List.isEmpty_cons, Bool.false_eq_true, if_false] at h2
      simp only [pocketcalculator.readLines, hg, IStream.ok, Bool.not_false, if_true,
        inputLines, h2, pocketcalculator.processLines]
      cases pocketcalculator.processLine out (c :: cs) with
      | killed => rfl
      | returned out' =>
        cases fuel with
        | zero => simp at hlen
        | succ fuel =>
          simp [pocketcalculator.readLines, getline, IStream.good, IStream.ok]

theorem pocketcalculator_eq_lines (text : List Char) :
    pocketcalculator text =
      some (pocketcalculator.processLines [] (inputLines text)) :=
  pocketcalculator_readLines_eq (text.length + 1) text [] (Nat.lt_succ_self _)

theorem processLines_single (out : List Char) (line : List Char) :
    pocketcalculator.processLines out [line] = pocketcalculator.processLine out line := by
  simp only [pocketcalculator.processLines]
  cases pocketcalculator.processLine out line <;> rfl

theorem inputLines_go_line_break :
    ∀ (l cur rest : List Char), '\n' ∉ l →
      inputLines.go cur (l ++ '\n' :: rest) = (cur ++ l) :: inputLines.go [] rest
  | [], cur, rest => by
    intro _
    simp [inputLines.go]
  | c :: cs, cur, rest => by
    intro h
    have hc : c ≠ '\n' := fun hc => h (by simp [hc])
    have hcs : '\n' ∉ cs := fun hcs => h (List.mem_cons_of_mem _ hcs)
    simp [inputLines.go, hc, inputLines_go_line_break cs (cur ++ [c]) rest hcs]

theorem pocketcalculator_single_line {line : List Char} (hne : line ≠ [])
    (hnl : '\n' ∉ line) :
    pocketcalculator (line ++ ['\n']) = some (pocketcalculator.processLine [] line) ∧
      pocketcalculator line = some (pocketcalculator.processLine [] line) := by
  constructor
  · rw [pocketcalculator_eq_lines, inputLines, inputLines_go_line_break line [] [] hnl]
    simp [inputLines.go, processLines_single]
  · rw [pocketcalculator_eq_lines, inputLines, inputLines_go_no_newline line [] hnl]
    cases line with
    | nil => exact absurd rfl hne
    | cons c cs => simp [processLines_single]

/-! ## The claim on the display width -/

theorem to_string_no_newline (v : Int) : '\n' ∉ to_string v := by
  have hd : ∀ n, '\n' ∉ to_string.natText n := by
    intro n h
    have := natText_isdigit n _ h
    revert this
    decide
  unfold to_string
  split_ifs
  · intro h
    rcases List.mem_cons.1 h with h' | h'
    · revert h'
      decide
    · exact hd _ h'
  · exact hd _

theorem expressionLine_facts (a b : Int) (op : Char) (w1 w2 w3 w4 : List Char)
    (hop : op = '+' ∨ op = '-' ∨ op = '*' ∨ op = '/' ∨ op = '%')
    (hw : ∀ c ∈ w1 ++ w2 ++ w3 ++ w4, isspace c = true ∧ c ≠ '\n') :
    expressionLine w1 a w2 op w3 b w4 ≠ [] ∧ '\n' ∉ expressionLine w1 a w2 op w3 b w4 := by
  constructor
  · simp [expressionLine]
  · intro h
    simp only [expressionLine, List.mem_append, List.mem_singleton] at h
    have hws : ∀ w : List Char, (∀ c ∈ w, c ∈ w1 ++ w2 ++ w3 ++ w4) → '\n' ∉ w :=
      fun w hsub hm => (hw _ (hsub _ hm)).2 rfl
    rcases h with ((((((h | h) | h) | h) | h) | h) | h)
    · exact hws w1 (fun c hc => by simp [hc]) h
    · exact to_string_no_newline a h
    · exact hws w2 (fun c hc => by simp [hc]) h
    · exact (operator_facts hop).2.2 h.symm
    · exact hws w3 (fun c hc => by simp [hc]) h
    · exact to_string_no_newline b h
    · exact hws w4 (fun c hc => by simp [hc]) h

/-- C22, as amended: for an input line `a op b` in which `a` and `b` lie in the range
of `int`, `op` is one of `+ - * / %` with `b ≠ 0` for `/` and `%`, the quotient `a / b`
lies in the range of `int` for `/` and `%` (it does unless `a` is the smallest `int` and
`b` is `-1`), and the exact result of `a op b` lies in the range of `int`,
`pocketcalculator` returns and writes the result as a large number when its decimal
text, a leading `-` counted, has at most 8 characters, which is the case exactly for
`-9999999 ≤ result ≤ 99999999`, and writes the error glyphs otherwise; the two outputs
are never the same text. The line may end with a line break or be the last line
without one, and may hold whitespace around the tokens. -/
theorem pocketcalculator_shows_result_iff_at_most_eight_characters (a b : Int) (op : Char)
    (w1 w2 w3 w4 : List Char) (ha : inIntRange a) (hb : inIntRange b)
    (hop : op = '+' ∨ op = '-' ∨ op = '*' ∨ op = '/' ∨ op = '%')
    (hb0 : (op = '/' ∨ op = '%') → b ≠ 0)
    (hq : (op = '/' ∨ op = '%') → inIntRange (Int.tdiv a b))
    (hr : inIntRange (exactResult a b op))
    (hw : ∀ c ∈ w1 ++ w2 ++ w3 ++ w4, isspace c = true ∧ c ≠ '\n') :
    (printed_width (exactResult a b op) ≤ 8 ↔
        (-9999999 ≤ exactResult a b op ∧ exactResult a b op ≤ 99999999)) ∧
      ((-9999999 ≤ exactResult a b op ∧ exactResult a b op ≤ 99999999) →
        pocketcalculator (expressionLine w1 a w2 op w3 b w4 ++ ['\n']) =
            some (.returned (printLargeNumber (exactResult a b op) [])) ∧
          pocketcalculator (expressionLine w1 a w2 op w3 b w4) =
            some (.returned (printLargeNumber (exactResult a b op) []))) ∧
      (¬ (-9999999 ≤ exactResult a b op ∧ exactResult a b op ≤ 99999999) →
        pocketcalculator (expressionLine w1 a w2 op w3 b w4 ++ ['\n']) =
            some (.returned (printLargeError [])) ∧
          pocketcalculator (expressionLine w1 a w2 op w3 b w4) =
            some (.returned (printLargeError []))) ∧
      printLargeNumber (exactResult a b op) [] ≠ printLargeError [] := by
  have hws : ∀ w : List Char, (∀ c ∈ w, c ∈ w1 ++ w2 ++ w3 ++ w4) →
      ∀ c ∈ w, isspace c = true :=
    fun w hsub c hc => (hw c (hsub c hc)).1
  have heval := evaluate_expressionLine a b op w1 w2 w3 w4 ha hb hop
    (hws w1 (fun c hc => by simp [hc])) (hws w2 (fun c hc => by simp [hc]))
    (hws w3 (fun c hc => by simp [hc])) (hws w4 (fun c hc => by simp [hc]))
  rw [calc_eq_exactResult a b hop hb0 hq, wrapInt_of_inIntRange hr] at heval
  obtain ⟨hne, hnl⟩ := expressionLine_facts a b op w1 w2 w3 w4 hop hw
  have hempty : (expressionLine w1 a w2 op w3 b w4).isEmpty = false := by
    cases h : expressionLine w1 a w2 op w3 b w4 with
    | nil => exact absurd h hne
    | cons _ _ => rfl
  have hwidth := printed_width_le_eight_iff (exactResult a b op)
  have hsingle := pocketcalculator_single_line hne hnl
  refine ⟨hwidth, ?_, ?_, printLargeNumber_ne_printLargeError _⟩
  · intro hin
    have hle : ¬ printed_width (exactResult a b op) > 8 := by
      have := hwidth.2 hin
      omega
    have hproc : pocketcalculator.processLine [] (expressionLine w1 a w2 op w3 b w4) =
        .returned (printLargeNumber (exactResult a b op) []) := by
      simp only [pocketcalculator.processLine, hempty, Bool.false_eq_true, if_false, heval,
        hle]
    rw [hsingle.1, hsingle.2, hproc]
    exact ⟨rfl, rfl⟩
  · intro hout
    have hgt : printed_width (exactResult a b op) > 8 := by
      by_contra hcon
      exact hout (hwidth.1 (by omega))
    have hproc : pocketcalculator.processLine [] (expressionLine w1 a w2 op w3 b w4) =
        .returned (printLargeError []) := by
      simp only [pocketcalculator.processLine, hempty, Bool.false_eq_true, if_false, heval,
        hgt, if_true]
    rw [hsingle.1, hsingle.2, hproc]
    exact ⟨rfl, rfl⟩

/-- C22, as amended, at the inputs of the tests: `12345670+8` shows 12345678 and
`0-1234567` shows -1234567, while `123456780+9` and `0-12345678` give the error
glyphs; and at a remainder, `-7%2` shows -1. -/
theorem pocketcalculator_shows_result_iff_at_most_eight_characters_witness :
    (inIntRange 12345670 ∧ inIntRange 8 ∧ inIntRange (exactResult 12345670 8 '+') ∧
        exactResult 12345670 8 '+' = 12345678 ∧
        pocketcalculator (expressionLine [] 12345670 [] '+' [] 8 [] ++ ['\n']) =
          some (.returned (printLargeNumber (exactResult 12345670 8 '+') [])) ∧
        pocketcalculator (expressionLine [] 12345670 [] '+' [] 8 []) =
          some (.returned (printLargeNumber (exactResult 12345670 8 '+') []))) ∧
      (inIntRange (-7) ∧ inIntRange 2 ∧ (2 : Int) ≠ 0 ∧ inIntRange (Int.tdiv (-7) 2) ∧
        inIntRange (exactResult (-7) 2 '%') ∧ exactResult (-7) 2 '%' = -1 ∧
        pocketcalculator (expressionLine [] (-7) [] '%' [] 2 [] ++ ['\n']) =
          some (.returned (printLargeNumber (exactResult (-7) 2 '%') []))) ∧
      pocketcalculator "12345670+8\n".toList = some (.returned (printLargeNumber 12345678 [])) ∧
      pocketcalculator "0-1234567\n".toList = some (.returned (printLargeNumber (-1234567) [])) ∧
      pocketcalculator "123456780+9\n".toList = some (.returned (printLargeError [])) ∧
      pocketcalculator "0-12345678\n".toList = some (.returned (printLargeError [])) :=
  ⟨⟨by unfold inIntRange; decide, by unfold inIntRange; decide,
      by unfold inIntRange; decide, by decide,
      (pocketcalculator_shows_result_iff_at_most_eight_characters 12345670 8 '+' [] [] [] []
        (by unfold inIntRange; decide) (by unfold inIntRange; decide)
        (Or.inl rfl) (by decide) (fun h => by rcases h with h | h <;> exact absurd h (by decide))
        (by unfold inIntRange; decide)
        (by simp)).2.1 (by decide)⟩,
    ⟨by unfold inIntRange; decide, by unfold inIntRange; decide, by decide,
      by unfold inIntRange; decide, by unfold inIntRange; decide, by decide,
      ((pocketcalculator_shows_result_iff_at_most_eight_characters (-7) 2 '%' [] [] [] []
        (by unfold inIntRange; decide) (by unfold inIntRange; decide)
        (Or.inr (Or.inr (Or.inr (Or.inr rfl)))) (by decide)
        (fun _ => by unfold inIntRange; decide) (by unfold inIntRange; decide)
        (by simp)).2.1 (by decide)).1⟩,
    by decide, by decide, by decide, by decide⟩

/-- C22, as stated, fails in three ways. The line `3000000000-2999999999` has the
result 1, of one character, yet the error glyphs are written: `3000000000` does not fit
the `int` operand and its extraction fails. The line `65536*65536` has the result
4294967296, of ten characters, yet a number is written, namely 0: the `int`
multiplication in `calc` overflows. The line `-2147483648%-1` has the result 0, of one
character, with `b ≠ 0`, yet nothing is written: the quotient does not fit an `int` and
the process is killed in `calc`. -/
theorem pocketcalculator_counterexample_outside_int_range :
    (pocketcalculator "3000000000-2999999999\n".toList = some (.returned (printLargeError [])) ∧
        (3000000000 - 2999999999 : Int) = 1 ∧
        printed_width 1 ≤ 8 ∧
        printLargeNumber 1 [] ≠ printLargeError []) ∧
      (pocketcalculator "65536*65536\n".toList = some (.returned (printLargeNumber 0 [])) ∧
        (65536 * 65536 : Int) = 4294967296 ∧
        ¬ ((4294967296 : Int) ≤ 99999999) ∧
        printLargeNumber 0 [] ≠ printLargeError []) ∧
      (pocketcalculator "-2147483648%-1\n".toList = some .killed ∧
        Calc.calc (-2147483648) (-1) '%' = .killed ∧
        Calc.calc (-2147483648) (-1) '/' = .killed ∧
        exactResult (-2147483648) (-1) '%' = 0 ∧
        printed_width 0 ≤ 8 ∧
        (-1 : Int) ≠ 0) := by
  refine ⟨⟨by decide, by decide, by decide, by decide⟩,
    ⟨by decide, by decide, by decide, by decide⟩,
    ⟨by decide, rfl, rfl, by decide, by decide, by decide⟩⟩

end text
